import Mathlib

/-!
Verification of the GenAgent agent-runtime core against its specification.

The TypeScript sources are shallowly embedded: pure functions become Lean
functions, stateful components become explicit state-passing functions or
step relations, JS numbers used as character counts become `Nat`/`Int`,
ratio comparisons (performed on JS floats holding small decimal constants)
become exact `Rat` comparisons, and fallible async code returns `Except`.

Embedded components:
* data model (`Message`, `ContentBlock`) — modelled from the spec
  (src/session.ts is not part of the provided sources);
* char/token estimators — modelled from the spec (src/context/tokens.ts is
  not part of the provided sources; the spec fixes CHARS_PER_TOKEN_ESTIMATE = 4);
* context pruning (src/context/pruning.ts);
* compaction error path (src/context/compaction.ts);
* tool policy (src/tool-policy.ts);
* provider error classification (src/provider/errors.ts);
* session tool-result guard (src/session-tool-result-guard.ts);
* command-queue lanes (src/command-queue.ts);
* the agent loop's tool-execution phase and inner-loop step (src/agent-loop.ts).
-/

namespace GenAgent

/-! ## Data model (modelled from the spec, §3)

`Modelled from the spec:` src/session.ts is not among the provided sources.
The spec fixes the shape: a message has `role ∈ \x7buser, assistant\x7d`, a
`content` that is either a raw string or a sequence of content blocks, and a
timestamp; blocks are the tagged variants `text`, `tool_use`, `tool_result`.
A `tool_result`'s `name` is optional and its `content` may be a non-string
JS value (the pruner checks `typeof block.content === "string"`), modelled
as `Option String` with `none` standing for a non-string value.  The opaque
`input` record of a `tool_use` is modelled as a `String` payload. -/

inductive Role where
  | user
  | assistant
deriving DecidableEq, Repr

inductive ContentBlock where
  | text (text : String)
  | tool_use (id : String) (name : String) (input : String)
  | tool_result (tool_use_id : String) (name : Option String) (content : Option String)
deriving DecidableEq, Repr

inductive MsgContent where
  | str (s : String)
  | blocks (bs : List ContentBlock)
deriving DecidableEq, Repr

structure Message where
  role : Role
  content : MsgContent
  timestamp : Nat
deriving DecidableEq, Repr

/-- `Modelled from the spec:` src/context/tokens.ts is not among the provided
sources; the spec says only that "all comparisons are performed in chars"
with a fixed `CHARS_PER_TOKEN_ESTIMATE` of 4.  A block's chars are modelled
as the character count of its textual payload. -/
def estimateBlockChars : ContentBlock → Nat
  | .text t => t.length
  | .tool_use _ _ input => input.length
  | .tool_result _ _ content => (content.getD "").length

/-- `Modelled from the spec:` char estimate of one message (see
`estimateBlockChars`). -/
def estimateMessageChars (m : Message) : Nat :=
  match m.content with
  | .str s => s.length
  | .blocks bs => (bs.map estimateBlockChars).sum

/-- `Modelled from the spec:` char estimate of a message list. -/
def estimateMessagesChars (ms : List Message) : Nat :=
  (ms.map estimateMessageChars).sum

/-- The spec fixes this constant (§4.6). -/
def CHARS_PER_TOKEN_ESTIMATE : Nat := 4

/-- `Modelled from the spec:` token estimate of one message, chars divided by
`CHARS_PER_TOKEN_ESTIMATE` (rounded up). -/
def estimateMessageTokens (m : Message) : Nat :=
  (estimateMessageChars m + (CHARS_PER_TOKEN_ESTIMATE - 1)) / CHARS_PER_TOKEN_ESTIMATE

/-- `Modelled from the spec:` token estimate of a message list. -/
def estimateMessagesTokens (ms : List Message) : Nat :=
  (ms.map estimateMessageTokens).sum

/-- `Modelled from the spec:` "Compaction summary: a single synthetic
user-role message with the summary as string content" (§4.7). -/
def createCompactionSummaryMessage (summary : String) (timestamp : Nat) : Message :=
  { role := .user, content := .str summary, timestamp }

/-! ## String helpers

JS string primitives are modelled by structurally recursive functions over
the character list of a `String` (the core library versions built on
byte positions or well-founded recursion are avoided so that concrete
counterexamples evaluate inside the kernel). -/

/-- JS `String.prototype.trim`. -/
def jsTrim (s : String) : String :=
  String.mk (((s.data.dropWhile Char.isWhitespace).reverse.dropWhile Char.isWhitespace).reverse)

/-- JS `String.prototype.toLowerCase` (ASCII case folding). -/
def jsToLower (s : String) : String :=
  String.mk (s.data.map Char.toLower)

/-- Substring containment on character lists. -/
def containsSubChars : List Char → List Char → Bool
  | hs, n => if List.isPrefixOf n hs then true else
    match hs with
    | [] => false
    | _ :: rest => containsSubChars rest n

/-- JS `String.prototype.includes`. -/
def jsIncludes (haystack : String) (needle : String) : Bool :=
  containsSubChars haystack.data needle.data

/-- JS `String.prototype.slice(0, n)`. -/
def strTake (s : String) (n : Nat) : String :=
  String.mk (s.data.take n)

/-- JS `String.prototype.slice(n)` for `0 ≤ n ≤ length`. -/
def strDrop (s : String) (n : Nat) : String :=
  String.mk (s.data.drop n)

/-- JS `Array.prototype.join(sep)`. -/
def strIntercalate (sep : String) : List String → String
  | [] => ""
  | s :: ss => ss.foldl (fun acc x => acc ++ sep ++ x) s

def natDigitChar (n : Nat) : Char := Char.ofNat (48 + n)

def natToStringAux : Nat → Nat → List Char → List Char
  | 0, _, acc => acc
  | fuel + 1, n, acc =>
    if n < 10 then natDigitChar n :: acc
    else natToStringAux fuel (n / 10) (natDigitChar (n % 10) :: acc)

/-- Decimal rendering of a natural number (JS number-to-string on the
integer character counts appearing in generated notes). -/
def natToString (n : Nat) : String := String.mk (natToStringAux (n + 1) n [])

/-! ## Glob matching

src/context/pruning.ts compiles a pattern into the regex
`^(escaped pattern with * replaced by .*)$` and src/tool-policy.ts does the
same after a three-tier special-casing.  Both regexes denote plain glob
matching in which `*` is the only wildcard and matches any (possibly empty)
substring; `globChars` is that denotation, written as a backtracking
matcher over character lists. -/

/-- `.*` step: try the rest of the pattern at every suffix of the value. -/
def globStar (next : List Char → Bool) : List Char → Bool
  | [] => next []
  | x :: vs => next (x :: vs) || globStar next vs

def globChars : List Char → List Char → Bool
  | [], v => v.isEmpty
  | c :: ps, v =>
    if c = '*' then globStar (globChars ps) v
    else
      match v with
      | [] => false
      | x :: vs => x = c && globChars ps vs

/-- src/context/pruning.ts `matchGlob` ("supports only * wildcard"). -/
def matchGlob (value : String) (pattern : String) : Bool :=
  if pattern = "*" then true
  else if !pattern.toList.contains '*' then value == pattern
  else globChars pattern.toList value.toList

/-! ## Tool policy (src/tool-policy.ts) -/

structure ToolPolicy where
  allow : Option (List String)
  deny : Option (List String)
deriving DecidableEq, Repr

/-- src/tool-policy.ts `normalizeToolName`: lowercase/trim plus the alias
mapping apply-patch → apply_patch and bash → exec. -/
def normalizeToolName (name : String) : String :=
  let trimmed := jsToLower (jsTrim name)
  if trimmed = "apply-patch" then "apply_patch"
  else if trimmed = "bash" then "exec"
  else trimmed

/-- src/tool-policy.ts three-tier `CompiledPattern`. -/
inductive CompiledPattern where
  | all
  | exact (value : String)
  | glob (pattern : String)
deriving DecidableEq, Repr

/-- src/tool-policy.ts `compilePattern`.  The regex tier (`^escaped$` with
`\*` rewritten to `.*`) is represented by its glob denotation. -/
def compilePattern (pattern : String) : CompiledPattern :=
  let normalized := normalizeToolName pattern
  if normalized = "" then .exact ""
  else if normalized = "*" then .all
  else if !normalized.toList.contains '*' then .exact normalized
  else .glob normalized

def patternMatchesCompiled (name : String) : CompiledPattern → Bool
  | .all => true
  | .exact v => name == v
  | .glob pat => globChars pat.toList name.toList

/-- src/tool-policy.ts `matchesAny`. -/
def matchesAnyPattern (name : String) (patterns : List CompiledPattern) : Bool :=
  patterns.any (patternMatchesCompiled name)

/-- src/tool-policy.ts `isToolAllowed`. -/
def isToolAllowed (name : String) (policy : Option ToolPolicy) : Bool :=
  match policy with
  | none => true
  | some policy =>
    let normalized := normalizeToolName name
    let deny := (policy.deny.getD []).map compilePattern
    let allow := (policy.allow.getD []).map compilePattern
    if matchesAnyPattern normalized deny then false
    else if allow.length = 0 then true
    else if matchesAnyPattern normalized allow then true
    else if normalized = "apply_patch" && matchesAnyPattern "exec" allow then true
    else false

end GenAgent

namespace GenAgent

/-! ## Provider error classification (src/provider/errors.ts) -/

def RATE_LIMIT_PATTERNS : List String :=
  ["rate_limit", "too many requests", "429", "exceeded quota",
   "resource exhausted", "quota exceeded", "resource_exhausted", "usage limit"]

def CONTEXT_OVERFLOW_PATTERNS : List String :=
  ["request_too_large", "request exceeds the maximum size",
   "context length exceeded", "maximum context length", "prompt is too long",
   "exceeds model context window", "context overflow"]

/-- src/provider/errors.ts `matchesAny`. -/
def matchesAnyErrorPattern (message : String) (patterns : List String) : Bool :=
  patterns.any (fun p => jsIncludes (jsToLower message) p)

/-- src/provider/errors.ts `isContextOverflowError` (the `Option` argument
models the optional `message?` parameter; `none` and the empty string are
both falsy). -/
def isContextOverflowError (message : Option String) : Bool :=
  match message with
  | none => false
  | some message =>
    if message = "" then false
    else if matchesAnyErrorPattern message CONTEXT_OVERFLOW_PATTERNS then true
    else
      let lower := jsToLower message
      if jsIncludes lower "413" && jsIncludes lower "too large" then true
      else false

/-- src/provider/errors.ts `isRateLimitError`. -/
def isRateLimitError (message : Option String) : Bool :=
  match message with
  | none => false
  | some message =>
    if message = "" then false
    else matchesAnyErrorPattern message RATE_LIMIT_PATTERNS

end GenAgent

namespace GenAgent

/-! ## Context pruning (src/context/pruning.ts) -/

/-- Exact product of an integer and a rational, `n * r`, built with `mkRat`
(which normalizes and stays kernel-reducible, unlike `Rat.mul`). -/
def ratMulIntRat (n : Int) (r : Rat) : Rat := mkRat (n * r.num) r.den

/-- JS `Math.max` (kernel-reducible, unlike the lattice `max`). -/
def jsMaxInt (a b : Int) : Int := if a < b then b else a

/-- JS `Math.max` on naturals. -/
def jsMaxNat (a b : Nat) : Nat := if a < b then b else a

/-- src/context/pruning.ts `ContextPruningToolMatch`. -/
structure ContextPruningToolMatch where
  allow : Option (List String)
  deny : Option (List String)
deriving DecidableEq, Repr

/-- src/context/pruning.ts `makeToolPrunablePredicate`: deny takes priority,
empty allow means all allowed, otherwise match allow. -/
def makeToolPrunablePredicate (m : Option ContextPruningToolMatch) : String → Bool :=
  match m with
  | none => fun _ => true
  | some m =>
    let deny := m.deny.getD []
    let allow := m.allow.getD []
    fun toolName =>
      let normalized := jsToLower (jsTrim toolName)
      if deny.any (fun pattern => matchGlob normalized (jsToLower pattern)) then false
      else if allow.length = 0 then true
      else allow.any (fun pattern => matchGlob normalized (jsToLower pattern))

structure SoftTrimSettings where
  maxChars : Nat
  headChars : Nat
  tailChars : Nat
deriving DecidableEq, Repr

structure HardClearSettings where
  enabled : Bool
  placeholder : String
deriving DecidableEq, Repr

/-- src/context/pruning.ts `ContextPruningSettings`.  The embedding takes
fully resolved settings (the `resolvePruningSettings` merge of a partial
record into the defaults is plumbing not exercised by any claim); the
ratio fields, JS floats holding small decimal constants, are `Rat`. -/
structure ContextPruningSettings where
  maxHistoryShare : Rat
  keepLastAssistants : Nat
  softTrimRatio : Rat
  hardClearRatio : Rat
  minPrunableToolChars : Nat
  softTrim : SoftTrimSettings
  hardClear : HardClearSettings
  tools : Option ContextPruningToolMatch
deriving DecidableEq, Repr

/-- src/context/pruning.ts `DEFAULT_CONTEXT_PRUNING_SETTINGS` (its `tools`
field is the empty match object, not `undefined`). -/
def DEFAULT_CONTEXT_PRUNING_SETTINGS : ContextPruningSettings where
  maxHistoryShare := mkRat 1 2
  keepLastAssistants := 3
  softTrimRatio := mkRat 3 10
  hardClearRatio := mkRat 1 2
  minPrunableToolChars := 50000
  softTrim := { maxChars := 4000, headChars := 1500, tailChars := 1500 }
  hardClear := { enabled := true, placeholder := "[Old tool result content cleared]" }
  tools := some { allow := none, deny := none }

/-- src/context/pruning.ts `isToolResultProtected` (reserved for images;
always false). -/
def isToolResultProtected (_block : ContentBlock) : Bool := false

/-- src/context/pruning.ts `softTrimToolResultBlock`: keep head + tail of an
oversized tool result, discard the middle, add an explanation.  Returns the
(possibly replaced) block and the `trimmed` flag.  Note the code applies the
prunability predicate to the block's `tool_use_id` (skipping the check when
the id is falsy, i.e. empty). -/
def softTrimToolResultBlock (block : ContentBlock) (settings : SoftTrimSettings)
    (isPrunable : String → Bool) : ContentBlock × Bool :=
  match block with
  | .tool_result tool_use_id name content =>
    if isToolResultProtected (.tool_result tool_use_id name content) then
      (.tool_result tool_use_id name content, false)
    else if tool_use_id != "" && !isPrunable tool_use_id then
      (.tool_result tool_use_id name content, false)
    else
      let raw := content.getD ""
      let rawLen := raw.length
      if rawLen ≤ settings.maxChars then (.tool_result tool_use_id name content, false)
      else if settings.headChars + settings.tailChars ≥ rawLen then
        (.tool_result tool_use_id name content, false)
      else
        let head := strTake raw settings.headChars
        let tail := strDrop raw (rawLen - settings.tailChars)
        let trimmedText :=
          head ++ "\n...\n" ++ tail ++ "\n\n[Tool result trimmed: kept first " ++
            natToString settings.headChars ++ " chars and last " ++
            natToString settings.tailChars ++ " chars of " ++ natToString rawLen ++ " chars.]"
        (.tool_result tool_use_id name (some trimmedText), true)
  | b => (b, false)

/-- One message of src/context/pruning.ts `applySoftTrim`'s loop (string
content passes through; block content is mapped block-wise; the message is
cloned when any block was trimmed, which for values coincides with the
unchanged message otherwise). -/
def softTrimMessage (m : Message) (settings : SoftTrimSettings)
    (isPrunable : String → Bool) : Message × Nat :=
  match m.content with
  | .str _ => (m, 0)
  | .blocks bs =>
    let results := bs.map (fun b => softTrimToolResultBlock b settings isPrunable)
    let trimmedCount := (results.filter (fun r => r.2)).length
    let nextBlocks := results.map (fun r => r.1)
    if trimmedCount > 0 then ({ m with content := .blocks nextBlocks }, trimmedCount)
    else (m, 0)

/-- src/context/pruning.ts `applySoftTrim`. -/
def applySoftTrim (messages : List Message) (settings : ContextPruningSettings)
    (isPrunable : String → Bool) : List Message × Nat :=
  let results := messages.map (fun m => softTrimMessage m settings.softTrim isPrunable)
  (results.map (fun r => r.1), (results.map (fun r => r.2)).sum)

/-- Chars one block contributes to src/context/pruning.ts
`countPrunableToolChars`. -/
def prunableToolResultChars (isPrunable : String → Bool) : ContentBlock → Nat
  | .tool_result tool_use_id name content =>
    if isToolResultProtected (.tool_result tool_use_id name content) then 0
    else if tool_use_id != "" && !isPrunable tool_use_id then 0
    else (content.getD "").length
  | _ => 0

/-- src/context/pruning.ts `countPrunableToolChars`. -/
def countPrunableToolChars (messages : List Message) (isPrunable : String → Bool) : Nat :=
  (messages.map (fun m =>
    match m.content with
    | .str _ => 0
    | .blocks bs => (bs.map (prunableToolResultChars isPrunable)).sum)).sum

/-- Block scan of src/context/pruning.ts `applyHardClear`: clears eligible
tool results to the placeholder while the running char total keeps the
ratio at or above `hardClearRatio`; the running total is an `Int` ledger
(clearing a short result can increase it).  Returns the new blocks, the
ledger, and the number cleared. -/
def hardClearGoBlocks (s : ContextPruningSettings) (isPrunable : String → Bool)
    (charWindow : Nat) : List ContentBlock → Int → List ContentBlock × Int × Nat
  | [], total => ([], total, 0)
  | b :: bs, total =>
    let step : ContentBlock × Int × Nat :=
      match b with
      | .tool_result tool_use_id name (some content) =>
        if !isToolResultProtected (.tool_result tool_use_id name (some content))
            && content.length > 0
            && (tool_use_id == "" || isPrunable tool_use_id) then
          if mkRat total charWindow < s.hardClearRatio then (b, total, 0)
          else
            (.tool_result tool_use_id name (some s.hardClear.placeholder),
             total - ((content.length : Int) - (s.hardClear.placeholder.length : Int)), 1)
        else (b, total, 0)
      | _ => (b, total, 0)
    let rest := hardClearGoBlocks s isPrunable charWindow bs step.2.1
    (step.1 :: rest.1, rest.2.1, step.2.2 + rest.2.2)

/-- Message scan of src/context/pruning.ts `applyHardClear`. -/
def hardClearGoMessages (s : ContextPruningSettings) (isPrunable : String → Bool)
    (charWindow : Nat) : List Message → Int → List Message × Int × Nat
  | [], total => ([], total, 0)
  | m :: ms, total =>
    match m.content with
    | .str _ =>
      let rest := hardClearGoMessages s isPrunable charWindow ms total
      (m :: rest.1, rest.2.1, rest.2.2)
    | .blocks bs =>
      let step := hardClearGoBlocks s isPrunable charWindow bs total
      let m2 := if step.2.2 > 0 then { m with content := .blocks step.1 } else m
      let rest := hardClearGoMessages s isPrunable charWindow ms step.2.1
      (m2 :: rest.1, rest.2.1, step.2.2 + rest.2.2)

/-- src/context/pruning.ts `applyHardClear`. -/
def applyHardClear (messages : List Message) (s : ContextPruningSettings)
    (isPrunable : String → Bool) (charWindow : Nat) : List Message × Nat :=
  if !s.hardClear.enabled then (messages, 0)
  else
    let totalChars : Int := (estimateMessagesChars messages : Int)
    if mkRat totalChars charWindow < s.hardClearRatio then (messages, 0)
    else if countPrunableToolChars messages isPrunable < s.minPrunableToolChars then
      (messages, 0)
    else
      let r := hardClearGoMessages s isPrunable charWindow messages totalChars
      (r.1, r.2.2)

/-- Backward scan of src/context/pruning.ts `findAssistantCutoffIndex`,
over the reversed indexed message list. -/
def findAssistantCutoffAux (remaining : Nat) : List (Nat × Message) → Option Nat
  | [] => none
  | (i, m) :: rest =>
    if m.role = .assistant then
      if remaining ≤ 1 then some i else findAssistantCutoffAux (remaining - 1) rest
    else findAssistantCutoffAux remaining rest

/-- src/context/pruning.ts `findAssistantCutoffIndex`: index of the
`keepLastAssistants`-th assistant message from the end (protecting it and
everything after), `none` when there are fewer assistant messages. -/
def findAssistantCutoffIndex (messages : List Message) (keepLastAssistants : Nat) :
    Option Nat :=
  if keepLastAssistants = 0 then some messages.length
  else findAssistantCutoffAux keepLastAssistants messages.enum.reverse

/-- Backward scan of src/context/pruning.ts `sliceWithinBudget` over the
reversed message list; `kept` accumulates in input order. -/
def sliceGo (budgetChars : Int) : List Message → Int → List Message → List Message
  | [], _, kept => kept
  | m :: rest, used, kept =>
    let chars : Int := (estimateMessageChars m : Int)
    if used + chars > budgetChars && kept.length > 0 then kept
    else sliceGo budgetChars rest (used + chars) (m :: kept)

/-- src/context/pruning.ts `sliceWithinBudget`: keep as many recent whole
messages as fit the budget, always keeping at least one. -/
def sliceWithinBudget (messages : List Message) (budgetChars : Int) : List Message :=
  sliceGo budgetChars messages.reverse 0 []

/-- Backward extension of the protected suffix in src/context/pruning.ts
`pruneContextMessages` (layer 3): prepend older whole messages while they
fit the remaining budget, stopping at the first that does not. -/
def extendBackwardGo : List Message → Int → List Message → List Message
  | [], _, kept => kept
  | m :: rest, remaining, kept =>
    let msgChars : Int := (estimateMessageChars m : Int)
    if msgChars > remaining then kept
    else extendBackwardGo rest (remaining - msgChars) (m :: kept)

/-- Layer 3 of src/context/pruning.ts `pruneContextMessages` (message drop),
factored out of the main entry: protect the suffix at the assistant cutoff,
extend it backward within the budget, or fall back to a strictly backward
fill; dropped is the complement of the kept set (the JS `Set`-of-references
filter is modelled with value equality). -/
def applyMessageDrop (current : List Message) (budgetChars : Int)
    (keepLastAssistants : Nat) : List Message × List Message :=
  let protectedIndex := (findAssistantCutoffIndex current keepLastAssistants).getD 0
  let protectedMessages := current.drop protectedIndex
  let protectedChars : Int := (estimateMessagesChars protectedMessages : Int)
  let kept :=
    if protectedChars > budgetChars then sliceWithinBudget current budgetChars
    else
      extendBackwardGo (current.take protectedIndex).reverse
        (budgetChars - protectedChars) protectedMessages
  let dropped := current.filter (fun msg => !kept.contains msg)
  (kept, dropped)

structure PruneResult where
  messages : List Message
  droppedMessages : List Message
  trimmedToolResults : Nat
  hardClearedToolResults : Nat
  totalChars : Nat
  keptChars : Nat
  droppedChars : Nat
  budgetChars : Int
deriving DecidableEq, Repr

/-- src/context/pruning.ts `pruneContextMessages`: three-layer progressive
pruning, soft trim → hard clear → message drop. -/
def pruneContextMessages (messages : List Message) (contextWindowTokens : Nat)
    (settings : ContextPruningSettings) : PruneResult :=
  let contextTokens := jsMaxNat 1 contextWindowTokens
  let charWindow := contextTokens * CHARS_PER_TOKEN_ESTIMATE
  let budgetChars : Int := jsMaxInt 1 (Rat.floor (ratMulIntRat (charWindow : Int) settings.maxHistoryShare))
  let isPrunable := makeToolPrunablePredicate settings.tools
  let totalChars := estimateMessagesChars messages
  let softPass :=
    if mkRat (totalChars : Int) charWindow > settings.softTrimRatio then
      applySoftTrim messages settings isPrunable
    else (messages, 0)
  let afterSoftChars := estimateMessagesChars softPass.1
  let clearPass :=
    if mkRat (afterSoftChars : Int) charWindow > settings.hardClearRatio then
      applyHardClear softPass.1 settings isPrunable charWindow
    else (softPass.1, 0)
  let afterClearChars := estimateMessagesChars clearPass.1
  if (afterClearChars : Int) ≤ budgetChars then
    { messages := clearPass.1, droppedMessages := [],
      trimmedToolResults := softPass.2, hardClearedToolResults := clearPass.2,
      totalChars := afterClearChars, keptChars := afterClearChars,
      droppedChars := 0, budgetChars }
  else
    let dropPass := applyMessageDrop clearPass.1 budgetChars settings.keepLastAssistants
    let keptChars := estimateMessagesChars dropPass.1
    { messages := dropPass.1, droppedMessages := dropPass.2,
      trimmedToolResults := softPass.2, hardClearedToolResults := clearPass.2,
      totalChars := afterClearChars, keptChars := keptChars,
      droppedChars := afterClearChars - keptChars, budgetChars }

end GenAgent

namespace GenAgent

/-! ## Compaction summarization error path (src/context/compaction.ts) -/

def SAFETY_MARGIN : Rat := mkRat 6 5

def DEFAULT_SUMMARY_FALLBACK : String := "No prior history."

def SUMMARIZATION_SYSTEM_PROMPT : String :=
  "You are a context summarization assistant. Your task is to read a conversation between a user and an AI coding assistant, then output a structured summary in the specified format.\n\nDo not continue the conversation. Do not answer questions from the conversation. Only output the structured summary."

def SUMMARIZATION_PROMPT : String :=
  "The messages above are a conversation. Please generate a structured context checkpoint summary for subsequent models to continue working with.\n\nPlease strictly use the following format:\n\n## Goals\n[What does the user want to accomplish? If the session involves multiple tasks, list multiple goals]\n\n## Constraints and Preferences\n- [Any constraints, preferences, or requirements mentioned by the user]\n- [If none, write \"(none)\"]\n\n## Progress\n### Completed\n- [x] [Completed tasks/changes]\n\n### In Progress\n- [ ] [Current work in progress]\n\n### Blocked\n- [If there are blocking issues, write them here]\n\n## Key Decisions\n- **[Decision]**: [Brief rationale]\n\n## Next Steps\n1. [List next steps in order]\n\n## Key Information\n- [Any data, examples, or references needed to continue work]\n- [If not applicable, write \"(none)\"]\n\nKeep each section concise. Preserve exact file paths, function names, and error messages."

def UPDATE_SUMMARIZATION_PROMPT : String :=
  "The messages above are new conversation content that needs to be incorporated into an existing summary. The existing summary is in the <previous-summary> tag.\n\nPlease update the existing summary while preserving its information. Rules:\n- Preserve all important information from the existing summary\n- Append new progress, decisions, and context\n- Update \"Progress\": move completed items from \"In Progress\" to \"Completed\"\n- Update \"Next Steps\" based on new progress\n- Preserve exact file paths, function names, and error messages\n- If some information is no longer relevant, it may be removed\n\nPlease strictly use the following format:\n\n## Goals\n[Preserve existing goals, supplement with new ones if necessary]\n\n## Constraints and Preferences\n- [Preserve existing content, add newly discovered content]\n\n## Progress\n### Completed\n- [x] [Include previously completed items + newly completed items]\n\n### In Progress\n- [ ] [Current work in progress]\n\n### Blocked\n- [Current blocking issues; remove if resolved]\n\n## Key Decisions\n- **[Decision]**: [Brief rationale] (preserve existing and supplement with new ones)\n\n## Next Steps\n1. [Update next steps based on current state]\n\n## Key Information\n- [Preserve important context, supplement with new information if necessary]\n\nKeep each section concise. Preserve exact file paths, function names, and error messages."

/-- JS truthiness on an optional string: `undefined` and `""` are falsy. -/
def truthyStr : Option String → Option String
  | some "" => none
  | x => x

/-- Caller-supplied summary generation (`SummarizeFn` in
src/context/compaction.ts); failure of the underlying LLM call is an
`Except.error`. -/
structure SummarizeParams where
  system : String
  userPrompt : String
  maxTokens : Nat
deriving DecidableEq, Repr

def SummarizeFn : Type := SummarizeParams → Except String String

/-- src/context/compaction.ts `extractUserText`. -/
def extractUserText : MsgContent → String
  | .str s => s
  | .blocks bs => (bs.map (fun b => match b with | .text t => t | _ => "")).foldl (· ++ ·) ""

/-- Per-message part list of src/context/compaction.ts
`serializeConversation` (the serialized `tool_use` argument record is its
modelled `input` payload). -/
def serializeMessage (m : Message) : List String :=
  match m.role with
  | .user =>
    let text := extractUserText m.content
    let textParts := if text ≠ "" then ["[User]: " ++ text] else []
    let resultParts :=
      match m.content with
      | .str _ => []
      | .blocks bs =>
        bs.filterMap (fun b =>
          match b with
          | .tool_result _ _ content =>
            let r := content.getD ""
            if r ≠ "" then some ("[Tool result]: " ++ r) else none
          | _ => none)
    textParts ++ resultParts
  | .assistant =>
    let textParts :=
      match m.content with
      | .str s => [s]
      | .blocks bs =>
        bs.filterMap (fun b =>
          match b with
          | .text t => if t ≠ "" then some t else none
          | _ => none)
    let toolCalls :=
      match m.content with
      | .str _ => []
      | .blocks bs =>
        bs.filterMap (fun b =>
          match b with
          | .tool_use _ name input => some (name ++ "(" ++ input ++ ")")
          | _ => none)
    (if textParts ≠ [] then ["[Assistant]: " ++ strIntercalate "\n" textParts] else []) ++
      (if toolCalls ≠ [] then ["[Assistant tool calls]: " ++ strIntercalate "; " toolCalls] else [])

/-- src/context/compaction.ts `serializeConversation`. -/
def serializeConversation (messages : List Message) : String :=
  strIntercalate "\n\n" (messages.map serializeMessage).flatten

/-- src/context/compaction.ts `generateSummary`. -/
def generateSummary (summarize : SummarizeFn) (messages : List Message) (maxTokens : Nat)
    (customInstructions : Option String) (previousSummary : Option String) :
    Except String String :=
  let prev := truthyStr previousSummary
  let basePrompt0 :=
    match prev with
    | some _ => UPDATE_SUMMARIZATION_PROMPT
    | none => SUMMARIZATION_PROMPT
  let basePrompt :=
    match truthyStr customInstructions with
    | some c => basePrompt0 ++ "\n\nAdditional focus: " ++ c
    | none => basePrompt0
  let conversationText := serializeConversation messages
  let prompt0 := "<conversation>\n" ++ conversationText ++ "\n</conversation>\n\n"
  let prompt1 :=
    match prev with
    | some p => prompt0 ++ "<previous-summary>\n" ++ p ++ "\n</previous-summary>\n\n"
    | none => prompt0
  summarize { system := SUMMARIZATION_SYSTEM_PROMPT, userPrompt := prompt1 ++ basePrompt,
              maxTokens := maxTokens }

/-- src/context/compaction.ts `chunkMessagesByMaxTokens` (accumulator form;
`acc` collects finished chunks, `current`/`currentTokens` the open one). -/
def chunkMessagesGo (maxTokens : Nat) :
    List Message → List (List Message) → List Message → Nat → List (List Message)
  | [], acc, current, _ =>
    if current ≠ [] then acc ++ [current] else acc
  | m :: ms, acc, current, currentTokens =>
    let messageTokens := estimateMessageTokens m
    let flushed :=
      if current ≠ [] && currentTokens + messageTokens > maxTokens then
        (acc ++ [current], ([] : List Message), 0)
      else (acc, current, currentTokens)
    let current2 := flushed.2.1 ++ [m]
    let tokens2 := flushed.2.2 + messageTokens
    if messageTokens > maxTokens then
      chunkMessagesGo maxTokens ms (flushed.1 ++ [current2]) [] 0
    else
      chunkMessagesGo maxTokens ms flushed.1 current2 tokens2

/-- src/context/compaction.ts `chunkMessagesByMaxTokens`. -/
def chunkMessagesByMaxTokens (messages : List Message) (maxTokens : Nat) :
    List (List Message) :=
  if messages.isEmpty then [] else chunkMessagesGo maxTokens messages [] [] 0

/-- Chunk loop of src/context/compaction.ts `summarizeChunks`, threading the
running summary. -/
def summarizeChunksGo (summarize : SummarizeFn) (maxTokens : Nat)
    (customInstructions : Option String) :
    List (List Message) → Option String → Except String (Option String)
  | [], summary => .ok summary
  | c :: cs, summary => do
    let s ← generateSummary summarize c maxTokens customInstructions summary
    summarizeChunksGo summarize maxTokens customInstructions cs (some s)

/-- src/context/compaction.ts `summarizeChunks`. -/
def summarizeChunks (summarize : SummarizeFn) (messages : List Message)
    (maxTokens maxChunkTokens : Nat) (customInstructions previousSummary : Option String) :
    Except String String :=
  if messages.isEmpty then .ok (previousSummary.getD DEFAULT_SUMMARY_FALLBACK)
  else do
    let r ← summarizeChunksGo summarize maxTokens customInstructions
      (chunkMessagesByMaxTokens messages maxChunkTokens) previousSummary
    .ok (r.getD DEFAULT_SUMMARY_FALLBACK)

/-- src/context/compaction.ts `isOversizedForSummary`: the message's token
estimate times the 1.2 safety margin exceeds half the context window. -/
def isOversizedForSummary (m : Message) (contextWindow : Nat) : Bool :=
  ratMulIntRat (estimateMessageTokens m : Int) SAFETY_MARGIN >
    ratMulIntRat (contextWindow : Int) (mkRat 1 2)

def roleText : Role → String
  | .user => "user"
  | .assistant => "assistant"

/-- JS `Math.round(t / 1000)` for a natural `t`. -/
def jsRoundThousand (t : Nat) : Nat := (2 * t + 1000) / 2000

/-- The omission note of src/context/compaction.ts `summarizeWithFallback`. -/
def oversizedNote (m : Message) : String :=
  "[Large " ++ roleText m.role ++ " (~" ++ natToString (jsRoundThousand (estimateMessageTokens m)) ++
    "K tokens) omitted]"

/-- The final fallback string of src/context/compaction.ts
`summarizeWithFallback`. -/
def summaryUnavailableMessage (n : Nat) : String :=
  "Context contained " ++ natToString n ++ " messages. Summary unavailable due to size limits."

/-- src/context/compaction.ts `summarizeWithFallback`: try the chunked
summarization; on failure retry once with the oversized messages filtered
out (collecting an omission note for each); if that also fails or nothing
small remains, return the fixed unavailability string. -/
def summarizeWithFallback (summarize : SummarizeFn) (messages : List Message)
    (maxTokens maxChunkTokens contextWindow : Nat)
    (customInstructions previousSummary : Option String) : String :=
  if messages.isEmpty then previousSummary.getD DEFAULT_SUMMARY_FALLBACK
  else
    match summarizeChunks summarize messages maxTokens maxChunkTokens
        customInstructions previousSummary with
    | .ok s => s
    | .error _ =>
      let smallMessages := messages.filter (fun m => !isOversizedForSummary m contextWindow)
      let oversizedNotes :=
        (messages.filter (fun m => isOversizedForSummary m contextWindow)).map oversizedNote
      if smallMessages ≠ [] then
        match summarizeChunks summarize smallMessages maxTokens maxChunkTokens
            customInstructions previousSummary with
        | .ok p1 =>
          let notes :=
            if oversizedNotes ≠ [] then "\n\n" ++ strIntercalate "\n" oversizedNotes else ""
          p1 ++ notes
        | .error _ => summaryUnavailableMessage messages.length
      else summaryUnavailableMessage messages.length

end GenAgent

namespace GenAgent

/-! ## Session tool-result guard (src/session-tool-result-guard.ts)

The guard decorates `SessionManager.append`; it is modelled as a state
machine over `GuardState` (the per-session transcript plus the per-session
`pending` map, an insertion-ordered association list like a JS `Map`).
`agent.run` calls `flushPendingToolResults` in its `finally` block on every
termination path (src/agent.ts), so a terminating run is a fold of guarded
appends followed by one flush. -/

structure ToolCallRef where
  id : String
  name : Option String
deriving DecidableEq, Repr

/-- src/session-tool-result-guard.ts `extractToolUsesFromAssistant`
(blocks with a falsy — empty — id are not tracked). -/
def extractToolUsesFromAssistant (msg : Message) : List ToolCallRef :=
  match msg.role, msg.content with
  | .assistant, .blocks bs =>
    bs.filterMap (fun b =>
      match b with
      | .tool_use id name _ => if id ≠ "" then some ⟨id, some name⟩ else none
      | _ => none)
  | _, _ => []

/-- src/session-tool-result-guard.ts `extractToolResultIds`. -/
def extractToolResultIds (msg : Message) : List String :=
  match msg.role, msg.content with
  | .user, .blocks bs =>
    bs.filterMap (fun b =>
      match b with
      | .tool_result tool_use_id _ _ => if tool_use_id ≠ "" then some tool_use_id else none
      | _ => none)
  | _, _ => []

/-- src/session-tool-result-guard.ts `makeMissingToolResult`. -/
def makeMissingToolResult (toolCallId : String) (toolName : Option String) : ContentBlock :=
  .tool_result toolCallId toolName
    (some "[gen-agent] missing tool result in session history; inserted synthetic error result for transcript repair.")

structure GuardState where
  log : List Message
  pending : List (String × Option String)
deriving DecidableEq, Repr

/-- JS `Map.set`: overwrite in place, else append. -/
def pendingInsert : List (String × Option String) → String → Option String →
    List (String × Option String)
  | [], id, name => [(id, name)]
  | (k, v) :: rest, id, name =>
    if k = id then (k, name) :: rest else (k, v) :: pendingInsert rest id name

/-- src/session-tool-result-guard.ts `flushPendingToolResults`: append one
user message holding a synthetic result per pending id, clear pending. -/
def flushPendingToolResults (now : Nat) (st : GuardState) : GuardState :=
  if st.pending.isEmpty then st
  else
    { log := st.log ++
        [{ role := .user,
           content := .blocks (st.pending.map (fun p => makeMissingToolResult p.1 p.2)),
           timestamp := now }],
      pending := [] }

/-- src/session-tool-result-guard.ts monkey-patched `append`. -/
def guardAppend (now : Nat) (st : GuardState) (message : Message) : GuardState :=
  let resultIds := extractToolResultIds message
  if resultIds ≠ [] then
    { log := st.log ++ [message],
      pending := resultIds.foldl (fun p id => p.filter (fun e => e.1 ≠ id)) st.pending }
  else
    let toolCalls := extractToolUsesFromAssistant message
    let st1 :=
      if st.pending ≠ [] ∧ toolCalls.isEmpty then flushPendingToolResults now st else st
    let st2 :=
      if st1.pending ≠ [] ∧ ¬toolCalls.isEmpty then flushPendingToolResults now st1 else st1
    { log := st2.log ++ [message],
      pending := toolCalls.foldl (fun p c => pendingInsert p c.id c.name) st2.pending }

/-- The empty session. -/
def GuardState.init : GuardState := { log := [], pending := [] }

/-- A run's appends as seen by the guard: fold of `guardAppend` from the
initial state (the shared `now` stamp is irrelevant to pairing). -/
def guardRun (now : Nat) (msgs : List Message) : GuardState :=
  msgs.foldl (guardAppend now) GuardState.init

/-- All `tool_use` ids of an assistant message, including empty ones (the
spec-level notion of "tool_use id appended in an assistant message",
independent of the guard's own falsy-id filtering). -/
def assistantToolUseIds (m : Message) : List String :=
  match m.role, m.content with
  | .assistant, .blocks bs =>
    bs.filterMap (fun b =>
      match b with
      | .tool_use id _ _ => some id
      | _ => none)
  | _, _ => []

/-- The tool-pairing property P1: every `tool_use` id carried by an
assistant message has a `tool_result` with the same `tool_use_id` in some
strictly later message (`extractToolResultIds` is non-empty only for user
messages). -/
def ToolPairing (log : List Message) : Prop :=
  ∀ pre m post, log = pre ++ m :: post →
    ∀ id ∈ assistantToolUseIds m,
      ∃ pre2 m2 post2, post = pre2 ++ m2 :: post2 ∧ id ∈ extractToolResultIds m2

/-- Induction invariant of the guard: every appended `tool_use` id is either
already answered by a later `tool_result` or still tracked in `pending`, and
`pending` never holds a falsy (empty) key. -/
def GuardInv (st : GuardState) : Prop :=
  (∀ pre m post, st.log = pre ++ m :: post →
    ∀ id ∈ assistantToolUseIds m,
      (∃ pre2 m2 post2, post = pre2 ++ m2 :: post2 ∧ id ∈ extractToolResultIds m2)
      ∨ (∃ v, (id, v) ∈ st.pending))
  ∧ ∀ kv ∈ st.pending, kv.1 ≠ ""

/-! ## Lane scheduler (src/command-queue.ts)

One lane's state; queued tasks are identified by `Nat` ids.  `active` is
the in-flight counter of the source; `inFlight`, `started` and `enqueued`
are ghost histories (the ids currently running, the order tasks were
started, and the order they were enqueued). -/

structure LaneState where
  maxConcurrent : Nat
  active : Nat
  queue : List Nat
  inFlight : List Nat
  started : List Nat
  enqueued : List Nat
deriving DecidableEq, Repr

/-- The `while` loop of src/command-queue.ts `drainLane`: while
`active < maxConcurrent` and the queue is non-empty, pop the head,
increment `active`, start the task. -/
def drainGo (maxConcurrent : Nat) :
    Nat → List Nat → List Nat → List Nat → Nat × List Nat × List Nat × List Nat
  | active, [], inFlight, started => (active, [], inFlight, started)
  | active, t :: rest, inFlight, started =>
    if active < maxConcurrent then
      drainGo maxConcurrent (active + 1) rest (inFlight ++ [t]) (started ++ [t])
    else (active, t :: rest, inFlight, started)

/-- src/command-queue.ts `drainLane`. -/
def drainLane (s : LaneState) : LaneState :=
  let r := drainGo s.maxConcurrent s.active s.queue s.inFlight s.started
  { s with active := r.1, queue := r.2.1, inFlight := r.2.2.1, started := r.2.2.2 }

/-- src/command-queue.ts `enqueueInLane`: push to the back, then drain. -/
def enqueueInLane (s : LaneState) (t : Nat) : LaneState :=
  drainLane { s with queue := s.queue ++ [t], enqueued := s.enqueued ++ [t] }

/-- Task settlement in src/command-queue.ts `drainLane`'s detached runner:
decrement `active`, then drain again. -/
def settleTask (s : LaneState) (t : Nat) : LaneState :=
  drainLane { s with active := s.active - 1, inFlight := s.inFlight.erase t }

/-- States of one lane reachable by enqueueing tasks and settling running
tasks, starting from the empty lane with concurrency bound `m`. -/
inductive LaneReachable (m : Nat) : LaneState → Prop where
  | init : LaneReachable m ⟨m, 0, [], [], [], []⟩
  | enqueue (s : LaneState) (t : Nat) :
      LaneReachable m s → LaneReachable m (enqueueInLane s t)
  | settle (s : LaneState) (t : Nat) :
      LaneReachable m s → t ∈ s.inFlight → LaneReachable m (settleTask s t)

end GenAgent

namespace GenAgent

/-! ## Agent loop (src/agent-loop.ts)

The loop is modelled as a deterministic function of oracles: `llm` gives
the outcome of the n-th LLM phase (the `retryAsync` wrapper's final result;
deltas and retry events of failed attempts are not modelled), `steer` the
result of the n-th `getSteeringMessages()` call, `followUp` the n-th
`getFollowUpMessages()` call, and `prepCompact` the result of
`prepareCompaction` on given messages.  `appendMessage` writes to the ghost
`log`; `Date.now()` stamps are modelled as 0 (no claim concerns
timestamps); the abort signal is modelled as never set (no claim concerns
cancellation timing). -/

structure ToolCallRec where
  id : String
  name : String
  input : String
deriving DecidableEq, Repr

/-- A tool as the loop sees it; a throwing `execute` is an `Except.error`. -/
structure ToolDef where
  name : String
  execute : ToolCallRec → Except String String

inductive MiniEvent where
  | turn_start (turn : Nat)
  | message_delta (delta : String)
  | message_end (message : Message) (text : String)
  | turn_end (turn : Nat)
  | tool_execution_start (toolCallId toolName args : String)
  | tool_execution_end (toolCallId toolName result : String) (isError : Bool)
  | tool_skipped (toolCallId toolName : String)
  | steering (pendingCount : Nat)
  | context_overflow_compact (error : String)
  | agent_end (runId : String)
  | agent_error (runId : String) (error : String)
deriving DecidableEq, Repr

/-- src/agent-loop.ts `skipToolCall`: placeholder result for a skipped
tool. -/
def skipToolCall (call : ToolCallRec) : ContentBlock :=
  .tool_result call.id (some call.name) (some "Skipped due to queued user message.")

/-- One tool call of the loop's execution phase: resolve by name, run,
map a thrown error to an `Execution error:` content string; `isError` of
the `tool_execution_end` event is "no such tool". -/
def runOneToolCall (tools : List ToolDef) (call : ToolCallRec) : String × Bool :=
  match tools.find? (fun t => t.name == call.name) with
  | some tool =>
    (match tool.execute call with
     | .ok r => r
     | .error e => "Execution error: " ++ e,
     false)
  | none => ("Unknown tool: " ++ call.name, true)

/-- The result preview in the `tool_execution_end` event. -/
def resultPreview (r : String) : String :=
  if r.length > 500 then strTake r 500 ++ "..." else r

/-- The two stream events of one executed (not skipped) tool call. -/
def realToolEvents (tools : List ToolDef) (c : ToolCallRec) : List MiniEvent :=
  [.tool_execution_start c.id c.name c.input,
   .tool_execution_end c.id c.name (resultPreview (runOneToolCall tools c).1)
     (runOneToolCall tools c).2]

/-- The `tool_result` block of one executed (not skipped) tool call; its
content is the full result, not the event's preview. -/
def realToolBlock (tools : List ToolDef) (c : ToolCallRec) : ContentBlock :=
  .tool_result c.id (some c.name) (some (runOneToolCall tools c).1)

structure ToolPhaseOut where
  events : List MiniEvent
  toolResults : List ContentBlock
  executed : Nat
  steeringMessages : Option (List Message)
  nextSteerIdx : Nat
deriving Repr

/-- The serial tool loop of src/agent-loop.ts (lines 572–627): execute the
calls in order; after each executed tool check the steering queue; on a
non-empty check emit `tool_skipped` plus a synthetic skip result for every
remaining call, emit one `steering` event, and stop. -/
def execToolsGo (tools : List ToolDef) (steer : Nat → List Message) :
    List ToolCallRec → Nat → ToolPhaseOut
  | [], k =>
    { events := [], toolResults := [], executed := 0, steeringMessages := none,
      nextSteerIdx := k }
  | call :: rest, k =>
    let rb := runOneToolCall tools call
    let evs0 : List MiniEvent :=
      [.tool_execution_start call.id call.name call.input,
       .tool_execution_end call.id call.name (resultPreview rb.1) rb.2]
    let block : ContentBlock := .tool_result call.id (some call.name) (some rb.1)
    let s := steer k
    if s ≠ [] then
      { events := evs0 ++ (rest.map (fun c => .tool_skipped c.id c.name)) ++ [.steering s.length],
        toolResults := block :: rest.map skipToolCall,
        executed := 1, steeringMessages := some s, nextSteerIdx := k + 1 }
    else
      let r := execToolsGo tools steer rest (k + 1)
      { events := evs0 ++ r.events, toolResults := block :: r.toolResults,
        executed := 1 + r.executed, steeringMessages := r.steeringMessages,
        nextSteerIdx := r.nextSteerIdx }

structure ToolPhaseResult where
  events : List MiniEvent
  resultMsg : Message
  pending : List Message
  executed : Nat
  nextSteerIdx : Nat
deriving Repr

/-- The whole tool phase of one inner-loop iteration (lines 567–645):
the serial loop, the single user message assembling all `tool_result`
blocks (real and skip-synthetic), `turn_end`, and the next turn's
`pendingMessages` (the drained steering messages, else a fresh steering
check). -/
def execToolsPhase (tools : List ToolDef) (steer : Nat → List Message)
    (calls : List ToolCallRec) (k turn now : Nat) : ToolPhaseResult :=
  let go := execToolsGo tools steer calls k
  let resultMsg : Message :=
    { role := .user, content := .blocks go.toolResults, timestamp := now }
  let pendingAndIdx :=
    match go.steeringMessages with
    | some s =>
      if s.length > 0 then (s, go.nextSteerIdx) else (steer go.nextSteerIdx, go.nextSteerIdx + 1)
    | none => (steer go.nextSteerIdx, go.nextSteerIdx + 1)
  { events := go.events ++ [.turn_end turn], resultMsg := resultMsg,
    pending := pendingAndIdx.1, executed := go.executed,
    nextSteerIdx := pendingAndIdx.2 }

/-- Provider stream events consumed by the loop (src/agent-loop.ts lines
469–502). -/
inductive LlmStreamEvent where
  | text_delta (delta : String)
  | text_end (content : String)
  | toolcall_start
  | toolcall_end (id name arguments : String)
deriving DecidableEq, Repr

structure LlmAccum where
  events : List MiniEvent
  blocks : List ContentBlock
  toolCalls : List ToolCallRec
  textParts : List String
deriving Repr

/-- The per-event accumulation of one successful LLM phase: `text_delta`
forwards `message_delta`, `text_end` collects a text block and a text part,
`toolcall_end` collects a `tool_use` block and a call record,
`toolcall_start` is ignored. -/
def accumulateLlm : List LlmStreamEvent → LlmAccum
  | [] => { events := [], blocks := [], toolCalls := [], textParts := [] }
  | e :: es =>
    let r := accumulateLlm es
    match e with
    | .text_delta d => { r with events := .message_delta d :: r.events }
    | .text_end c =>
      { r with blocks := .text c :: r.blocks, textParts := c :: r.textParts }
    | .toolcall_start => r
    | .toolcall_end id name args =>
      { r with blocks := .tool_use id name args :: r.blocks,
               toolCalls := ⟨id, name, args⟩ :: r.toolCalls }

structure LoopOracles where
  llm : Nat → Except String (List LlmStreamEvent)
  steer : Nat → List Message
  followUp : Nat → List Message
  prepCompact : List Message → Option String × Option Message

structure LoopState where
  turns : Nat
  llmIdx : Nat
  steerIdx : Nat
  followIdx : Nat
  overflowAttempted : Bool
  compactionSummary : Option Message
  currentMessages : List Message
  pendingMessages : List Message
  hasMoreToolCalls : Bool
  finalText : String
  totalToolCalls : Nat
  events : List MiniEvent
  log : List Message

inductive StepOut where
  | breakOuter (st : LoopState)
  | next (st : LoopState)
  | fail (st : LoopState) (error : String)

/-- One iteration of the inner loop of src/agent-loop.ts (lines 412–646):
turn bookkeeping, pending-message injection, prune, LLM phase with the
one-shot context-overflow compaction retry, assistant persistence, and the
tool phase. -/
def innerStep (O : LoopOracles) (maxTurns contextTokens : Nat) (tools : List ToolDef)
    (st : LoopState) : StepOut :=
  if st.turns ≥ maxTurns then .breakOuter st
  else
    let st := { st with turns := st.turns + 1,
                        events := st.events ++ [MiniEvent.turn_start (st.turns + 1)] }
    let st :=
      if st.pendingMessages ≠ [] then
        { st with log := st.log ++ st.pendingMessages,
                  currentMessages := st.currentMessages ++ st.pendingMessages,
                  pendingMessages := [] }
      else st
    let pruned := pruneContextMessages st.currentMessages contextTokens
      DEFAULT_CONTEXT_PRUNING_SETTINGS
    let _messagesForModel :=
      match st.compactionSummary with
      | some cs => cs :: pruned.messages
      | none => pruned.messages
    match O.llm st.llmIdx with
    | .error e =>
      if isContextOverflowError (some e) && !st.overflowAttempted then
        let st := { st with overflowAttempted := true,
                            events := st.events ++ [MiniEvent.context_overflow_compact e],
                            llmIdx := st.llmIdx + 1 }
        let prep := O.prepCompact st.currentMessages
        match truthyStr prep.1, prep.2 with
        | some _, some m => .next { st with compactionSummary := some m, turns := st.turns - 1 }
        | _, _ => .fail st e
      else .fail { st with llmIdx := st.llmIdx + 1 } e
    | .ok streamEvents =>
      let acc := accumulateLlm streamEvents
      let assistantMsg : Message :=
        { role := .assistant, content := .blocks acc.blocks, timestamp := 0 }
      let turnText := acc.textParts.foldl (· ++ ·) ""
      let st := { st with llmIdx := st.llmIdx + 1,
                          events := st.events ++ acc.events,
                          log := st.log ++ [assistantMsg],
                          currentMessages := st.currentMessages ++ [assistantMsg] }
      let st :=
        if turnText ≠ "" then
          { st with events := st.events ++ [MiniEvent.message_end assistantMsg turnText] }
        else st
      if acc.toolCalls.isEmpty then
        .next { st with hasMoreToolCalls := false, finalText := turnText,
                        events := st.events ++ [MiniEvent.turn_end st.turns],
                        pendingMessages := O.steer st.steerIdx,
                        steerIdx := st.steerIdx + 1 }
      else
        let phase := execToolsPhase tools O.steer acc.toolCalls st.steerIdx st.turns 0
        .next { st with hasMoreToolCalls := true,
                        events := st.events ++ phase.events,
                        log := st.log ++ [phase.resultMsg],
                        currentMessages := st.currentMessages ++ [phase.resultMsg],
                        totalToolCalls := st.totalToolCalls + phase.executed,
                        pendingMessages := phase.pending,
                        steerIdx := phase.nextSteerIdx }

inductive InnerExit where
  | condFalse (st : LoopState)
  | broke (st : LoopState)
  | failed (st : LoopState) (error : String)

/-- The inner `while (hasMoreToolCalls || pendingMessages.length > 0)` loop,
driven by explicit fuel (each iteration permanently consumes a turn except
the single overflow retry, so any `fuel > maxTurns + 1` is exact). -/
def runInner (O : LoopOracles) (maxTurns contextTokens : Nat) (tools : List ToolDef) :
    Nat → LoopState → InnerExit
  | 0, st => .broke st
  | fuel + 1, st =>
    if st.hasMoreToolCalls ∨ st.pendingMessages ≠ [] then
      match innerStep O maxTurns contextTokens tools st with
      | .breakOuter s => .broke s
      | .next s => runInner O maxTurns contextTokens tools fuel s
      | .fail s e => .failed s e
    else .condFalse st

/-- The outer follow-up loop of src/agent-loop.ts: a `break outerLoop`
(turn budget or abort) skips the follow-up check; a normal inner exit
consults `getFollowUpMessages` and re-enters with `hasMoreToolCalls`
reset to true. -/
def runOuter (O : LoopOracles) (maxTurns contextTokens : Nat) (tools : List ToolDef) :
    Nat → LoopState → LoopState × Option String
  | 0, st => (st, none)
  | fuel + 1, st =>
    match runInner O maxTurns contextTokens tools (maxTurns + 2) st with
    | .failed s e => (s, some e)
    | .broke s => (s, none)
    | .condFalse s =>
      let f := O.followUp s.followIdx
      if f ≠ [] then
        runOuter O maxTurns contextTokens tools fuel
          { s with followIdx := s.followIdx + 1, pendingMessages := f,
                   hasMoreToolCalls := true }
      else (s, none)

/-- src/agent-loop.ts `runAgentLoop`: initial steering pickup, the two
loops, and the closing `agent_end` / `agent_error` event. -/
def runAgentLoopModel (O : LoopOracles) (maxTurns contextTokens : Nat)
    (tools : List ToolDef) (runId : String) (initialMessages : List Message)
    (initialSummary : Option Message) (outerFuel : Nat) :
    LoopState × Option String :=
  let st0 : LoopState :=
    { turns := 0, llmIdx := 0, steerIdx := 1, followIdx := 0,
      overflowAttempted := false, compactionSummary := initialSummary,
      currentMessages := initialMessages, pendingMessages := O.steer 0,
      hasMoreToolCalls := true, finalText := "", totalToolCalls := 0,
      events := [], log := [] }
  let r := runOuter O maxTurns contextTokens tools outerFuel st0
  match r.2 with
  | none => ({ r.1 with events := r.1.events ++ [.agent_end runId] }, none)
  | some e => ({ r.1 with events := r.1.events ++ [.agent_error runId e] }, some e)

end GenAgent

namespace GenAgent

/-! ## Specification-level definitions and concrete inputs

`...Spec` / `...Claimed` definitions below follow the words of the spec or
of a claim (for refinement comparisons against the code embedding); the
`w...` / `cex...` definitions are concrete inputs used by witnesses and
counterexamples. -/

/-- The blocks of a message (string content has none). -/
def blocksOf (m : Message) : List ContentBlock :=
  match m.content with
  | .str _ => []
  | .blocks bs => bs

/-- The replacement text of a soft trim, as the spec words it: the first
`headChars` chars, an ellipsis line, the last `tailChars` chars, and an
explanation note. -/
def softTrimmedText (s : SoftTrimSettings) (raw : String) : String :=
  strTake raw s.headChars ++ "\n...\n" ++ strDrop raw (raw.length - s.tailChars) ++
    "\n\n[Tool result trimmed: kept first " ++ natToString s.headChars ++
    " chars and last " ++ natToString s.tailChars ++ " chars of " ++
    natToString raw.length ++ " chars.]"

/-- Layer 1 as the spec words it, per block: a `tool_result` whose id passes
the prunability predicate (an empty id skips the check, as in the code) and
whose string content is longer than `maxChars` has its content replaced by
`softTrimmedText`; every other block is unchanged. -/
def softTrimBlockSpec (s : SoftTrimSettings) (isPrunable : String → Bool)
    (b : ContentBlock) : ContentBlock :=
  match b with
  | .tool_result tool_use_id name (some content) =>
    if (tool_use_id == "" || isPrunable tool_use_id) && content.length > s.maxChars then
      .tool_result tool_use_id name (some (softTrimmedText s content))
    else .tool_result tool_use_id name (some content)
  | b => b

/-- Layer 1 as the spec words it, per message: block contents are mapped,
strings and everything else unchanged. -/
def softTrimMessageSpec (s : SoftTrimSettings) (isPrunable : String → Bool)
    (m : Message) : Message :=
  match m.content with
  | .str _ => m
  | .blocks bs => { m with content := .blocks (bs.map (softTrimBlockSpec s isPrunable)) }

/-- Condition under which a soft trim cannot enlarge a block past
`maxChars` (it holds for the default settings on any realistically sized
content; the replacement only depends on the content through its length's
decimal width). -/
def SoftTrimOutputFits (settings : ContextPruningSettings) (msgs : List Message) : Prop :=
  ∀ m ∈ msgs, ∀ b ∈ blocksOf m, ∀ id name c, b = ContentBlock.tool_result id name (some c) →
    c.length > settings.softTrim.maxChars →
    (softTrimmedText settings.softTrim c).length ≤ settings.softTrim.maxChars

/-- Every `tool_result` content in the list fits `maxChars` (the state in
which layer 1 of the pruner is the identity). -/
def ToolContentsFit (maxChars : Nat) (ms : List Message) : Prop :=
  ∀ m ∈ ms, ∀ b ∈ blocksOf m, ∀ id name c,
    b = ContentBlock.tool_result id name (some c) → c.length ≤ maxChars

/-- The least `j` such that the suffix `msgs.drop j` fits the budget
(the whole-message backward fill of layer 3 keeps exactly such a maximal
suffix). -/
def leastDropIndexFit (msgs : List Message) (budget : Int) : Nat :=
  match msgs with
  | [] => 0
  | _ :: rest =>
    if (estimateMessagesChars msgs : Int) ≤ budget then 0
    else leastDropIndexFit rest budget + 1

/-- `summarizeWithFallback` as claim C8 words it: the retry filters out
messages whose plain token estimate exceeds 50% of the window (no safety
margin). -/
def summarizeWithFallbackClaimed (summarize : SummarizeFn) (messages : List Message)
    (maxTokens maxChunkTokens contextWindow : Nat)
    (customInstructions previousSummary : Option String) : String :=
  if messages.isEmpty then previousSummary.getD DEFAULT_SUMMARY_FALLBACK
  else
    match summarizeChunks summarize messages maxTokens maxChunkTokens
        customInstructions previousSummary with
    | .ok s => s
    | .error _ =>
      let smallMessages := messages.filter (fun m => !(2 * estimateMessageTokens m > contextWindow))
      let oversizedNotes :=
        (messages.filter (fun m => 2 * estimateMessageTokens m > contextWindow)).map oversizedNote
      if smallMessages ≠ [] then
        match summarizeChunks summarize smallMessages maxTokens maxChunkTokens
            customInstructions previousSummary with
        | .ok p1 =>
          let notes :=
            if oversizedNotes ≠ [] then "\n\n" ++ strIntercalate "\n" oversizedNotes else ""
          p1 ++ notes
        | .error _ => summaryUnavailableMessage messages.length
      else summaryUnavailableMessage messages.length

/-- 180 chars, so 45 estimated tokens: oversized for a 100-token window
under the code's 1.2 safety margin (54 > 50) but not under the claim's
plain 50% threshold (45 ≤ 50). -/
def c8BigContent : String := String.mk (List.replicate 180 'x')

def c8Big : Message := { role := .user, content := .str c8BigContent, timestamp := 0 }

def c8Small : Message := { role := .user, content := .str "hello", timestamp := 1 }

/-- A summarizer that fails whenever the serialized conversation still
contains the oversized message's text. -/
def c8Fn : SummarizeFn := fun p =>
  if jsIncludes p.userPrompt "xxxxxxxx" then .error "too big" else .ok "S"

/-- Counterexample input for prune idempotence: one tool result of 11 chars
with soft-trim settings `maxChars := 10`, `headChars := tailChars := 0`
(legal clamped values), and a zero soft-trim ratio so layer 1 always
fires. -/
def cexPruneMsg : Message :=
  { role := .user, content := .blocks [.tool_result "t" none (some "ABCDEFGHIJK")],
    timestamp := 0 }

def cexPruneSettings : ContextPruningSettings :=
  { DEFAULT_CONTEXT_PRUNING_SETTINGS with
      softTrimRatio := mkRat 0 1,
      softTrim := { maxChars := 10, headChars := 0, tailChars := 0 } }

/-! Concrete tool-phase inputs (witnesses for the loop claims). -/

def wToolList : ToolDef := { name := "list", execute := fun _ => .ok "a\nb" }

def wToolBoom : ToolDef := { name := "boom", execute := fun _ => .error "kaput" }

def wTools : List ToolDef := [wToolList, wToolBoom]

def wCall1 : ToolCallRec := { id := "t1", name := "list", input := "i1" }

def wCall2 : ToolCallRec := { id := "t2", name := "boom", input := "i2" }

def wCall3 : ToolCallRec := { id := "t3", name := "nosuch", input := "i3" }

def wSteerMsg : Message := { role := .user, content := .str "stop", timestamp := 5 }

/-- Steering oracle: empty on the first check, non-empty on the second. -/
def wSteerSecond : Nat → List Message := fun k => if k = 1 then [wSteerMsg] else []

/-- Steering oracle: always empty. -/
def wSteerNone : Nat → List Message := fun _ => []

/-! Concrete loop oracles (witness for the overflow claim). -/

def wOverflowError : String := "Error: context length exceeded"

def wSummaryMsg : Message := createCompactionSummaryMessage "SUM" 0

def wLlmOverflowOnce : Nat → Except String (List LlmStreamEvent) := fun i =>
  if i = 0 then .error wOverflowError else .ok [.text_end "ok"]

def wOraclesOverflow : LoopOracles :=
  { llm := wLlmOverflowOnce, steer := wSteerNone, followUp := fun _ => [],
    prepCompact := fun _ => (some "SUM", some wSummaryMsg) }

def wLoopState : LoopState :=
  { turns := 0, llmIdx := 0, steerIdx := 1, followIdx := 0,
    overflowAttempted := false, compactionSummary := none,
    currentMessages := [{ role := .user, content := .str "hi", timestamp := 0 }],
    pendingMessages := [], hasMoreToolCalls := true, finalText := "",
    totalToolCalls := 0, events := [], log := [] }

/-! Concrete guard input (witness for the pairing claim). -/

def wGuardAssistant : Message :=
  { role := .assistant,
    content := .blocks [.text "calling", .tool_use "t1" "list" "i1", .tool_use "t2" "grep" "i2"],
    timestamp := 2 }

def wGuardResult : Message :=
  { role := .user, content := .blocks [.tool_result "t1" (some "list") (some "a\nb")],
    timestamp := 3 }

def wGuardMsgs : List Message :=
  [{ role := .user, content := .str "hi", timestamp := 1 }, wGuardAssistant, wGuardResult]

/-- A lane with concurrency 1 after two enqueues: one task running, one
queued. -/
def wLane2 : LaneState :=
  enqueueInLane (enqueueInLane ⟨1, 0, [], [], [], []⟩ 10) 20

/-! Concrete messages for the layer-3 message-drop claim: 10 + 5 + 2
estimated chars, with one assistant message. -/

def wDropU1 : Message := { role := .user, content := .str "aaaaaaaaaa", timestamp := 0 }

def wDropA : Message := { role := .assistant, content := .str "bbbbb", timestamp := 1 }

def wDropU2 : Message := { role := .user, content := .str "cc", timestamp := 2 }

def wDropMsgs : List Message := [wDropU1, wDropA, wDropU2]

/-- A small history with one short tool result (idempotence witness
input). -/
def wIdemMsgs : List Message :=
  [{ role := .user, content := .blocks [.tool_result "t" none (some "hello")],
     timestamp := 0 }]

end GenAgent

namespace GenAgent

/-! ## Theorems -/

/-- `compilePattern`'s three-tier matcher agrees with the plain glob
matcher applied to the normalized pattern. -/
theorem patternMatchesCompiled_compile (n p : String) :
    patternMatchesCompiled n (compilePattern p) = matchGlob n (normalizeToolName p) := by
  unfold compilePattern matchGlob
  by_cases h1 : normalizeToolName p = ""
  · rw [h1]
    have e1 : ¬("" : String) = "*" := by decide
    have e2 : (("" : String).toList.contains '*') = false := by decide
    simp [patternMatchesCompiled, e1, e2]
  · by_cases h2 : normalizeToolName p = "*"
    · rw [h2]
      have e1 : ¬("*" : String) = "" := by decide
      simp [patternMatchesCompiled, e1]
    · by_cases h3 : '*' ∈ (normalizeToolName p).data
      · simp [patternMatchesCompiled, h1, h2, String.toList, h3]
      · simp [patternMatchesCompiled, h1, h2, String.toList, h3]

/-- Pointwise-equal predicates give equal `List.any`. -/
theorem list_any_congr {α : Type} (l : List α) (p q : α → Bool) (h : ∀ a, p a = q a) :
    l.any p = l.any q := by
  induction l with
  | nil => rfl
  | cons x xs ih => simp [List.any_cons, h x, ih]

/-- Matching a name against compiled patterns is matching it against the
normalized raw patterns under the plain glob. -/
theorem matchesAnyPattern_map_compile (n : String) (ps : List String) :
    matchesAnyPattern n (ps.map compilePattern) =
      ps.any (fun q => matchGlob n (normalizeToolName q)) := by
  induction ps with
  | nil => rfl
  | cons q qs ih =>
    simp only [List.map_cons, matchesAnyPattern, List.any_cons] at ih ⊢
    rw [patternMatchesCompiled_compile, ih]

/-- Boolean normal form of `isToolAllowed` over the plain glob matcher:
deny overrides; an empty allow admits; otherwise an allow match or the
apply_patch/exec inheritance admits. -/
theorem isToolAllowed_normal_form (t : String) (pol : ToolPolicy) :
    isToolAllowed t (some pol) =
      (!(pol.deny.getD []).any
          (fun q => matchGlob (normalizeToolName t) (normalizeToolName q)) &&
        ((pol.allow.getD []).isEmpty ||
          (pol.allow.getD []).any
            (fun q => matchGlob (normalizeToolName t) (normalizeToolName q)) ||
          (decide (normalizeToolName t = "apply_patch") &&
            (pol.allow.getD []).any (fun q => matchGlob "exec" (normalizeToolName q))))) := by
  simp only [isToolAllowed]
  rw [matchesAnyPattern_map_compile, matchesAnyPattern_map_compile,
    matchesAnyPattern_map_compile]
  by_cases hd : (pol.deny.getD []).any
      (fun q => matchGlob (normalizeToolName t) (normalizeToolName q)) = true
  · simp [hd]
  · rw [Bool.not_eq_true] at hd
    by_cases he : pol.allow.getD [] = []
    · simp [hd, he]
    · have hlen : ¬(pol.allow.getD []).length = 0 := by
        simpa [List.length_eq_zero] using he
      have hempty : (pol.allow.getD []).isEmpty = false := by
        cases hA : pol.allow.getD [] with
        | nil => exact absurd hA he
        | cons a as => rfl
      by_cases ha : (pol.allow.getD []).any
          (fun q => matchGlob (normalizeToolName t) (normalizeToolName q)) = true
      · simp [hd, hlen, hempty, ha]
      · rw [Bool.not_eq_true] at ha
        by_cases hp : normalizeToolName t = "apply_patch"
        · rw [hp] at hd ha ⊢
          by_cases hx : (pol.allow.getD []).any
              (fun q => matchGlob "exec" (normalizeToolName q)) = true
          · simp [hd, hlen, hempty, ha, hx]
          · rw [Bool.not_eq_true] at hx
            simp [hd, hlen, hempty, ha, hx]
        · simp [hd, hlen, hempty, ha, hp]

/-- C9: counterexample.  The claim "isToolAllowed(t, with allow [p]) is true
iff t matches p under the defined glob" fails at t = "bash", p = "exec":
the policy normalizes the tool name through the alias map (bash → exec), so
the call is allowed although "bash" matches neither "exec" nor its
normalization under the glob. -/
theorem c9_glob_policy_counterexample :
    isToolAllowed "bash" (some { allow := some ["exec"], deny := none }) = true ∧
    matchGlob "bash" "exec" = false ∧
    matchGlob "bash" (normalizeToolName "exec") = false := by decide

/-- C9 (amended): `isToolAllowed` with a singleton allow list admits a tool
iff the normalized tool name matches the normalized pattern under the glob,
or the normalized name is `apply_patch` and the pattern matches `exec` (the
inheritance rule); a name matching a deny pattern (after normalization) is
rejected regardless of the allow list; an empty allow list admits every
name not matched by deny. -/
theorem c9_glob_policy_amended :
    (∀ t p, isToolAllowed t (some { allow := some [p], deny := none }) = true ↔
        (matchGlob (normalizeToolName t) (normalizeToolName p) = true ∨
          (normalizeToolName t = "apply_patch" ∧
            matchGlob "exec" (normalizeToolName p) = true)))
    ∧ (∀ (t : String) (pol : ToolPolicy),
        (pol.deny.getD []).any
          (fun q => matchGlob (normalizeToolName t) (normalizeToolName q)) = true →
        isToolAllowed t (some pol) = false)
    ∧ (∀ (t : String) (pol : ToolPolicy), pol.allow.getD [] = [] →
        isToolAllowed t (some pol) =
          !(pol.deny.getD []).any
            (fun q => matchGlob (normalizeToolName t) (normalizeToolName q))) := by
  refine ⟨?_, ?_, ?_⟩
  · intro t p
    rw [isToolAllowed_normal_form]
    simp only [Option.getD_some, List.any_cons, List.any_nil, List.isEmpty_cons,
      Bool.or_false, Bool.false_or, Bool.and_eq_true, Bool.or_eq_true,
      Bool.not_eq_true, List.any_eq_true, List.not_mem_nil, false_and,
      exists_false, or_false, decide_eq_true_eq]
    constructor
    · rintro ⟨-, h⟩
      tauto
    · intro h
      refine ⟨rfl, ?_⟩
      tauto
  · intro t pol h
    rw [isToolAllowed_normal_form, h]
    rfl
  · intro t pol ha
    rw [isToolAllowed_normal_form, ha]
    cases hd : (pol.deny.getD []).any
        (fun q => matchGlob (normalizeToolName t) (normalizeToolName q)) <;> rfl

/-- C9 witness: the amended theorem at concrete inputs (deny overriding a
universal allow; empty allow admitting a non-denied name; a glob allow
match). -/
theorem c9_glob_policy_witness :
    isToolAllowed "exec" (some { allow := some ["*"], deny := some ["exec"] }) = false ∧
    isToolAllowed "write" (some { allow := some [], deny := some ["exec"] }) = true ∧
    isToolAllowed "file_read" (some { allow := some ["file_*"], deny := none }) = true := by
  refine ⟨?_, ?_, ?_⟩
  · exact c9_glob_policy_amended.2.1 "exec" _ (by decide)
  · rw [c9_glob_policy_amended.2.2 "write" _ (by decide)]
    decide
  · exact (c9_glob_policy_amended.1 "file_read" "file_*").mpr (Or.inl (by decide))

/-- A block whose soft-trim flag is false is returned unchanged. -/
theorem softTrimToolResultBlock_not_trimmed (s : SoftTrimSettings) (p : String → Bool)
    (b : ContentBlock) (h : (softTrimToolResultBlock b s p).2 = false) :
    (softTrimToolResultBlock b s p).1 = b := by
  cases b with
  | text t => rfl
  | tool_use a c d => rfl
  | tool_result id name content =>
    revert h
    unfold softTrimToolResultBlock
    simp only [isToolResultProtected, Bool.false_eq_true, if_false]
    by_cases hid : (id != "" && !p id) = true
    · intro _; simp [hid]
    · rw [if_neg hid]
      by_cases hlen : (content.getD "" : String).length ≤ s.maxChars
      · intro _; simp [hlen]
      · rw [if_neg hlen]
        by_cases hht : s.headChars + s.tailChars ≥ (content.getD "" : String).length
        · intro _; simp [hht]
        · rw [if_neg hht]
          intro h
          exact absurd h (by simp)

/-- Under settings where `headChars + tailChars ≤ maxChars` (as in the
defaults), the soft trim of one block is exactly the spec-level map. -/
theorem softTrimToolResultBlock_eq_spec (s : SoftTrimSettings) (p : String → Bool)
    (b : ContentBlock) (h : s.headChars + s.tailChars ≤ s.maxChars) :
    (softTrimToolResultBlock b s p).1 = softTrimBlockSpec s p b := by
  cases b with
  | text t => rfl
  | tool_use a c d => rfl
  | tool_result id name content =>
    unfold softTrimToolResultBlock softTrimBlockSpec
    simp only [isToolResultProtected, Bool.false_eq_true, if_false]
    by_cases hid : (id != "" && !p id) = true
    · have hor : (id == "" || p id) = false := by
        cases hq : id == "" <;> cases hpp : p id <;> simp_all
      cases content with
      | none => simp [hid]
      | some c => simp [hid, hor]
    · have hor : (id == "" || p id) = true := by
        cases hq : id == "" <;> cases hpp : p id <;> simp_all
      rw [if_neg hid]
      cases content with
      | none =>
        simp [Option.getD, Nat.zero_le]
      | some c =>
        by_cases hlen : c.length ≤ s.maxChars
        · have hngt : ¬(c.length > s.maxChars) := Nat.not_lt.mpr hlen
          simp [hlen, hor, hngt]
        · have hgt : s.maxChars < c.length := Nat.not_le.mp hlen
          have hno : ¬(c.length ≤ s.headChars + s.tailChars) := by omega
          simp [hlen, hor, hgt, hno, softTrimmedText]

/-- An empty filter means the predicate fails everywhere. -/
theorem all_false_of_filter_length_zero {α : Type} (l : List α) (q : α → Bool)
    (h : (l.filter q).length = 0) : ∀ a ∈ l, q a = false := by
  induction l with
  | nil => intro a ha; cases ha
  | cons x xs ih =>
    intro a ha
    by_cases hx : q x = true
    · rw [List.filter_cons_of_pos hx] at h
      simp at h
    · rw [List.filter_cons_of_neg hx] at h
      rcases List.mem_cons.mp ha with rfl | hmem
      · exact Bool.not_eq_true _ |>.mp hx
      · exact ih h a hmem

/-- Mapping a pointwise-identity function is the identity. -/
theorem list_map_eq_self {α : Type} (l : List α) (f : α → α) (h : ∀ a ∈ l, f a = a) :
    l.map f = l := by
  induction l with
  | nil => rfl
  | cons x xs ih =>
    simp only [List.map_cons, h x (List.mem_cons_self x xs)]
    rw [ih (fun a ha => h a (List.mem_cons_of_mem x ha))]

/-- One message of the soft-trim layer equals its spec-level map. -/
theorem softTrimMessage_eq_spec (s : SoftTrimSettings) (p : String → Bool) (m : Message)
    (h : s.headChars + s.tailChars ≤ s.maxChars) :
    (softTrimMessage m s p).1 = softTrimMessageSpec s p m := by
  obtain ⟨role, content, ts⟩ := m
  cases content with
  | str t => rfl
  | blocks bs =>
    simp only [softTrimMessage, softTrimMessageSpec]
    by_cases hcnt :
        ((bs.map (fun b => softTrimToolResultBlock b s p)).filter (fun r => r.2)).length > 0
    · rw [if_pos hcnt]
      simp only [List.map_map]
      have : bs.map ((fun r : ContentBlock × Bool => r.1) ∘
          (fun b => softTrimToolResultBlock b s p)) = bs.map (softTrimBlockSpec s p) := by
        have hf : ((fun r : ContentBlock × Bool => r.1) ∘
            (fun b => softTrimToolResultBlock b s p)) = softTrimBlockSpec s p := by
          funext b
          exact softTrimToolResultBlock_eq_spec s p b h
        rw [hf]
      rw [this]
    · rw [if_neg hcnt]
      have hzero :
          ((bs.map (fun b => softTrimToolResultBlock b s p)).filter (fun r => r.2)).length = 0 := by
        omega
      have hall := all_false_of_filter_length_zero _ _ hzero
      have : bs.map (softTrimBlockSpec s p) = bs := by
        apply list_map_eq_self
        intro b hb
        have hflag : (softTrimToolResultBlock b s p).2 = false :=
          hall _ (List.mem_map_of_mem (fun b => softTrimToolResultBlock b s p) hb)
        rw [← softTrimToolResultBlock_eq_spec s p b h]
        exact softTrimToolResultBlock_not_trimmed s p b hflag
      rw [this]

/-- The whole soft-trim layer equals the spec-level message map. -/
theorem applySoftTrim_fst_eq_spec (msgs : List Message) (settings : ContextPruningSettings)
    (p : String → Bool)
    (h : settings.softTrim.headChars + settings.softTrim.tailChars ≤ settings.softTrim.maxChars) :
    (applySoftTrim msgs settings p).1 =
      msgs.map (softTrimMessageSpec settings.softTrim p) := by
  unfold applySoftTrim
  simp only [List.map_map]
  have hf : ((fun r : Message × Nat => r.1) ∘
      (fun m => softTrimMessage m settings.softTrim p)) =
      softTrimMessageSpec settings.softTrim p := by
    funext m
    exact softTrimMessage_eq_spec settings.softTrim p m h
  rw [hf]

/-- C5: when triggered (the layer-1 stage of `pruneContextMessages` invokes
`applySoftTrim` exactly when `totalChars / charWindow > softTrimRatio`),
the soft trim replaces the content of every prunable oversized `tool_result`
block with head + ellipsis + tail + explanation and leaves everything else
unchanged — provided `headChars + tailChars ≤ maxChars` (true of the
defaults), since the code skips blocks that head + tail would cover; and
the prunability predicate is: deny (matched on the lower-cased glob)
overrides allow, and an empty allow list makes every non-denied name
prunable. -/
theorem c5_soft_trim_layer :
    (∀ (msgs : List Message) (settings : ContextPruningSettings) (isPrunable : String → Bool),
      settings.softTrim.headChars + settings.softTrim.tailChars ≤ settings.softTrim.maxChars →
      (applySoftTrim msgs settings isPrunable).1 =
        msgs.map (softTrimMessageSpec settings.softTrim isPrunable))
    ∧ (∀ name, makeToolPrunablePredicate none name = true)
    ∧ (∀ (m : ContextPruningToolMatch) (name : String),
        makeToolPrunablePredicate (some m) name =
          (!(m.deny.getD []).any
              (fun q => matchGlob (jsToLower (jsTrim name)) (jsToLower q)) &&
            ((m.allow.getD []).isEmpty ||
              (m.allow.getD []).any
                (fun q => matchGlob (jsToLower (jsTrim name)) (jsToLower q))))) := by
  refine ⟨?_, fun _ => rfl, ?_⟩
  · intro msgs settings isPrunable h
    exact applySoftTrim_fst_eq_spec msgs settings isPrunable h
  · intro m name
    simp only [makeToolPrunablePredicate]
    by_cases hd : (m.deny.getD []).any
        (fun q => matchGlob (jsToLower (jsTrim name)) (jsToLower q)) = true
    · simp [hd]
    · rw [Bool.not_eq_true] at hd
      by_cases he : m.allow.getD [] = []
      · simp [hd, he]
      · have hlen : ¬(m.allow.getD []).length = 0 := by
          simpa [List.length_eq_zero] using he
        have hempty : (m.allow.getD []).isEmpty = false := by
          cases hA : m.allow.getD [] with
          | nil => exact absurd hA he
          | cons a as => rfl
        simp [hd, hlen, hempty]

/-- C5 witness: the layer-1 map at the default settings on a concrete
message (oversized content is replaced, the head+tail bound holding by
computation). -/
theorem c5_soft_trim_layer_witness :
    (applySoftTrim [cexPruneMsg] DEFAULT_CONTEXT_PRUNING_SETTINGS
        (makeToolPrunablePredicate DEFAULT_CONTEXT_PRUNING_SETTINGS.tools)).1 =
      [cexPruneMsg].map (softTrimMessageSpec DEFAULT_CONTEXT_PRUNING_SETTINGS.softTrim
        (makeToolPrunablePredicate DEFAULT_CONTEXT_PRUNING_SETTINGS.tools)) ∧
    makeToolPrunablePredicate (some { allow := some [], deny := some ["exec"] }) "read" = true :=
  ⟨c5_soft_trim_layer.1 [cexPruneMsg] DEFAULT_CONTEXT_PRUNING_SETTINGS _ (by decide),
   by rw [c5_soft_trim_layer.2.2]; decide⟩

set_option maxRecDepth 40000 in
/-- C8: counterexample.  With a 100-token window, a 180-char (45-token)
message is filtered out by the code's retry (45 × 1.2 = 54 > 50) although
its plain token estimate does not exceed 50% of the window (45 ≤ 50), so
the code's retry succeeds on the remaining small message and appends an
omission note, while the claim's filter retries with both messages and
ends in the unavailability string. -/
theorem c8_retry_filter_counterexample :
    summarizeWithFallback c8Fn [c8Big, c8Small] 64 1000 100 none none =
      "S\n\n[Large user (~0K tokens) omitted]" ∧
    summarizeWithFallbackClaimed c8Fn [c8Big, c8Small] 64 1000 100 none none =
      "Context contained 2 messages. Summary unavailable due to size limits." ∧
    summarizeWithFallback c8Fn [c8Big, c8Small] 64 1000 100 none none ≠
      summarizeWithFallbackClaimed c8Fn [c8Big, c8Small] 64 1000 100 none none ∧
    2 * estimateMessageTokens c8Big ≤ 100 := by
  have h1 : summarizeWithFallback c8Fn [c8Big, c8Small] 64 1000 100 none none =
      "S\n\n[Large user (~0K tokens) omitted]" := by rfl
  have h2 : summarizeWithFallbackClaimed c8Fn [c8Big, c8Small] 64 1000 100 none none =
      "Context contained 2 messages. Summary unavailable due to size limits." := by rfl
  refine ⟨h1, h2, ?_, by decide⟩
  rw [h1, h2]
  decide

/-- C8 (amended): on summarizer failure the compactor retries exactly once
after filtering out every message whose token estimate times the 1.2 safety
margin exceeds 50% of the context window (equivalently, 12·tokens > 5·W),
appending one `[Large <role> (~N K tokens) omitted]` note per filtered
message to the retry's summary; if the retry also fails or nothing small
remains, it returns the `Context contained N messages` string. -/
theorem c8_summarize_fallback_amended :
    (∀ (m : Message) (W : Nat),
      isOversizedForSummary m W = true ↔ 12 * estimateMessageTokens m > 5 * W)
    ∧ (∀ (f : SummarizeFn) (msgs : List Message) (mt mct W : Nat)
        (ci ps : Option String) (err : String), msgs ≠ [] →
        summarizeChunks f msgs mt mct ci ps = .error err →
        ((msgs.filter (fun m => !isOversizedForSummary m W)) = [] →
            summarizeWithFallback f msgs mt mct W ci ps =
              summaryUnavailableMessage msgs.length)
        ∧ (∀ e2, (msgs.filter (fun m => !isOversizedForSummary m W)) ≠ [] →
            summarizeChunks f (msgs.filter (fun m => !isOversizedForSummary m W)) mt mct ci ps
              = .error e2 →
            summarizeWithFallback f msgs mt mct W ci ps =
              summaryUnavailableMessage msgs.length)
        ∧ (∀ p1, (msgs.filter (fun m => !isOversizedForSummary m W)) ≠ [] →
            summarizeChunks f (msgs.filter (fun m => !isOversizedForSummary m W)) mt mct ci ps
              = .ok p1 →
            summarizeWithFallback f msgs mt mct W ci ps =
              p1 ++ (if (msgs.filter (fun m => isOversizedForSummary m W)) ≠ [] then
                "\n\n" ++ strIntercalate "\n"
                  ((msgs.filter (fun m => isOversizedForSummary m W)).map oversizedNote)
              else ""))) := by
  constructor
  · intro m W
    simp only [isOversizedForSummary, SAFETY_MARGIN, ratMulIntRat, decide_eq_true_eq,
      show ((mkRat 6 5).num) = 6 from rfl, show ((mkRat 6 5).den) = 5 from rfl,
      show ((mkRat 1 2).num) = 1 from rfl, show ((mkRat 1 2).den) = 2 from rfl]
    rw [Rat.mkRat_eq_div, Rat.mkRat_eq_div, gt_iff_lt,
      div_lt_div_iff (by norm_num) (by norm_num)]
    push_cast
    constructor
    · intro h
      have h2 : (5 * W : ℚ) < 12 * estimateMessageTokens m := by linarith
      exact_mod_cast h2
    · intro h
      have h2 : (5 * W : ℚ) < 12 * estimateMessageTokens m := by exact_mod_cast h
      linarith
  · intro f msgs mt mct W ci ps err hne herr
    have hempty : msgs.isEmpty = false := by
      cases msgs with
      | nil => exact absurd rfl hne
      | cons a as => rfl
    refine ⟨?_, ?_, ?_⟩
    · intro hsm
      simp [summarizeWithFallback, hempty, herr, hsm]
    · intro e2 hsmne he2
      simp [summarizeWithFallback, hempty, herr, hsmne, he2]
    · intro p1 hsmne hok
      simp [summarizeWithFallback, hempty, herr, hsmne, hok]

set_option maxRecDepth 40000 in
/-- C8 witness: the amended theorem at the concrete failing summarizer,
with every hypothesis discharged by computation. -/
theorem c8_summarize_fallback_amended_witness :
    isOversizedForSummary c8Big 100 = true ∧
    summarizeWithFallback c8Fn [c8Big, c8Small] 64 1000 100 none none =
      "S" ++ "\n\n" ++ strIntercalate "\n" [oversizedNote c8Big] := by
  constructor
  · exact (c8_summarize_fallback_amended.1 c8Big 100).mpr (by decide)
  · have h := (c8_summarize_fallback_amended.2 c8Fn [c8Big, c8Small] 64 1000 100 none none
      "too big" (by decide) (by rfl)).2.2 "S" (by decide) (by rfl)
    rw [h]
    rfl

/-- Splitting a snoc: `l ++ [x] = pre ++ m :: post` puts `m` either at the
snoc position or inside `l`. -/
theorem snoc_eq_append_cons {α : Type} (l : List α) (x : α) (pre : List α) (m : α)
    (post : List α) (h : l ++ [x] = pre ++ m :: post) :
    (pre = l ∧ m = x ∧ post = []) ∨
      ∃ post', l = pre ++ m :: post' ∧ post = post' ++ [x] := by
  rcases List.append_eq_append_iff.mp h with ⟨a', h1, h2⟩ | ⟨c', h1, h2⟩
  · cases a' with
    | nil =>
      simp only [List.append_nil] at h1
      simp only [List.nil_append, List.cons.injEq] at h2
      exact Or.inl ⟨h1, h2.1.symm, h2.2.symm⟩
    | cons y ys =>
      exfalso
      have hlen := congrArg List.length h2
      simp only [List.length_cons, List.length_append, List.length_nil] at hlen
      omega
  · cases c' with
    | nil =>
      simp only [List.append_nil] at h1
      simp only [List.nil_append, List.cons.injEq] at h2
      exact Or.inl ⟨h1.symm, h2.1, h2.2⟩
    | cons y ys =>
      simp only [List.cons_append, List.cons.injEq] at h2
      obtain ⟨rfl, h2⟩ := h2
      exact Or.inr ⟨ys, by rw [h1], h2⟩

/-- Reduction of `pendingInsert` at a matching head. -/
theorem pendingInsert_cons_pos (k2 : String) (v2 name : Option String)
    (rest : List (String × Option String)) :
    pendingInsert ((k2, v2) :: rest) k2 name = (k2, name) :: rest := by
  simp [pendingInsert]

/-- Reduction of `pendingInsert` at a non-matching head. -/
theorem pendingInsert_cons_neg (k2 id : String) (v2 name : Option String)
    (rest : List (String × Option String)) (h : k2 ≠ id) :
    pendingInsert ((k2, v2) :: rest) id name = (k2, v2) :: pendingInsert rest id name := by
  simp [pendingInsert, h]

/-- `Map.set` puts the new binding in the map. -/
theorem pendingInsert_mem_self (p : List (String × Option String)) (id : String)
    (name : Option String) : (id, name) ∈ pendingInsert p id name := by
  induction p with
  | nil => simp [pendingInsert]
  | cons e rest ih =>
    obtain ⟨k, v⟩ := e
    by_cases hk : k = id
    · subst hk
      rw [pendingInsert_cons_pos]
      exact List.mem_cons_self _ _
    · rw [pendingInsert_cons_neg _ _ _ _ _ hk]
      exact List.mem_cons.mpr (Or.inr ih)

/-- `Map.set` keeps the bindings of other keys. -/
theorem pendingInsert_mem_of_ne (p : List (String × Option String)) (id : String)
    (name : Option String) (k : String) (v : Option String) (hne : k ≠ id)
    (h : (k, v) ∈ p) : (k, v) ∈ pendingInsert p id name := by
  induction p with
  | nil => cases h
  | cons e rest ih =>
    obtain ⟨k2, v2⟩ := e
    by_cases hk : k2 = id
    · subst hk
      rw [pendingInsert_cons_pos]
      rcases List.mem_cons.mp h with heq | hmem
      · injection heq with h1 h2
        exact absurd h1 hne
      · exact List.mem_cons.mpr (Or.inr hmem)
    · rw [pendingInsert_cons_neg _ _ _ _ _ hk]
      rcases List.mem_cons.mp h with heq | hmem
      · exact List.mem_cons.mpr (Or.inl heq)
      · exact List.mem_cons.mpr (Or.inr (ih hmem))

/-- Every binding after `Map.set` was present before or carries the new key. -/
theorem pendingInsert_mem_elim (p : List (String × Option String)) (id : String)
    (name : Option String) (k : String) (v : Option String)
    (h : (k, v) ∈ pendingInsert p id name) : (k, v) ∈ p ∨ k = id := by
  induction p with
  | nil =>
    simp only [pendingInsert, List.mem_singleton] at h
    injection h with h1 h2
    exact Or.inr h1
  | cons e rest ih =>
    obtain ⟨k2, v2⟩ := e
    by_cases hk : k2 = id
    · subst hk
      rw [pendingInsert_cons_pos] at h
      rcases List.mem_cons.mp h with heq | hmem
      · injection heq with h1 h2
        exact Or.inr h1
      · exact Or.inl (List.mem_cons.mpr (Or.inr hmem))
    · rw [pendingInsert_cons_neg _ _ _ _ _ hk] at h
      rcases List.mem_cons.mp h with heq | hmem
      · exact Or.inl (List.mem_cons.mpr (Or.inl heq))
      · rcases ih hmem with h1 | h2
        · exact Or.inl (List.mem_cons.mpr (Or.inr h1))
        · exact Or.inr h2

/-- Keys present before a batch of `Map.set`s are still present after. -/
theorem foldl_pendingInsert_key_mem (calls : List ToolCallRef)
    (p : List (String × Option String)) (k : String) (h : ∃ v, (k, v) ∈ p) :
    ∃ v, (k, v) ∈ calls.foldl (fun p c => pendingInsert p c.id c.name) p := by
  induction calls generalizing p with
  | nil => exact h
  | cons c cs ih =>
    refine ih _ ?_
    obtain ⟨v, hv⟩ := h
    by_cases hk : k = c.id
    · rw [hk]
      exact ⟨c.name, pendingInsert_mem_self p c.id c.name⟩
    · exact ⟨v, pendingInsert_mem_of_ne p c.id c.name k v hk hv⟩

/-- Every call in the batch gets its key into the map. -/
theorem foldl_pendingInsert_mem_of_call (calls : List ToolCallRef)
    (p : List (String × Option String)) (c : ToolCallRef) (h : c ∈ calls) :
    ∃ v, (c.id, v) ∈ calls.foldl (fun p c => pendingInsert p c.id c.name) p := by
  induction calls generalizing p with
  | nil => cases h
  | cons d ds ih =>
    rcases List.mem_cons.mp h with heq | hmem
    · subst heq
      exact foldl_pendingInsert_key_mem ds _ _ ⟨c.name, pendingInsert_mem_self p c.id c.name⟩
    · exact ih _ hmem

/-- Every binding after a batch of `Map.set`s was present before or was set
by one of the calls. -/
theorem foldl_pendingInsert_mem_elim (calls : List ToolCallRef)
    (p : List (String × Option String)) (k : String) (v : Option String)
    (h : (k, v) ∈ calls.foldl (fun p c => pendingInsert p c.id c.name) p) :
    (k, v) ∈ p ∨ ∃ c ∈ calls, k = c.id := by
  induction calls generalizing p with
  | nil => exact Or.inl h
  | cons c cs ih =>
    rcases ih _ h with h1 | ⟨d, hd, hk⟩
    · rcases pendingInsert_mem_elim p c.id c.name k v h1 with h2 | h2
      · exact Or.inl h2
      · exact Or.inr ⟨c, List.mem_cons_self _ _, h2⟩
    · exact Or.inr ⟨d, List.mem_cons.mpr (Or.inr hd), hk⟩

/-- `Map.delete` over a batch of ids keeps exactly the bindings whose key is
outside the batch. -/
theorem foldl_filter_mem (ids : List String) (p : List (String × Option String))
    (k : String) (v : Option String) :
    (k, v) ∈ ids.foldl (fun p id => p.filter (fun e => e.1 ≠ id)) p ↔
      (k, v) ∈ p ∧ k ∉ ids := by
  induction ids generalizing p with
  | nil => simp
  | cons i is ih =>
    rw [List.foldl_cons, ih]
    simp only [List.mem_filter, List.mem_cons, decide_eq_true_eq]
    constructor
    · rintro ⟨⟨h1, h2⟩, h3⟩
      exact ⟨h1, by rintro (rfl | hmem) <;> [exact h2 rfl; exact h3 hmem]⟩
    · rintro ⟨h1, h2⟩
      refine ⟨⟨h1, fun hk => h2 (Or.inl hk)⟩, fun hmem => h2 (Or.inr hmem)⟩

/-- The guard never tracks a falsy (empty) tool_use id. -/
theorem extractToolUses_id_ne_empty (m : Message) (c : ToolCallRef)
    (h : c ∈ extractToolUsesFromAssistant m) : c.id ≠ "" := by
  rcases m with ⟨role, content, ts⟩
  cases role with
  | user => cases content <;> exact absurd h (by simp [extractToolUsesFromAssistant])
  | assistant =>
  cases content with
  | str s => exact absurd h (by simp [extractToolUsesFromAssistant])
  | blocks bs =>
    simp only [extractToolUsesFromAssistant, List.mem_filterMap] at h
    obtain ⟨b, _, hb⟩ := h
    cases b with
    | tool_use id2 name input =>
      have hb' : (if id2 ≠ "" then some (⟨id2, some name⟩ : ToolCallRef) else none) = some c := hb
      by_cases hid : id2 ≠ ""
      · rw [if_pos hid] at hb'
        injection hb' with hb'
        rw [← hb']
        exact hid
      · rw [if_neg hid] at hb'
        cases hb'
    | text t => cases hb
    | tool_result a b c2 => cases hb

/-- Every non-empty `tool_use` id of an assistant message is tracked by the
guard (with its tool name). -/
theorem mem_extractToolUses_of_assistantIds (m : Message) (id : String)
    (hne : id ≠ "") (h : id ∈ assistantToolUseIds m) :
    ∃ c ∈ extractToolUsesFromAssistant m, c.id = id := by
  rcases m with ⟨role, content, ts⟩
  cases role with
  | user => cases content <;> exact absurd h (by simp [assistantToolUseIds])
  | assistant =>
  cases content with
  | str s => exact absurd h (by simp [assistantToolUseIds])
  | blocks bs =>
    simp only [assistantToolUseIds, List.mem_filterMap] at h
    obtain ⟨b, hbmem, hb⟩ := h
    cases b with
    | tool_use bid name input =>
      have hb' : some bid = some id := hb
      injection hb' with hb2
      refine ⟨⟨bid, some name⟩, ?_, hb2⟩
      unfold extractToolUsesFromAssistant
      simp only [List.mem_filterMap]
      refine ⟨.tool_use bid name input, hbmem, ?_⟩
      show (if bid ≠ "" then some (⟨bid, some name⟩ : ToolCallRef) else none) =
        some ⟨bid, some name⟩
      rw [if_pos (by rw [hb2]; exact hne)]
    | text t => cases hb
    | tool_result a b c => cases hb

/-- A message carrying tool_result ids is a user message, so it carries no
assistant tool_use ids. -/
theorem assistantIds_nil_of_resultIds_ne_nil (m : Message)
    (h : extractToolResultIds m ≠ []) : assistantToolUseIds m = [] := by
  unfold extractToolResultIds at h
  unfold assistantToolUseIds
  rcases m with ⟨role, content, ts⟩
  cases role <;> cases content <;> first | rfl | exact absurd rfl h

/-- A user message carries no assistant tool_use ids. -/
theorem assistantIds_nil_of_user (content : MsgContent) (ts : Nat) :
    assistantToolUseIds { role := .user, content := content, timestamp := ts } = [] := by
  cases content <;> rfl

/-- Every pending binding with a non-empty key is answered by the synthetic
flush message. -/
theorem mem_extract_flushMsg (pending : List (String × Option String)) (now : Nat)
    (k : String) (v : Option String) (hk : k ≠ "") (h : (k, v) ∈ pending) :
    k ∈ extractToolResultIds
      { role := .user,
        content := .blocks (pending.map (fun p => makeMissingToolResult p.1 p.2)),
        timestamp := now } := by
  unfold extractToolResultIds makeMissingToolResult
  simp only [List.mem_filterMap, List.mem_map]
  refine ⟨.tool_result k v (some "[gen-agent] missing tool result in session history; inserted synthetic error result for transcript repair."),
    ⟨(k, v), h, rfl⟩, ?_⟩
  show (if k ≠ "" then some k else none) = some k
  rw [if_pos hk]

/-- `flushPendingToolResults` is the identity when nothing is pending. -/
theorem flush_of_empty (now : Nat) (st : GuardState) (h : st.pending = []) :
    flushPendingToolResults now st = st := by
  unfold flushPendingToolResults
  rw [if_pos (by rw [h]; rfl)]

/-- `flushPendingToolResults` with pending ids appends exactly one synthetic
user message and clears the pending map. -/
theorem flush_of_ne (now : Nat) (st : GuardState) (h : st.pending ≠ []) :
    flushPendingToolResults now st =
      { log := st.log ++
          [{ role := .user,
             content := .blocks (st.pending.map (fun p => makeMissingToolResult p.1 p.2)),
             timestamp := now }],
        pending := [] } := by
  unfold flushPendingToolResults
  rw [if_neg (by simpa [List.isEmpty_iff] using h)]

/-- Flushing discharges the invariant's pending escape: each still-pending
id becomes paired by the synthetic message, and nothing is pending after. -/
theorem flush_inv (now : Nat) (st : GuardState) (h : GuardInv st) :
    GuardInv (flushPendingToolResults now st) ∧
      (flushPendingToolResults now st).pending = [] := by
  by_cases hp : st.pending = []
  · rw [flush_of_empty now st hp]
    exact ⟨h, hp⟩
  · rw [flush_of_ne now st hp]
    refine ⟨⟨?_, by intro kv hkv; cases hkv⟩, rfl⟩
    intro pre m post hsplit id hid
    rcases snoc_eq_append_cons _ _ _ _ _ hsplit with ⟨hpre, hm, hpost⟩ | ⟨post', hlog, hpost⟩
    · subst hm
      rw [assistantIds_nil_of_user] at hid
      cases hid
    · rcases h.1 pre m post' hlog id hid with ⟨pre2, m2, post2, hps, hmem⟩ | ⟨v, hv⟩
      · subst hpost hps
        exact Or.inl ⟨pre2, m2, post2 ++
          [{ role := .user,
             content := .blocks (st.pending.map (fun p => makeMissingToolResult p.1 p.2)),
             timestamp := now }], by simp, hmem⟩
      · subst hpost
        refine Or.inl ⟨post', _, [], rfl, ?_⟩
        exact mem_extract_flushMsg st.pending now id v (h.2 (id, v) hv) hv

/-- Appending a message and tracking its tool calls preserves the guard
invariant (for any base transcript satisfying it). -/
theorem append_track_inv (base : GuardState) (msg : Message) (hbase : GuardInv base)
    (hmsg : "" ∉ assistantToolUseIds msg) :
    GuardInv { log := base.log ++ [msg],
               pending := (extractToolUsesFromAssistant msg).foldl
                 (fun p c => pendingInsert p c.id c.name) base.pending } := by
  constructor
  · intro pre m post hsplit id hid
    rcases snoc_eq_append_cons _ _ _ _ _ hsplit with ⟨hpre, hm, hpost⟩ | ⟨post', hlog, hpost⟩
    · subst hm
      have hne : id ≠ "" := fun he => hmsg (he ▸ hid)
      obtain ⟨c, hc, hcid⟩ := mem_extractToolUses_of_assistantIds _ id hne hid
      right
      rw [← hcid]
      exact foldl_pendingInsert_mem_of_call _ _ c hc
    · rcases hbase.1 pre m post' hlog id hid with ⟨pre2, m2, post2, hps, hmem⟩ | ⟨v, hv⟩
      · subst hpost hps
        exact Or.inl ⟨pre2, m2, post2 ++ [msg], by simp, hmem⟩
      · exact Or.inr (foldl_pendingInsert_key_mem _ _ _ ⟨v, hv⟩)
  · intro kv hkv
    obtain ⟨k, v⟩ := kv
    rcases foldl_pendingInsert_mem_elim _ _ k v hkv with h1 | ⟨c, hc, hk⟩
    · exact hbase.2 (k, v) h1
    · show k ≠ ""
      rw [hk]
      exact extractToolUses_id_ne_empty _ c hc

/-- One guarded append keeps the invariant, provided the appended message
carries no empty tool_use id. -/
theorem guardAppend_inv (now : Nat) (st : GuardState) (msg : Message)
    (h : GuardInv st) (hmsg : "" ∉ assistantToolUseIds msg) :
    GuardInv (guardAppend now st msg) := by
  by_cases hr : extractToolResultIds msg = []
  · -- no result ids: possible flush, then append and track tool calls
    by_cases hp : st.pending = []
    · have hB : guardAppend now st msg =
          { log := st.log ++ [msg],
            pending := (extractToolUsesFromAssistant msg).foldl
              (fun p c => pendingInsert p c.id c.name) st.pending } := by
        simp [guardAppend, hr, hp]
      rw [hB]
      exact append_track_inv st msg h hmsg
    · have hB : guardAppend now st msg =
          { log := (flushPendingToolResults now st).log ++ [msg],
            pending := (extractToolUsesFromAssistant msg).foldl
              (fun p c => pendingInsert p c.id c.name)
              (flushPendingToolResults now st).pending } := by
        by_cases hc : (extractToolUsesFromAssistant msg).isEmpty
        · simp [guardAppend, hr, hp, hc, flush_of_ne now st hp]
        · simp [guardAppend, hr, hp, hc]
      rw [hB]
      exact append_track_inv _ msg (flush_inv now st h).1 hmsg
  · -- result ids present: append the message and delete the answered keys
    have hA : guardAppend now st msg =
        { log := st.log ++ [msg],
          pending := (extractToolResultIds msg).foldl
            (fun p id => p.filter (fun e => e.1 ≠ id)) st.pending } := by
      simp [guardAppend, hr]
    rw [hA]
    constructor
    · intro pre m post hsplit id hid
      rcases snoc_eq_append_cons _ _ _ _ _ hsplit with ⟨hpre, hm, hpost⟩ | ⟨post', hlog, hpost⟩
      · subst hm
        rw [assistantIds_nil_of_resultIds_ne_nil _ hr] at hid
        cases hid
      · rcases h.1 pre m post' hlog id hid with ⟨pre2, m2, post2, hps, hmem⟩ | ⟨v, hv⟩
        · subst hpost hps
          exact Or.inl ⟨pre2, m2, post2 ++ [msg], by simp, hmem⟩
        · by_cases hin : id ∈ extractToolResultIds msg
          · subst hpost
            exact Or.inl ⟨post', msg, [], rfl, hin⟩
          · exact Or.inr ⟨v, (foldl_filter_mem _ _ _ _).mpr ⟨hv, hin⟩⟩
    · intro kv hkv
      obtain ⟨k, v⟩ := kv
      exact h.2 (k, v) ((foldl_filter_mem _ _ _ _).mp hkv).1

/-- The invariant holds after folding any batch of guarded appends whose
messages carry no empty tool_use ids. -/
theorem foldl_guardAppend_inv (now : Nat) (msgs : List Message) (st : GuardState)
    (h : GuardInv st) (hmsgs : ∀ m ∈ msgs, "" ∉ assistantToolUseIds m) :
    GuardInv (msgs.foldl (guardAppend now) st) := by
  induction msgs generalizing st with
  | nil => exact h
  | cons m ms ih =>
    rw [List.foldl_cons]
    exact ih _ (guardAppend_inv now st m h (hmsgs m (List.mem_cons_self _ _)))
      (fun m2 hm2 => hmsgs m2 (List.mem_cons.mpr (Or.inr hm2)))

/-- With nothing pending, the invariant is exactly the pairing property. -/
theorem toolPairing_of_inv (st : GuardState) (h : GuardInv st)
    (hp : st.pending = []) : ToolPairing st.log := by
  intro pre m post hsplit id hid
  rcases h.1 pre m post hsplit id hid with hpair | ⟨v, hv⟩
  · exact hpair
  · rw [hp] at hv
    cases hv

/-- The empty session satisfies the invariant. -/
theorem guardInit_inv : GuardInv GuardState.init := by
  constructor
  · intro pre m post hsplit
    exact absurd hsplit (by simp [GuardState.init])
  · intro kv hkv
    cases hkv

/-- C1: after a terminating run — a fold of guarded appends followed by the
`finally` flush — every tool_use id appended in an assistant message has a
matching tool_result with the same tool_use_id in a strictly later message,
and the flush appends exactly one user message carrying a synthetic
tool_result per still-pending id (the guard tracks only truthy ids, so the
pairing is stated for histories whose assistant messages carry no empty
tool_use id). -/
theorem c1_tool_pairing :
    (∀ now msgs, (∀ m ∈ msgs, "" ∉ assistantToolUseIds m) →
      ToolPairing (flushPendingToolResults now (guardRun now msgs)).log)
    ∧ (∀ now st, st.pending ≠ [] →
        flushPendingToolResults now st =
          { log := st.log ++
              [{ role := .user,
                 content := .blocks (st.pending.map (fun p => makeMissingToolResult p.1 p.2)),
                 timestamp := now }],
            pending := [] }) := by
  constructor
  · intro now msgs hids
    have h1 : GuardInv (guardRun now msgs) :=
      foldl_guardAppend_inv now msgs GuardState.init guardInit_inv hids
    have h2 := flush_inv now (guardRun now msgs) h1
    exact toolPairing_of_inv _ h2.1 h2.2
  · intro now st hp
    exact flush_of_ne now st hp

/-- Witness for C1 at a concrete three-message history and a concrete
pending map. -/
theorem c1_tool_pairing_witness :
    ((∀ m ∈ wGuardMsgs, ("" : String) ∉ assistantToolUseIds m)
      ∧ ToolPairing (flushPendingToolResults 9 (guardRun 9 wGuardMsgs)).log)
    ∧ (({ log := [], pending := [("t9", some "list")] } : GuardState).pending ≠ []
      ∧ flushPendingToolResults 9 { log := [], pending := [("t9", some "list")] } =
        { log := [{ role := .user,
                    content := .blocks ([("t9", (some "list" : Option String))].map
                      (fun p => makeMissingToolResult p.1 p.2)),
                    timestamp := 9 }],
          pending := [] }) :=
  ⟨⟨by decide, c1_tool_pairing.1 9 wGuardMsgs (by decide)⟩,
   by decide, c1_tool_pairing.2 9 _ (by decide)⟩

/-- The drain loop keeps `active` bounded by `maxConcurrent`, keeps
`active` equal to the number of in-flight tasks, and moves a queue prefix
onto the back of `started` (so `started ++ queue` is preserved). -/
theorem drainGo_inv (m : Nat) (active : Nat) (queue inFlight started : List Nat)
    (hle : active ≤ m) (hlen : active = inFlight.length) :
    (drainGo m active queue inFlight started).1 ≤ m
    ∧ (drainGo m active queue inFlight started).1 =
        (drainGo m active queue inFlight started).2.2.1.length
    ∧ (drainGo m active queue inFlight started).2.2.2 ++
        (drainGo m active queue inFlight started).2.1 = started ++ queue := by
  induction queue generalizing active inFlight started with
  | nil =>
    simp only [drainGo, List.append_nil]
    exact ⟨hle, hlen, trivial⟩
  | cons t rest ih =>
    by_cases h : active < m
    · simp only [drainGo, if_pos h]
      have := ih (active + 1) (inFlight ++ [t]) (started ++ [t]) h
        (by simp [hlen])
      refine ⟨this.1, this.2.1, ?_⟩
      rw [this.2.2]
      simp
    · simp only [drainGo, if_neg h]
      exact ⟨hle, hlen, trivial⟩

/-- Every reachable lane state keeps the counter invariant and the FIFO
ledger. -/
theorem laneReachable_inv (m : Nat) (s : LaneState) (h : LaneReachable m s) :
    s.maxConcurrent = m ∧ s.active ≤ s.maxConcurrent
    ∧ s.active = s.inFlight.length ∧ s.started ++ s.queue = s.enqueued := by
  induction h with
  | init => exact ⟨rfl, Nat.zero_le m, rfl, rfl⟩
  | enqueue s t hs ih =>
    obtain ⟨hm, hle, hlen, hq⟩ := ih
    have hd := drainGo_inv s.maxConcurrent s.active (s.queue ++ [t]) s.inFlight s.started
      hle hlen
    refine ⟨hm, hd.1, hd.2.1, ?_⟩
    show (drainGo _ _ _ _ _).2.2.2 ++ (drainGo _ _ _ _ _).2.1 = s.enqueued ++ [t]
    rw [hd.2.2, ← List.append_assoc, hq]
  | settle s t hs htin ih =>
    obtain ⟨hm, hle, hlen, hq⟩ := ih
    have hlen' : s.active - 1 = (s.inFlight.erase t).length := by
      rw [List.length_erase_of_mem htin, hlen]
    have hd := drainGo_inv s.maxConcurrent (s.active - 1) s.queue (s.inFlight.erase t)
      s.started (Nat.le_trans (Nat.sub_le _ _) hle) hlen'
    refine ⟨hm, hd.1, hd.2.1, ?_⟩
    show (drainGo _ _ _ _ _).2.2.2 ++ (drainGo _ _ _ _ _).2.1 = s.enqueued
    rw [hd.2.2, hq]

/-- C7: in every lane state reachable by enqueues and task settlements from
an empty lane with concurrency bound m, the active counter never exceeds
the lane's maxConcurrent (which stays m, so with the global lane configured
to maxConcurrentRuns at most that many runs are in flight at once), the
active counter equals the number of in-flight tasks, and the started tasks
followed by the still-queued ones are exactly the enqueue order — tasks are
started in FIFO order. -/
theorem c7_lane_invariants (m : Nat) (s : LaneState) (h : LaneReachable m s) :
    s.active ≤ s.maxConcurrent
    ∧ s.maxConcurrent = m
    ∧ s.active = s.inFlight.length
    ∧ s.inFlight.length ≤ m
    ∧ s.started ++ s.queue = s.enqueued := by
  obtain ⟨hm, hle, hlen, hq⟩ := laneReachable_inv m s h
  exact ⟨hle, hm, hlen, by rw [← hlen, ← hm]; exact hle, hq⟩

/-- Witness for C7: a concurrency-1 lane after enqueueing tasks 10 and 20
(task 10 runs, task 20 waits). -/
theorem c7_lane_invariants_witness :
    LaneReachable 1 wLane2
    ∧ (wLane2.active ≤ wLane2.maxConcurrent
      ∧ wLane2.maxConcurrent = 1
      ∧ wLane2.active = wLane2.inFlight.length
      ∧ wLane2.inFlight.length ≤ 1
      ∧ wLane2.started ++ wLane2.queue = wLane2.enqueued) :=
  ⟨LaneReachable.enqueue _ 20 (LaneReachable.enqueue _ 10 LaneReachable.init),
   c7_lane_invariants 1 wLane2
     (LaneReachable.enqueue _ 20 (LaneReachable.enqueue _ 10 LaneReachable.init))⟩

/-- With an empty steering queue throughout, the serial loop executes every
call in order. -/
theorem execToolsGo_serial (tools : List ToolDef) (steer : Nat → List Message)
    (calls : List ToolCallRec) : ∀ k : Nat,
    (∀ i, i < calls.length → steer (k + i) = []) →
    execToolsGo tools steer calls k =
      { events := calls.flatMap (realToolEvents tools),
        toolResults := calls.map (realToolBlock tools),
        executed := calls.length,
        steeringMessages := none,
        nextSteerIdx := k + calls.length } := by
  induction calls with
  | nil => intro k h; simp [execToolsGo]
  | cons call rest ih =>
    intro k h
    have h0 : steer k = [] := by simpa using h 0 (by simp)
    simp only [execToolsGo]
    rw [if_neg (by simp [h0])]
    rw [ih (k + 1) (fun i hi => by
      have heq : k + 1 + i = k + (i + 1) := by omega
      rw [heq]
      exact h (i + 1) (by simpa using Nat.succ_lt_succ hi))]
    simp [realToolEvents, realToolBlock, List.flatMap_cons, Nat.add_assoc, Nat.add_comm 1]

/-- If the steering queue first becomes non-empty after the (j+1)-th call,
the serial loop executes calls 0..j, skips the rest, and records the
drained steering messages. -/
theorem execToolsGo_interrupt (tools : List ToolDef) (steer : Nat → List Message)
    (j : Nat) : ∀ (calls : List ToolCallRec) (k : Nat), j < calls.length →
    (∀ i, i < j → steer (k + i) = []) → steer (k + j) ≠ [] →
    execToolsGo tools steer calls k =
      { events := ((calls.take (j + 1)).flatMap (realToolEvents tools)) ++
          ((calls.drop (j + 1)).map (fun c => .tool_skipped c.id c.name)) ++
          [.steering (steer (k + j)).length],
        toolResults := ((calls.take (j + 1)).map (realToolBlock tools)) ++
          ((calls.drop (j + 1)).map skipToolCall),
        executed := j + 1,
        steeringMessages := some (steer (k + j)),
        nextSteerIdx := k + j + 1 } := by
  induction j with
  | zero =>
    intro calls k hlt hpre hj
    match calls with
    | [] => cases hlt
    | call :: rest =>
      rw [Nat.add_zero] at hj
      simp only [execToolsGo]
      rw [if_pos hj]
      simp [realToolEvents, realToolBlock]
  | succ j ih =>
    intro calls k hlt hpre hj
    match calls with
    | [] => cases hlt
    | call :: rest =>
      have h0 : steer k = [] := by simpa using hpre 0 (Nat.succ_pos j)
      simp only [execToolsGo]
      rw [if_neg (by simp [h0])]
      have hrw : k + 1 + j = k + (j + 1) := by omega
      rw [ih rest (k + 1) (by simpa using Nat.lt_of_succ_lt_succ hlt)
        (fun i hi => by
          have heq : k + 1 + i = k + (i + 1) := by omega
          rw [heq]
          exact hpre (i + 1) (Nat.succ_lt_succ hi))
        (by rw [hrw]; exact hj)]
      simp only [List.take_succ_cons, List.drop_succ_cons, List.flatMap_cons, hrw]
      simp [realToolEvents, realToolBlock, Nat.add_assoc, Nat.add_comm 1]

/-- C2: in an inner-loop iteration with tool calls, the phase executes the
calls serially in emission order; if the steering queue is first non-empty
after the (j+1)-th call, every remaining call gets a `tool_skipped` event
and a synthetic skip result, one `steering` event is emitted, the drained
steering messages become the next turn's `pendingMessages`, and all
`tool_result` blocks — real and synthetic — form a single user message;
with no steering, all calls run and the fresh steering check (empty) is
the next `pendingMessages`. -/
theorem c2_serial_tools_and_steering (tools : List ToolDef) (steer : Nat → List Message)
    (calls : List ToolCallRec) (k turn now : Nat) :
    (∀ j, j < calls.length → (∀ i, i < j → steer (k + i) = []) → steer (k + j) ≠ [] →
      execToolsPhase tools steer calls k turn now =
        { events := ((calls.take (j + 1)).flatMap (realToolEvents tools)) ++
            ((calls.drop (j + 1)).map (fun c => .tool_skipped c.id c.name)) ++
            [.steering (steer (k + j)).length, .turn_end turn],
          resultMsg := { role := .user,
                         content := .blocks (((calls.take (j + 1)).map (realToolBlock tools)) ++
                           ((calls.drop (j + 1)).map skipToolCall)),
                         timestamp := now },
          pending := steer (k + j),
          executed := j + 1,
          nextSteerIdx := k + j + 1 })
    ∧ ((∀ i, i ≤ calls.length → steer (k + i) = []) →
      execToolsPhase tools steer calls k turn now =
        { events := calls.flatMap (realToolEvents tools) ++ [.turn_end turn],
          resultMsg := { role := .user,
                         content := .blocks (calls.map (realToolBlock tools)),
                         timestamp := now },
          pending := [],
          executed := calls.length,
          nextSteerIdx := k + calls.length + 1 }) := by
  constructor
  · intro j hlt hpre hj
    have hpos : (steer (k + j)).length > 0 := List.length_pos.mpr hj
    simp only [execToolsPhase]
    rw [execToolsGo_interrupt tools steer j calls k hlt hpre hj]
    simp [hpos]
  · intro hall
    simp only [execToolsPhase]
    rw [execToolsGo_serial tools steer calls k (fun i hi => hall i (Nat.le_of_lt hi))]
    simp [hall calls.length (Nat.le_refl _)]

/-- Witness for C2: two tool calls; with steering appearing after the first
check the second call runs then steering drains, and with no steering both
run. -/
theorem c2_serial_tools_and_steering_witness :
    ((1 < ([wCall1, wCall2] : List ToolCallRec).length
      ∧ (∀ i, i < 1 → wSteerSecond (0 + i) = [])
      ∧ wSteerSecond (0 + 1) ≠ [])
      ∧ execToolsPhase wTools wSteerSecond [wCall1, wCall2] 0 3 7 =
        { events := (([wCall1, wCall2].take (1 + 1)).flatMap (realToolEvents wTools)) ++
            (([wCall1, wCall2].drop (1 + 1)).map (fun c => .tool_skipped c.id c.name)) ++
            [.steering (wSteerSecond (0 + 1)).length, .turn_end 3],
          resultMsg := { role := .user,
                         content := .blocks ((([wCall1, wCall2].take (1 + 1)).map
                             (realToolBlock wTools)) ++
                           (([wCall1, wCall2].drop (1 + 1)).map skipToolCall)),
                         timestamp := 7 },
          pending := wSteerSecond (0 + 1),
          executed := 1 + 1,
          nextSteerIdx := 0 + 1 + 1 })
    ∧ ((∀ i, i ≤ ([wCall1, wCall2] : List ToolCallRec).length → wSteerNone (0 + i) = [])
      ∧ execToolsPhase wTools wSteerNone [wCall1, wCall2] 0 3 7 =
        { events := [wCall1, wCall2].flatMap (realToolEvents wTools) ++ [.turn_end 3],
          resultMsg := { role := .user,
                         content := .blocks ([wCall1, wCall2].map (realToolBlock wTools)),
                         timestamp := 7 },
          pending := [],
          executed := ([wCall1, wCall2] : List ToolCallRec).length,
          nextSteerIdx := 0 + ([wCall1, wCall2] : List ToolCallRec).length + 1 }) :=
  ⟨⟨⟨by decide, by decide, by decide⟩,
    (c2_serial_tools_and_steering wTools wSteerSecond [wCall1, wCall2] 0 3 7).1 1
      (by decide) (by decide) (by decide)⟩,
   ⟨by decide, (c2_serial_tools_and_steering wTools wSteerNone [wCall1, wCall2] 0 3 7).2
      (by decide)⟩⟩

/-- C10: a tool call's `tool_execution_end` reports `isError = true` exactly
when no tool of that name is in the run's tool list; a resolved tool whose
`execute` throws yields the `tool_result` content "Execution error: <msg>"
with `isError = false` (the error is absorbed, never propagated — the phase
is a total function); and the phase's events and result block carry exactly
that outcome and its 500-char preview. -/
theorem c10_tool_error_reporting :
    (∀ (tools : List ToolDef) (call : ToolCallRec),
      (runOneToolCall tools call).2 = true ↔
        tools.find? (fun t => t.name == call.name) = none)
    ∧ (∀ (tools : List ToolDef) (call : ToolCallRec) (tool : ToolDef) (e : String),
        tools.find? (fun t => t.name == call.name) = some tool →
        tool.execute call = .error e →
        runOneToolCall tools call = ("Execution error: " ++ e, false))
    ∧ (∀ (tools : List ToolDef) (steer : Nat → List Message) (call : ToolCallRec)
        (rest : List ToolCallRec) (k : Nat),
        ∃ evs blocks,
          (execToolsGo tools steer (call :: rest) k).events =
            MiniEvent.tool_execution_start call.id call.name call.input ::
            MiniEvent.tool_execution_end call.id call.name
              (resultPreview (runOneToolCall tools call).1) (runOneToolCall tools call).2 ::
            evs
          ∧ (execToolsGo tools steer (call :: rest) k).toolResults =
            ContentBlock.tool_result call.id (some call.name)
              (some (runOneToolCall tools call).1) :: blocks) := by
  refine ⟨?_, ?_, ?_⟩
  · intro tools call
    unfold runOneToolCall
    cases hf : tools.find? (fun t => t.name == call.name) with
    | none => simp
    | some tool =>
      simp only [hf]
      cases tool.execute call <;> simp
  · intro tools call tool e hf he
    unfold runOneToolCall
    simp only [hf, he]
  · intro tools steer call rest k
    simp only [execToolsGo]
    by_cases hs : steer k ≠ []
    · rw [if_pos hs]
      exact ⟨_, _, rfl, rfl⟩
    · rw [if_neg hs]
      exact ⟨_, _, rfl, rfl⟩

/-- Witness for C10: a tool that throws reports content
"Execution error: kaput" with isError false; an unknown tool reports
isError true. -/
theorem c10_tool_error_reporting_witness :
    (wTools.find? (fun t => t.name == wCall2.name) = some wToolBoom
      ∧ wToolBoom.execute wCall2 = Except.error "kaput"
      ∧ runOneToolCall wTools wCall2 = ("Execution error: " ++ "kaput", false))
    ∧ ((runOneToolCall wTools wCall3).2 = true ↔
        wTools.find? (fun t => t.name == wCall3.name) = none) :=
  ⟨⟨rfl, rfl,
    c10_tool_error_reporting.2.1 wTools wCall2 wToolBoom "kaput" rfl rfl⟩,
   c10_tool_error_reporting.1 wTools wCall3⟩

/-- A non-empty string is truthy. -/
theorem truthyStr_of_ne (s : String) (h : s ≠ "") : truthyStr (some s) = some s := by
  unfold truthyStr
  split
  · rename_i heq
    injection heq with heq
    exact absurd heq h
  · rfl

/-- C3: an LLM failure classified as context overflow with the one-shot
flag clear sets the flag, emits `context_overflow_compact`, calls
`prepareCompaction` on the current messages, installs the returned summary
message as `compactionSummary`, un-charges the turn (`turns--` after the
increment), and retries via the inner loop; with the flag already set the
failure propagates, and a failed inner loop surfaces the error from the
outer loop. -/
theorem c3_overflow_compaction_retry :
    (∀ (O : LoopOracles) (maxTurns contextTokens : Nat) (tools : List ToolDef)
        (st : LoopState) (e sum : String) (m : Message),
      st.turns < maxTurns → st.pendingMessages = [] →
      O.llm st.llmIdx = .error e → isContextOverflowError (some e) = true →
      st.overflowAttempted = false →
      O.prepCompact st.currentMessages = (some sum, some m) → sum ≠ "" →
      ∃ st', innerStep O maxTurns contextTokens tools st = .next st'
        ∧ st'.overflowAttempted = true
        ∧ st'.compactionSummary = some m
        ∧ st'.turns = st.turns
        ∧ st'.llmIdx = st.llmIdx + 1
        ∧ st'.currentMessages = st.currentMessages
        ∧ st'.events = st.events ++
            [.turn_start (st.turns + 1), .context_overflow_compact e]
        ∧ (st.hasMoreToolCalls = true → ∀ fuel,
            runInner O maxTurns contextTokens tools (fuel + 1) st =
              runInner O maxTurns contextTokens tools fuel st'))
    ∧ (∀ (O : LoopOracles) (maxTurns contextTokens : Nat) (tools : List ToolDef)
        (st : LoopState) (e : String),
      st.turns < maxTurns → st.pendingMessages = [] →
      O.llm st.llmIdx = .error e →
      st.overflowAttempted = true →
      innerStep O maxTurns contextTokens tools st =
        .fail { st with turns := st.turns + 1,
                        events := st.events ++ [.turn_start (st.turns + 1)],
                        llmIdx := st.llmIdx + 1 } e)
    ∧ (∀ (O : LoopOracles) (maxTurns contextTokens : Nat) (tools : List ToolDef)
        (st s : LoopState) (e : String) (fuel : Nat),
      runInner O maxTurns contextTokens tools (maxTurns + 2) st = .failed s e →
      runOuter O maxTurns contextTokens tools (fuel + 1) st = (s, some e)) := by
  refine ⟨?_, ?_, ?_⟩
  · intro O maxTurns contextTokens tools st e sum m hturn hpend hllm hovf hatt hprep hsum
    have h1 : ¬ st.turns ≥ maxTurns := by omega
    have hstep : innerStep O maxTurns contextTokens tools st =
        .next { st with
          turns := st.turns + 1 - 1,
          llmIdx := st.llmIdx + 1,
          overflowAttempted := true,
          compactionSummary := some m,
          events := st.events ++
            [.turn_start (st.turns + 1), .context_overflow_compact e] } := by
      simp [innerStep, h1, hpend, hllm, hovf, hatt, hprep,
        truthyStr_of_ne sum hsum]
    refine ⟨_, hstep, by simp, by simp, by simp, by simp, by simp, by simp, ?_⟩
    intro hmore fuel
    simp only [runInner, hmore, true_or, if_true, hstep]
  · intro O maxTurns contextTokens tools st e hturn hpend hllm hatt
    have h1 : ¬ st.turns ≥ maxTurns := by omega
    simp [innerStep, h1, hpend, hllm, hatt]
  · intro O maxTurns contextTokens tools st s e fuel h
    simp only [runOuter, h]

set_option maxRecDepth 10000 in
/-- Witness for C3: one overflow failure compacts and retries; with the
flag set the same failure propagates through the inner and outer loops. -/
theorem c3_overflow_compaction_retry_witness :
    (wLoopState.turns < 5
      ∧ isContextOverflowError (some wOverflowError) = true
      ∧ wOraclesOverflow.prepCompact wLoopState.currentMessages =
          (some "SUM", some wSummaryMsg)
      ∧ (∃ st', innerStep wOraclesOverflow 5 100000 [] wLoopState = .next st'
          ∧ st'.overflowAttempted = true
          ∧ st'.compactionSummary = some wSummaryMsg
          ∧ st'.turns = wLoopState.turns
          ∧ st'.llmIdx = wLoopState.llmIdx + 1
          ∧ st'.currentMessages = wLoopState.currentMessages
          ∧ st'.events = wLoopState.events ++
              [.turn_start (wLoopState.turns + 1),
               .context_overflow_compact wOverflowError]
          ∧ (wLoopState.hasMoreToolCalls = true → ∀ fuel,
              runInner wOraclesOverflow 5 100000 [] (fuel + 1) wLoopState =
                runInner wOraclesOverflow 5 100000 [] fuel st')))
    ∧ (({ wLoopState with overflowAttempted := true } : LoopState).overflowAttempted = true
      ∧ innerStep wOraclesOverflow 5 100000 [] { wLoopState with overflowAttempted := true } =
        .fail { wLoopState with overflowAttempted := true, turns := 1,
                                 events := [MiniEvent.turn_start 1], llmIdx := 1 } wOverflowError)
    ∧ (runInner wOraclesOverflow 5 100000 [] (5 + 2)
          { wLoopState with overflowAttempted := true } =
        .failed { wLoopState with overflowAttempted := true, turns := 1,
                                   events := [MiniEvent.turn_start 1], llmIdx := 1 } wOverflowError
      ∧ runOuter wOraclesOverflow 5 100000 [] (0 + 1)
          { wLoopState with overflowAttempted := true } =
        ({ wLoopState with overflowAttempted := true, turns := 1,
                            events := [MiniEvent.turn_start 1], llmIdx := 1 }, some wOverflowError)) :=
  ⟨⟨by decide, by decide, rfl,
    c3_overflow_compaction_retry.1 wOraclesOverflow 5 100000 [] wLoopState
      wOverflowError "SUM" wSummaryMsg (by decide) rfl rfl (by decide) rfl rfl
      (by decide)⟩,
   ⟨rfl,
    c3_overflow_compaction_retry.2.1 wOraclesOverflow 5 100000 []
      { wLoopState with overflowAttempted := true } wOverflowError (by decide) rfl rfl rfl⟩,
   rfl,
   c3_overflow_compaction_retry.2.2 wOraclesOverflow 5 100000 []
     { wLoopState with overflowAttempted := true } _ wOverflowError 0 rfl⟩

/-- Char estimate of a cons. -/
theorem estimateMessagesChars_cons (m : Message) (rest : List Message) :
    estimateMessagesChars (m :: rest) = estimateMessageChars m + estimateMessagesChars rest := by
  simp [estimateMessagesChars]

/-- Indices produced by `enumFrom` are below `start + length`. -/
theorem mem_enumFrom_fst_lt (l : List Message) : ∀ (j : Nat) (p : Nat × Message),
    p ∈ l.enumFrom j → p.1 < j + l.length := by
  induction l with
  | nil => intro j p hp; cases hp
  | cons m rest ih =>
    intro j p hp
    rcases List.mem_cons.mp hp with rfl | hp2
    · simp
    · have := ih (j + 1) p hp2
      simp only [List.length_cons]
      omega

/-- The backward assistant scan returns an index bounded by the bound on
the scanned indices. -/
theorem findAssistantCutoffAux_le (n : Nat) : ∀ (remaining : Nat) (l : List (Nat × Message)),
    (∀ p ∈ l, p.1 ≤ n) → ∀ i, findAssistantCutoffAux remaining l = some i → i ≤ n := by
  intro remaining l
  induction l generalizing remaining with
  | nil => intro _ i h; cases h
  | cons p rest ih =>
    intro hb i h
    simp only [findAssistantCutoffAux] at h
    by_cases hr : p.2.role = .assistant
    · rw [if_pos hr] at h
      by_cases hrem : remaining ≤ 1
      · rw [if_pos hrem] at h
        injection h with h
        exact h ▸ hb p (List.mem_cons_self _ _)
      · rw [if_neg hrem] at h
        exact ih _ (fun q hq => hb q (List.mem_cons.mpr (Or.inr hq))) i h
    · rw [if_neg hr] at h
      exact ih _ (fun q hq => hb q (List.mem_cons.mpr (Or.inr hq))) i h

/-- The protected cutoff index never exceeds the message count. -/
theorem cutoff_le_length (current : List Message) (k : Nat) :
    (findAssistantCutoffIndex current k).getD 0 ≤ current.length := by
  unfold findAssistantCutoffIndex
  by_cases hk : k = 0
  · rw [if_pos hk]; rfl
  · rw [if_neg hk]
    cases hf : findAssistantCutoffAux k current.enum.reverse with
    | none => simp
    | some i =>
      simp only [Option.getD_some]
      refine findAssistantCutoffAux_le current.length k current.enum.reverse ?_ i hf
      intro p hp
      have hp2 := List.mem_reverse.mp hp
      have := mem_enumFrom_fst_lt current 0 p (by simpa [List.enum] using hp2)
      omega

/-- The suffix at the least fitting drop index fits the budget. -/
theorem leastDropIndexFit_fits (msgs : List Message) (budget : Int) (h0 : 0 ≤ budget) :
    (estimateMessagesChars (msgs.drop (leastDropIndexFit msgs budget)) : Int) ≤ budget := by
  induction msgs with
  | nil => simpa [leastDropIndexFit, estimateMessagesChars] using h0
  | cons m rest ih =>
    by_cases h : (estimateMessagesChars (m :: rest) : Int) ≤ budget
    · simp only [leastDropIndexFit, if_pos h, List.drop_zero]
      exact h
    · simp only [leastDropIndexFit, if_neg h, List.drop_succ_cons]
      exact ih

/-- Below the least fitting drop index, suffixes exceed the budget. -/
theorem leastDropIndexFit_lt (msgs : List Message) (budget : Int) :
    ∀ j, j < leastDropIndexFit msgs budget →
      (estimateMessagesChars (msgs.drop j) : Int) > budget := by
  induction msgs with
  | nil => intro j hj; simp [leastDropIndexFit] at hj
  | cons m rest ih =>
    intro j hj
    by_cases h : (estimateMessagesChars (m :: rest) : Int) ≤ budget
    · rw [leastDropIndexFit, if_pos h] at hj
      cases hj
    · rw [leastDropIndexFit, if_neg h] at hj
      match j with
      | 0 => simpa using h
      | j + 1 =>
        rw [List.drop_succ_cons]
        exact ih j (by omega)

/-- The least fitting drop index is at most the length. -/
theorem leastDropIndexFit_le_length (msgs : List Message) (budget : Int) :
    leastDropIndexFit msgs budget ≤ msgs.length := by
  induction msgs with
  | nil => simp [leastDropIndexFit]
  | cons m rest ih =>
    by_cases h : (estimateMessagesChars (m :: rest) : Int) ≤ budget
    · simp [leastDropIndexFit, if_pos h]
    · simp only [leastDropIndexFit, if_neg h, List.length_cons]
      omega

/-- A fitting suffix is at or after the least fitting drop index. -/
theorem leastDropIndexFit_le_of_fits (msgs : List Message) (budget : Int) (j : Nat)
    (h : (estimateMessagesChars (msgs.drop j) : Int) ≤ budget) :
    leastDropIndexFit msgs budget ≤ j := by
  by_contra hc
  exact absurd h (by simpa using leastDropIndexFit_lt msgs budget j (by omega))

/-- Reversed prefix of length n+1 starts with the n-th element. -/
theorem take_succ_reverse (l : List Message) (n : Nat) (h : n < l.length) :
    (l.take (n + 1)).reverse = l[n] :: (l.take n).reverse := by
  rw [List.take_succ]
  simp [List.getElem?_eq_getElem h]

/-- Dropping n exposes the n-th element. -/
theorem drop_eq_cons (l : List Message) (n : Nat) (h : n < l.length) :
    l.drop n = l[n] :: l.drop (n + 1) :=
  List.drop_eq_getElem_cons h

/-- Dropping more never increases the char estimate. -/
theorem chars_drop_antitone (l : List Message) : ∀ i j, i ≤ j →
    estimateMessagesChars (l.drop j) ≤ estimateMessagesChars (l.drop i) := by
  have hstep : ∀ i, estimateMessagesChars (l.drop (i + 1)) ≤
      estimateMessagesChars (l.drop i) := by
    intro i
    by_cases hi : i < l.length
    · rw [drop_eq_cons l i hi, estimateMessagesChars_cons]
      omega
    · rw [List.drop_eq_nil_of_le (by omega), List.drop_eq_nil_of_le (by omega)]
  intro i j hij
  induction j with
  | zero =>
    have : i = 0 := Nat.le_zero.mp hij
    rw [this]
  | succ j ihj =>
    by_cases hij2 : i = j + 1
    · rw [hij2]
    · exact Nat.le_trans (hstep j) (ihj (by omega))

/-- Backward extension of a fitting protected suffix keeps exactly the
maximal fitting suffix. -/
theorem extendBackward_drop (current : List Message) (budget : Int) :
    ∀ J, J ≤ current.length →
    (estimateMessagesChars (current.drop J) : Int) ≤ budget →
    extendBackwardGo (current.take J).reverse
        (budget - (estimateMessagesChars (current.drop J) : Int)) (current.drop J) =
      current.drop (leastDropIndexFit current budget)
    ∧ leastDropIndexFit current budget ≤ J := by
  intro J
  induction J with
  | zero =>
    intro _ hfit
    have hz : leastDropIndexFit current budget = 0 :=
      Nat.le_zero.mp (leastDropIndexFit_le_of_fits current budget 0 (by simpa using hfit))
    rw [hz]
    simp [extendBackwardGo]
  | succ J ih =>
    intro hlen hfit
    have hJlt : J < current.length := by omega
    rw [take_succ_reverse current J hJlt]
    have hdecomp : (estimateMessagesChars (current.drop J) : Int) =
        (estimateMessageChars current[J] : Int) +
          (estimateMessagesChars (current.drop (J + 1)) : Int) := by
      rw [drop_eq_cons current J hJlt, estimateMessagesChars_cons]
      push_cast
      ring
    by_cases hfitJ : (estimateMessagesChars (current.drop J) : Int) ≤ budget
    · -- the J-th message also fits: recurse
      have hcond : ¬ ((estimateMessageChars current[J] : Int) >
          budget - (estimateMessagesChars (current.drop (J + 1)) : Int)) := by omega
      simp only [extendBackwardGo, if_neg hcond]
      have := ih (by omega) hfitJ
      rw [← drop_eq_cons current J hJlt]
      have harith : budget - (estimateMessagesChars (current.drop (J + 1)) : Int) -
          (estimateMessageChars current[J] : Int) =
          budget - (estimateMessagesChars (current.drop J) : Int) := by omega
      rw [harith]
      exact ⟨this.1, Nat.le_trans this.2 (Nat.le_succ J)⟩
    · -- the J-th message does not fit: stop at J+1
      have hcond : (estimateMessageChars current[J] : Int) >
          budget - (estimateMessagesChars (current.drop (J + 1)) : Int) := by omega
      simp only [extendBackwardGo, if_pos hcond]
      have hge : leastDropIndexFit current budget ≤ J + 1 :=
        leastDropIndexFit_le_of_fits current budget (J + 1) hfit
      have hgt : J < leastDropIndexFit current budget := by
        by_contra hc
        have hle : leastDropIndexFit current budget ≤ J := by omega
        have hmono := chars_drop_antitone current (leastDropIndexFit current budget) J hle
        have h0 : (0 : Int) ≤ budget := le_trans (Int.natCast_nonneg _) hfit
        have hfits := leastDropIndexFit_fits current budget h0
        refine hfitJ ?_
        have : (estimateMessagesChars (current.drop J) : Int) ≤
            (estimateMessagesChars (current.drop (leastDropIndexFit current budget)) : Int) := by
          exact_mod_cast hmono
        omega
      have heq : leastDropIndexFit current budget = J + 1 := by omega
      rw [heq]
      exact ⟨rfl, Nat.le_refl _⟩

/-- The backward fill, started below the least fitting index with a
non-empty kept suffix, stops immediately. -/
theorem sliceGo_stop (current : List Message) (budget : Int) (i : Nat)
    (h1 : 1 ≤ i) (h2 : i < current.length)
    (hover : (estimateMessagesChars (current.drop (i - 1)) : Int) > budget) :
    sliceGo budget (current.take i).reverse
        (estimateMessagesChars (current.drop i) : Int) (current.drop i) =
      current.drop i := by
  have hi1 : i - 1 < current.length := by omega
  have hiplus : i - 1 + 1 = i := by omega
  have htake := take_succ_reverse current (i - 1) hi1
  rw [hiplus] at htake
  rw [htake]
  have hdecomp : (estimateMessagesChars (current.drop (i - 1)) : Int) =
      (estimateMessageChars current[i - 1] : Int) +
        (estimateMessagesChars (current.drop i) : Int) := by
    have : i - 1 + 1 = i := by omega
    rw [drop_eq_cons current (i - 1) hi1, this, estimateMessagesChars_cons]
    push_cast
    ring
  have hcond : (estimateMessagesChars (current.drop i) : Int) +
      (estimateMessageChars current[i - 1] : Int) > budget := by omega
  have hlen : 0 < (current.drop i).length := by
    rw [List.length_drop]
    omega
  simp only [sliceGo]
  rw [if_pos]
  simp only [Bool.and_eq_true, decide_eq_true_eq]
  exact ⟨by omega, by omega⟩

/-- Above the least fitting index the backward fill keeps accumulating
down to it. -/
theorem sliceGo_drop_inv (current : List Message) (budget : Int) (h0 : 0 ≤ budget)
    (hlt : leastDropIndexFit current budget < current.length) :
    ∀ i, leastDropIndexFit current budget ≤ i → i ≤ current.length →
    sliceGo budget (current.take i).reverse
        (estimateMessagesChars (current.drop i) : Int) (current.drop i) =
      current.drop (leastDropIndexFit current budget) := by
  intro i
  induction i with
  | zero =>
    intro hge _
    have hz : leastDropIndexFit current budget = 0 := by omega
    rw [hz]
    simp [sliceGo]
  | succ i ih =>
    intro hge hle
    have hilt : i < current.length := by omega
    rw [take_succ_reverse current i hilt]
    have hdecomp : (estimateMessagesChars (current.drop i) : Int) =
        (estimateMessageChars current[i] : Int) +
          (estimateMessagesChars (current.drop (i + 1)) : Int) := by
      rw [drop_eq_cons current i hilt, estimateMessagesChars_cons]
      push_cast
      ring
    by_cases hcase : leastDropIndexFit current budget ≤ i
    · -- still at or above the least fitting index: the check passes
      have hfits : (estimateMessagesChars (current.drop i) : Int) ≤ budget := by
        have hmono := chars_drop_antitone current (leastDropIndexFit current budget) i hcase
        have hfit := leastDropIndexFit_fits current budget h0
        have : (estimateMessagesChars (current.drop i) : Int) ≤
            (estimateMessagesChars (current.drop (leastDropIndexFit current budget)) : Int) := by
          exact_mod_cast hmono
        omega
      simp only [sliceGo]
      rw [if_neg]
      · rw [← drop_eq_cons current i hilt]
        have harith : (estimateMessagesChars (current.drop (i + 1)) : Int) +
            (estimateMessageChars current[i] : Int) =
            (estimateMessagesChars (current.drop i) : Int) := by omega
        rw [harith]
        exact ih hcase (by omega)
      · simp only [Bool.and_eq_true, decide_eq_true_eq, not_and]
        intro hgt
        omega
    · -- the i-th message would overflow: stop with the kept suffix
      have heq : leastDropIndexFit current budget = i + 1 := by omega
      have hover : (estimateMessagesChars (current.drop i) : Int) > budget := by
        have := leastDropIndexFit_lt current budget i (by omega)
        omega
      simp only [sliceGo]
      rw [if_pos]
      · rw [heq]
      · simp only [Bool.and_eq_true, decide_eq_true_eq]
        constructor
        · omega
        · rw [List.length_drop]
          omega

/-- `sliceWithinBudget` keeps the maximal fitting suffix, or just the last
message when nothing fits. -/
theorem sliceWithinBudget_drop (current : List Message) (budget : Int) (h0 : 0 ≤ budget) :
    sliceWithinBudget current budget =
      current.drop (min (leastDropIndexFit current budget) (current.length - 1)) := by
  match hcur : current with
  | [] => simp [sliceWithinBudget, sliceGo]
  | m :: rest =>
  set cur := m :: rest with hcurdef
  have hlen : 1 ≤ cur.length := by simp [hcurdef]
  have hle := leastDropIndexFit_le_length cur budget
  by_cases hlt : leastDropIndexFit cur budget < cur.length
  · have hmin : min (leastDropIndexFit cur budget) (cur.length - 1) =
        leastDropIndexFit cur budget := by omega
    rw [hmin]
    have := sliceGo_drop_inv cur budget h0 hlt cur.length hle (Nat.le_refl _)
    rw [List.take_length, List.drop_length] at this
    simpa [sliceWithinBudget] using this
  · have heq : leastDropIndexFit cur budget = cur.length := by omega
    have hmin : min (leastDropIndexFit cur budget) (cur.length - 1) = cur.length - 1 := by
      omega
    rw [hmin]
    -- first step: the kept list is empty, so the check cannot stop the fill
    have hl1 : cur.length - 1 < cur.length := by omega
    have hplus : cur.length - 1 + 1 = cur.length := by omega
    have hrev := take_succ_reverse cur (cur.length - 1) hl1
    rw [hplus, List.take_length] at hrev
    have hfirst : sliceWithinBudget cur budget =
        sliceGo budget (cur.take (cur.length - 1)).reverse
          (estimateMessagesChars (cur.drop (cur.length - 1)) : Int)
          (cur.drop (cur.length - 1)) := by
      rw [sliceWithinBudget, hrev]
      simp only [sliceGo, List.length_nil]
      rw [if_neg (by simp)]
      have hd1 : cur.drop (cur.length - 1) = [cur[cur.length - 1]] := by
        have h1 : cur.length - 1 + 1 = cur.length := by omega
        rw [drop_eq_cons cur (cur.length - 1) hl1, h1, List.drop_length]
      rw [hd1]
      have hc1 : (0 : Int) + (estimateMessageChars cur[cur.length - 1] : Int) =
          (estimateMessagesChars [cur[cur.length - 1]] : Int) := by
        rw [estimateMessagesChars_cons]
        simp [estimateMessagesChars]
      rw [hc1]
    rw [hfirst]
    by_cases hone : cur.length - 1 = 0
    · rw [hone]
      simp [sliceGo]
    · have h1le : 1 ≤ cur.length - 1 := by omega
      exact sliceGo_stop cur budget (cur.length - 1) h1le hl1 (by
        have := leastDropIndexFit_lt cur budget (cur.length - 1 - 1) (by omega)
        omega)

/-- On a duplicate-free list, filtering out the members of the kept suffix
leaves exactly the dropped prefix. -/
theorem filter_not_contains_drop (l : List Message) (K : Nat) (hK : K ≤ l.length)
    (hnd : l.Nodup) :
    l.filter (fun m => !((l.drop K).contains m)) = l.take K := by
  have hsplit : l.take K ++ l.drop K = l := List.take_append_drop K l
  have hnd2 : (l.take K ++ l.drop K).Nodup := by rw [hsplit]; exact hnd
  have hdisj := (List.nodup_append.mp hnd2).2.2
  have h1 : (l.take K).filter (fun m => !((l.drop K).contains m)) = l.take K := by
    rw [List.filter_eq_self]
    intro m hm
    simp only [List.contains, List.elem_eq_mem, Bool.not_eq_true',
      decide_eq_false_iff_not]
    exact hdisj hm
  have h2 : (l.drop K).filter (fun m => !((l.drop K).contains m)) = [] := by
    rw [List.filter_eq_nil_iff]
    intro m hm
    simp only [List.contains, List.elem_eq_mem, Bool.not_eq_true',
      decide_eq_false_iff_not, not_not]
    exact hm
  have h3 : l.filter (fun m => !((l.drop K).contains m)) =
      (l.take K ++ l.drop K).filter (fun m => !((l.drop K).contains m)) := by
    rw [hsplit]
  rw [h3, List.filter_append, h1, h2, List.append_nil]

/-- C4: when layer 3 runs, its kept output is the suffix protected by the
keepLastAssistants cutoff extended backward with whole messages while they
fit — i.e. the maximal fitting suffix, which is never smaller than the
protected one; when the protected suffix alone exceeds the budget the kept
output is instead the backward fill from the end (the maximal fitting
suffix, at least the last message); and the dropped messages are exactly
the input-order complement (the prefix before the kept suffix). -/
theorem c4_message_drop_layer (current : List Message) (budget : Int) (k J : Nat)
    (h0 : 0 ≤ budget)
    (hJ : (findAssistantCutoffIndex current k).getD 0 = J) :
    ((estimateMessagesChars (current.drop J) : Int) ≤ budget →
      (applyMessageDrop current budget k).1 =
        current.drop (leastDropIndexFit current budget)
      ∧ leastDropIndexFit current budget ≤ J)
    ∧ ((estimateMessagesChars (current.drop J) : Int) > budget →
      (applyMessageDrop current budget k).1 =
        current.drop (min (leastDropIndexFit current budget) (current.length - 1)))
    ∧ (∀ K, K ≤ current.length → current.Nodup →
        (applyMessageDrop current budget k).1 = current.drop K →
        (applyMessageDrop current budget k).2 = current.take K) := by
  have hJle : J ≤ current.length := hJ ▸ cutoff_le_length current k
  refine ⟨?_, ?_, ?_⟩
  · intro hfit
    have hext := extendBackward_drop current budget J hJle hfit
    refine ⟨?_, hext.2⟩
    simp only [applyMessageDrop, hJ]
    rw [if_neg (by omega)]
    exact hext.1
  · intro hover
    simp only [applyMessageDrop, hJ]
    rw [if_pos hover]
    exact sliceWithinBudget_drop current budget h0
  · intro K hK hnd hkept
    have hsnd : (applyMessageDrop current budget k).2 =
        current.filter (fun m => !((applyMessageDrop current budget k).1.contains m)) := rfl
    rw [hsnd, hkept]
    exact filter_not_contains_drop current K hK hnd

/-- Witness for C4: three messages (10/5/2 chars, assistant in the middle,
cutoff index 1); budget 8 extends nothing beyond the protected suffix
(10 > 1 remaining), budget 3 falls back to the backward fill keeping only
the last message, and the dropped list is the complementary prefix. -/
theorem c4_message_drop_layer_witness :
    ((findAssistantCutoffIndex wDropMsgs 1).getD 0 = 1
      ∧ (estimateMessagesChars (wDropMsgs.drop 1) : Int) ≤ 8
      ∧ (applyMessageDrop wDropMsgs 8 1).1 =
          wDropMsgs.drop (leastDropIndexFit wDropMsgs 8)
      ∧ leastDropIndexFit wDropMsgs 8 ≤ 1)
    ∧ ((estimateMessagesChars (wDropMsgs.drop 1) : Int) > 3
      ∧ (applyMessageDrop wDropMsgs 3 1).1 =
          wDropMsgs.drop (min (leastDropIndexFit wDropMsgs 3) (wDropMsgs.length - 1)))
    ∧ (wDropMsgs.Nodup ∧ (applyMessageDrop wDropMsgs 8 1).2 = wDropMsgs.take 1) :=
  ⟨⟨by decide, by decide,
    ((c4_message_drop_layer wDropMsgs 8 1 1 (by decide) (by decide)).1 (by decide)).1,
    ((c4_message_drop_layer wDropMsgs 8 1 1 (by decide) (by decide)).1 (by decide)).2⟩,
   ⟨by decide,
    (c4_message_drop_layer wDropMsgs 3 1 1 (by decide) (by decide)).2.1 (by decide)⟩,
   ⟨by decide,
    (c4_message_drop_layer wDropMsgs 8 1 1 (by decide) (by decide)).2.2 1
      (by decide) (by decide) (by decide)⟩⟩

set_option maxRecDepth 40000 in
/-- Counterexample to C6: with soft-trim settings `maxChars := 10`,
`headChars := tailChars := 0` and a zero soft-trim ratio, an 11-char tool
result is trimmed to a 76-char marker on the first pass, which is itself
oversized and re-trimmed to a different marker on the second pass: the
pruner is not idempotent for every settings. -/
theorem c6_prune_idempotence_counterexample :
    (pruneContextMessages
        (pruneContextMessages [cexPruneMsg] 1000 cexPruneSettings).messages
        1000 cexPruneSettings).messages ≠
      (pruneContextMessages [cexPruneMsg] 1000 cexPruneSettings).messages := by
  decide

/-- Comparison of two `mkRat` values with positive denominators as an
integer cross-product comparison. -/
theorem mkRat_lt_mkRat_iff (p : Int) (q : Nat) (a : Int) (b : Nat)
    (hq : 0 < q) (hb : 0 < b) :
    mkRat p q < mkRat a b ↔ p * b < a * q := by
  rw [Rat.mkRat_eq_div, Rat.mkRat_eq_div]
  rw [div_lt_div_iff (by exact_mod_cast hq) (by exact_mod_cast hb)]
  constructor
  · intro h
    exact_mod_cast h
  · intro h
    exact_mod_cast h

/-- The default prunability predicate admits every tool id. -/
theorem default_isPrunable (id : String) :
    makeToolPrunablePredicate DEFAULT_CONTEXT_PRUNING_SETTINGS.tools id = true := rfl

/-- The pruner's budget at the default share is exactly half the char
window. -/
theorem default_budgetChars (n : Nat) (hn : 0 < n) :
    jsMaxInt 1 (Rat.floor (ratMulIntRat ((n * CHARS_PER_TOKEN_ESTIMATE : Nat) : Int)
        (mkRat 1 2))) = ((n * CHARS_PER_TOKEN_ESTIMATE : Nat) : Int) / 2 := by
  have h4 : ((n * CHARS_PER_TOKEN_ESTIMATE : Nat) : Int) = 4 * (n : Int) := by
    simp [CHARS_PER_TOKEN_ESTIMATE]
    ring
  rw [h4]
  have hmul : ratMulIntRat (4 * (n : Int)) (mkRat 1 2) = mkRat (4 * (n : Int)) 2 := by
    unfold ratMulIntRat
    norm_num
  rw [hmul]
  have hval : mkRat (4 * (n : Int)) 2 = ((2 * (n : Int) : Int) : Rat) := by
    rw [Rat.mkRat_eq_div]
    push_cast
    ring_nf
  rw [hval]
  have hfl : Rat.floor ((2 * (n : Int) : Int) : Rat) = 2 * (n : Int) := by
    have heq : Rat.floor ((2 * (n : Int) : Int) : Rat) =
        ⌊((2 * (n : Int) : Int) : Rat)⌋ := rfl
    rw [heq, Int.floor_intCast]
  rw [hfl]
  have hdiv : 4 * (n : Int) / 2 = 2 * (n : Int) := by omega
  rw [hdiv]
  unfold jsMaxInt
  rw [if_pos (by omega)]

/-- A block whose tool content already fits `maxChars` is left untouched by
the soft trim. -/
theorem softTrimBlock_id_of_fit (b : ContentBlock) (s : SoftTrimSettings)
    (p : String → Bool)
    (h : ∀ id name c, b = ContentBlock.tool_result id name (some c) →
      c.length ≤ s.maxChars) :
    softTrimToolResultBlock b s p = (b, false) := by
  cases b with
  | text t => rfl
  | tool_use id name input => rfl
  | tool_result id name content =>
    simp only [softTrimToolResultBlock, isToolResultProtected, Bool.false_eq_true,
      if_false]
    by_cases hid : (id != "" && !p id) = true
    · rw [if_pos hid]
    · rw [if_neg hid]
      cases content with
      | none =>
        rw [if_pos]
        show ("" : String).length ≤ s.maxChars
        exact Nat.zero_le _
      | some c =>
        rw [if_pos]
        exact h id name c rfl

/-- Layer 1 is the identity (with zero count) on a list whose tool contents
already fit. -/
theorem applySoftTrim_id_of_fit (msgs : List Message)
    (settings : ContextPruningSettings) (p : String → Bool)
    (hP : ToolContentsFit settings.softTrim.maxChars msgs) :
    applySoftTrim msgs settings p = (msgs, 0) := by
  have hmsg : ∀ m ∈ msgs, softTrimMessage m settings.softTrim p = (m, 0) := by
    intro m hm
    obtain ⟨role, content, ts⟩ := m
    cases content with
    | str t => rfl
    | blocks bs =>
      have hbs : bs.map (fun b => softTrimToolResultBlock b settings.softTrim p) =
          bs.map (fun b => (b, false)) := by
        apply List.map_congr_left
        intro b hb
        exact softTrimBlock_id_of_fit b settings.softTrim p
          (fun id name c hbe => hP _ hm b hb id name c hbe)
      simp only [softTrimMessage, hbs]
      rw [if_neg]
      simp
  unfold applySoftTrim
  have h1 : msgs.map (fun m => softTrimMessage m settings.softTrim p) =
      msgs.map (fun m => (m, 0)) := List.map_congr_left hmsg
  rw [h1]
  simp only [List.map_map]
  have hmap1 : ∀ l : List Message,
      l.map ((fun r : Message × Nat => r.1) ∘ fun m => (m, 0)) = l := by
    intro l
    induction l with
    | nil => rfl
    | cons a t ih => simp [Function.comp, ih]
  refine Prod.ext ?_ ?_
  · show msgs.map ((fun r : Message × Nat => r.1) ∘ fun m => (m, 0)) = msgs
    exact hmap1 msgs
  · show (msgs.map ((fun r : Message × Nat => r.2) ∘ fun m => (m, 0))).sum = 0
    refine List.sum_eq_zero ?_
    intro x hx
    obtain ⟨m2, _, rfl⟩ := List.mem_map.mp hx
    rfl

/-- Layer 1's output tool contents fit `maxChars` whenever the trim
replacement text does (and the prunability predicate admits every id). -/
theorem applySoftTrim_toolContentsFit (msgs : List Message)
    (settings : ContextPruningSettings) (p : String → Bool)
    (hht : settings.softTrim.headChars + settings.softTrim.tailChars ≤
      settings.softTrim.maxChars)
    (hp : ∀ id, p id = true)
    (hst : SoftTrimOutputFits settings msgs) :
    ToolContentsFit settings.softTrim.maxChars (applySoftTrim msgs settings p).1 := by
  rw [applySoftTrim_fst_eq_spec msgs settings p hht]
  intro m hm b hb id name c hbe
  obtain ⟨m0, hm0, rfl⟩ := List.mem_map.mp hm
  obtain ⟨role0, content0, ts0⟩ := m0
  cases content0 with
  | str t =>
    exact absurd hb (by simp [softTrimMessageSpec, blocksOf])
  | blocks bs =>
    simp only [softTrimMessageSpec, blocksOf] at hb
    obtain ⟨b0, hb0, rfl⟩ := List.mem_map.mp hb
    cases b0 with
    | text t => cases hbe
    | tool_use a2 b2 c2 => cases hbe
    | tool_result id0 name0 content0 =>
      cases content0 with
      | none => cases hbe
      | some c0 =>
        simp only [softTrimBlockSpec, hp id0, Bool.or_true] at hbe
        by_cases hlen : c0.length > settings.softTrim.maxChars
        · rw [if_pos (by simp [hlen])] at hbe
          injection hbe with h1 h2 h3
          injection h3 with h3
          subst h3
          exact hst _ hm0 (ContentBlock.tool_result id0 name0 (some c0)) hb0
            id0 name0 c0 rfl hlen
        · rw [if_neg (by simp [hlen])] at hbe
          injection hbe with h1 h2 h3
          injection h3 with h3
          subst h3
          omega

/-- The hard-clear block scan only ever writes the placeholder, so block
contents that fit keep fitting. -/
theorem hardClearGoBlocks_fit (s : ContextPruningSettings) (p : String → Bool)
    (cw maxChars : Nat) (hph : s.hardClear.placeholder.length ≤ maxChars) :
    ∀ (bs : List ContentBlock) (total : Int),
    (∀ b ∈ bs, ∀ id name c, b = ContentBlock.tool_result id name (some c) →
      c.length ≤ maxChars) →
    ∀ b ∈ (hardClearGoBlocks s p cw bs total).1,
      ∀ id name c, b = ContentBlock.tool_result id name (some c) → c.length ≤ maxChars := by
  intro bs
  induction bs with
  | nil => intro total h b hb; cases hb
  | cons b0 rest ih =>
    intro total h b hb id name c hbe
    have hrest := fun t1 => ih t1 (fun b2 hb2 => h b2 (List.mem_cons.mpr (Or.inr hb2)))
    cases b0 with
    | text t =>
      simp only [hardClearGoBlocks] at hb
      rcases List.mem_cons.mp hb with heq | hbrest
      · rw [heq] at hbe
        cases hbe
      · exact hrest _ b hbrest id name c hbe
    | tool_use a2 b2 c2 =>
      simp only [hardClearGoBlocks] at hb
      rcases List.mem_cons.mp hb with heq | hbrest
      · rw [heq] at hbe
        cases hbe
      · exact hrest _ b hbrest id name c hbe
    | tool_result id1 name1 content1 =>
      cases content1 with
      | none =>
        simp only [hardClearGoBlocks] at hb
        rcases List.mem_cons.mp hb with heq | hbrest
        · rw [heq] at hbe
          cases hbe
        · exact hrest _ b hbrest id name c hbe
      | some c1 =>
        simp only [hardClearGoBlocks] at hb
        by_cases hcond : (!isToolResultProtected
              (ContentBlock.tool_result id1 name1 (some c1)) &&
            decide (c1.length > 0) && (id1 == "" || p id1)) = true
        · rw [if_pos hcond] at hb
          by_cases hrat : mkRat total cw < s.hardClearRatio
          · rw [if_pos hrat] at hb
            rcases List.mem_cons.mp hb with heq | hbrest
            · rw [heq] at hbe
              exact h _ (List.mem_cons_self _ _) id name c hbe
            · exact hrest _ b hbrest id name c hbe
          · rw [if_neg hrat] at hb
            rcases List.mem_cons.mp hb with heq | hbrest
            · rw [heq] at hbe
              injection hbe with e1 e2 e3
              injection e3 with e3
              rw [← e3]
              exact hph
            · exact hrest _ b hbrest id name c hbe
        · rw [if_neg hcond] at hb
          rcases List.mem_cons.mp hb with heq | hbrest
          · rw [heq] at hbe
            exact h _ (List.mem_cons_self _ _) id name c hbe
          · exact hrest _ b hbrest id name c hbe

/-- The hard-clear message scan preserves fitting tool contents. -/
theorem hardClearGoMessages_fit (s : ContextPruningSettings) (p : String → Bool)
    (cw maxChars : Nat) (hph : s.hardClear.placeholder.length ≤ maxChars) :
    ∀ (ms : List Message) (total : Int),
    ToolContentsFit maxChars ms →
    ToolContentsFit maxChars (hardClearGoMessages s p cw ms total).1 := by
  intro ms
  induction ms with
  | nil => intro total h m hm; cases hm
  | cons m0 rest ih =>
    intro total h m hm b hb id name c hbe
    have hrest := fun t1 => ih t1 (fun m2 hm2 => h m2 (List.mem_cons.mpr (Or.inr hm2)))
    obtain ⟨role0, content0, ts0⟩ := m0
    cases content0 with
    | str t =>
      simp only [hardClearGoMessages] at hm
      rcases List.mem_cons.mp hm with heq | hmrest
      · rw [heq] at hb
        exact h _ (List.mem_cons_self _ _) b hb id name c hbe
      · exact hrest _ m hmrest b hb id name c hbe
    | blocks bs =>
      simp only [hardClearGoMessages] at hm
      have hblocks := hardClearGoBlocks_fit s p cw maxChars hph bs total
        (fun b2 hb2 => h _ (List.mem_cons_self _ _) b2 hb2)
      by_cases hcnt : (hardClearGoBlocks s p cw bs total).2.2 > 0
      · rw [if_pos hcnt] at hm
        rcases List.mem_cons.mp hm with heq | hmrest
        · rw [heq] at hb
          exact hblocks b hb id name c hbe
        · exact hrest _ m hmrest b hb id name c hbe
      · rw [if_neg hcnt] at hm
        rcases List.mem_cons.mp hm with heq | hmrest
        · rw [heq] at hb
          exact h _ (List.mem_cons_self _ _) b hb id name c hbe
        · exact hrest _ m hmrest b hb id name c hbe

/-- Layer 2 preserves fitting tool contents. -/
theorem applyHardClear_fit (ms : List Message) (s : ContextPruningSettings)
    (p : String → Bool) (cw : Nat) (maxChars : Nat)
    (hph : s.hardClear.placeholder.length ≤ maxChars)
    (h : ToolContentsFit maxChars ms) :
    ToolContentsFit maxChars (applyHardClear ms s p cw).1 := by
  unfold applyHardClear
  by_cases he : (!s.hardClear.enabled) = true
  · rw [if_pos he]
    exact h
  · rw [if_neg he]
    by_cases h1 : mkRat (estimateMessagesChars ms : Int) cw < s.hardClearRatio
    · rw [if_pos h1]
      exact h
    · rw [if_neg h1]
      by_cases h2 : countPrunableToolChars ms p < s.minPrunableToolChars
      · rw [if_pos h2]
        exact h
      · rw [if_neg h2]
        exact hardClearGoMessages_fit s p cw maxChars hph ms _ h

/-- Fitting tool contents is inherited by any sublist (memberwise). -/
theorem toolContentsFit_mono (maxChars : Nat) (ms ms' : List Message)
    (hsub : ∀ m ∈ ms', m ∈ ms) (h : ToolContentsFit maxChars ms) :
    ToolContentsFit maxChars ms' :=
  fun m hm => h m (hsub m hm)

/-- Members of the backward fill come from the scanned list or the
accumulator. -/
theorem sliceGo_mem (budget : Int) : ∀ (l : List Message) (used : Int)
    (kept : List Message) (x : Message), x ∈ sliceGo budget l used kept →
    x ∈ l ∨ x ∈ kept := by
  intro l
  induction l with
  | nil => intro used kept x h; exact Or.inr h
  | cons m rest ih =>
    intro used kept x h
    simp only [sliceGo] at h
    by_cases hc : (decide (used + (estimateMessageChars m : Int) > budget) &&
        decide (kept.length > 0)) = true
    · rw [if_pos hc] at h
      exact Or.inr h
    · rw [if_neg hc] at h
      rcases ih _ _ x h with h1 | h2
      · exact Or.inl (List.mem_cons.mpr (Or.inr h1))
      · rcases List.mem_cons.mp h2 with heq | h3
        · exact Or.inl (List.mem_cons.mpr (Or.inl heq))
        · exact Or.inr h3

/-- Members of the backward extension come from the scanned list or the
accumulator. -/
theorem extendBackwardGo_mem : ∀ (l : List Message) (rem : Int)
    (kept : List Message) (x : Message), x ∈ extendBackwardGo l rem kept →
    x ∈ l ∨ x ∈ kept := by
  intro l
  induction l with
  | nil => intro rem kept x h; exact Or.inr h
  | cons m rest ih =>
    intro rem kept x h
    simp only [extendBackwardGo] at h
    by_cases hc : (estimateMessageChars m : Int) > rem
    · rw [if_pos hc] at h
      exact Or.inr h
    · rw [if_neg hc] at h
      rcases ih _ _ x h with h1 | h2
      · exact Or.inl (List.mem_cons.mpr (Or.inr h1))
      · rcases List.mem_cons.mp h2 with heq | h3
        · exact Or.inl (List.mem_cons.mpr (Or.inl heq))
        · exact Or.inr h3

/-- Layer 3 keeps only messages of its input. -/
theorem applyMessageDrop_mem (cur : List Message) (budget : Int) (k : Nat)
    (x : Message) (h : x ∈ (applyMessageDrop cur budget k).1) : x ∈ cur := by
  simp only [applyMessageDrop] at h
  by_cases hc : (estimateMessagesChars
      (cur.drop ((findAssistantCutoffIndex cur k).getD 0)) : Int) > budget
  · rw [if_pos hc] at h
    rcases sliceGo_mem budget cur.reverse 0 [] x h with h1 | h2
    · exact List.mem_reverse.mp h1
    · cases h2
  · rw [if_neg hc] at h
    rcases extendBackwardGo_mem _ _ _ x h with h1 | h2
    · exact List.take_subset _ _ (List.mem_reverse.mp h1)
    · exact List.drop_subset _ _ h2

/-- `Math.max(1, n)` is positive. -/
theorem jsMaxNat_one_pos (n : Nat) : 0 < jsMaxNat 1 n := by
  unfold jsMaxNat
  by_cases h : 1 < n
  · rw [if_pos h]; omega
  · rw [if_neg h]; omega

/-- At the default settings, the pruner's budget is half the char window:
twice the (clamped) token window. -/
theorem prune_budgetChars_default (msgs : List Message) (W : Nat) :
    (pruneContextMessages msgs W DEFAULT_CONTEXT_PRUNING_SETTINGS).budgetChars =
      2 * ((jsMaxNat 1 W : Nat) : Int) := by
  have hb : jsMaxInt 1 (Rat.floor (ratMulIntRat
      ((jsMaxNat 1 W * CHARS_PER_TOKEN_ESTIMATE : Nat) : Int)
      DEFAULT_CONTEXT_PRUNING_SETTINGS.maxHistoryShare)) =
      2 * ((jsMaxNat 1 W : Nat) : Int) := by
    have h1 := default_budgetChars (jsMaxNat 1 W) (jsMaxNat_one_pos W)
    have h2 : DEFAULT_CONTEXT_PRUNING_SETTINGS.maxHistoryShare = mkRat 1 2 := rfl
    rw [h2, h1]
    have h3 : ((jsMaxNat 1 W * CHARS_PER_TOKEN_ESTIMATE : Nat) : Int) =
        4 * ((jsMaxNat 1 W : Nat) : Int) := by
      simp [CHARS_PER_TOKEN_ESTIMATE]
      ring
    rw [h3]
    omega
  simp only [pruneContextMessages]
  rw [apply_ite PruneResult.budgetChars]
  simp only []
  rw [ite_self]
  exact hb

/-- Fixed point of the default-settings pruner: a list whose tool contents
fit the soft-trim bound and whose char estimate fits the budget is returned
unchanged. -/
theorem prune_fixpoint_default (K : List Message) (W : Nat)
    (hP : ToolContentsFit 4000 K)
    (hfit : (estimateMessagesChars K : Int) ≤ 2 * ((jsMaxNat 1 W : Nat) : Int)) :
    (pruneContextMessages K W DEFAULT_CONTEXT_PRUNING_SETTINGS).messages = K := by
  have hcw : (0 : Nat) < jsMaxNat 1 W * CHARS_PER_TOKEN_ESTIMATE := by
    have := jsMaxNat_one_pos W
    simp [CHARS_PER_TOKEN_ESTIMATE]
    omega
  have hP' : ToolContentsFit DEFAULT_CONTEXT_PRUNING_SETTINGS.softTrim.maxChars K := hP
  have hsoftif : (if mkRat ((estimateMessagesChars K : Nat) : Int)
        (jsMaxNat 1 W * CHARS_PER_TOKEN_ESTIMATE) >
          DEFAULT_CONTEXT_PRUNING_SETTINGS.softTrimRatio then
      applySoftTrim K DEFAULT_CONTEXT_PRUNING_SETTINGS
        (makeToolPrunablePredicate DEFAULT_CONTEXT_PRUNING_SETTINGS.tools)
    else (K, 0)) = (K, 0) := by
    by_cases hc : mkRat ((estimateMessagesChars K : Nat) : Int)
        (jsMaxNat 1 W * CHARS_PER_TOKEN_ESTIMATE) >
          DEFAULT_CONTEXT_PRUNING_SETTINGS.softTrimRatio
    · rw [if_pos hc]
      exact applySoftTrim_id_of_fit K DEFAULT_CONTEXT_PRUNING_SETTINGS _ hP'
    · rw [if_neg hc]
  have hnc : ¬ (mkRat ((estimateMessagesChars K : Nat) : Int)
      (jsMaxNat 1 W * CHARS_PER_TOKEN_ESTIMATE) >
        DEFAULT_CONTEXT_PRUNING_SETTINGS.hardClearRatio) := by
    show ¬ (mkRat 1 2 < mkRat ((estimateMessagesChars K : Nat) : Int)
      (jsMaxNat 1 W * CHARS_PER_TOKEN_ESTIMATE))
    rw [mkRat_lt_mkRat_iff 1 2 ((estimateMessagesChars K : Nat) : Int)
      (jsMaxNat 1 W * CHARS_PER_TOKEN_ESTIMATE) (by omega) hcw]
    have hcast : ((jsMaxNat 1 W * CHARS_PER_TOKEN_ESTIMATE : Nat) : Int) =
        4 * ((jsMaxNat 1 W : Nat) : Int) := by
      simp [CHARS_PER_TOKEN_ESTIMATE]
      ring
    omega
  have hfin : ((estimateMessagesChars K : Nat) : Int) ≤
      jsMaxInt 1 (Rat.floor (ratMulIntRat
        ((jsMaxNat 1 W * CHARS_PER_TOKEN_ESTIMATE : Nat) : Int)
        DEFAULT_CONTEXT_PRUNING_SETTINGS.maxHistoryShare)) := by
    have h2 : DEFAULT_CONTEXT_PRUNING_SETTINGS.maxHistoryShare = mkRat 1 2 := rfl
    rw [h2, default_budgetChars (jsMaxNat 1 W) (jsMaxNat_one_pos W)]
    have h3 : ((jsMaxNat 1 W * CHARS_PER_TOKEN_ESTIMATE : Nat) : Int) =
        4 * ((jsMaxNat 1 W : Nat) : Int) := by
      simp [CHARS_PER_TOKEN_ESTIMATE]
      ring
    omega
  simp only [pruneContextMessages, hsoftif]
  rw [if_neg hnc, if_pos hfin]

/-- Below the soft-trim ratio the default pruner returns its input. -/
theorem prune_noop_default (K : List Message) (W : Nat)
    (hratio : ¬ (mkRat ((estimateMessagesChars K : Nat) : Int)
      (jsMaxNat 1 W * CHARS_PER_TOKEN_ESTIMATE) >
        DEFAULT_CONTEXT_PRUNING_SETTINGS.softTrimRatio)) :
    (pruneContextMessages K W DEFAULT_CONTEXT_PRUNING_SETTINGS).messages = K := by
  have hcw : (0 : Nat) < jsMaxNat 1 W * CHARS_PER_TOKEN_ESTIMATE := by
    have := jsMaxNat_one_pos W
    simp [CHARS_PER_TOKEN_ESTIMATE]
    omega
  have hcast : ((jsMaxNat 1 W * CHARS_PER_TOKEN_ESTIMATE : Nat) : Int) =
      4 * ((jsMaxNat 1 W : Nat) : Int) := by
    simp [CHARS_PER_TOKEN_ESTIMATE]
    ring
  have hcross : ¬ ((3 : Int) * ((jsMaxNat 1 W * CHARS_PER_TOKEN_ESTIMATE : Nat) : Int) <
      ((estimateMessagesChars K : Nat) : Int) * 10) := by
    intro hlt
    refine hratio ?_
    show mkRat 3 10 < mkRat ((estimateMessagesChars K : Nat) : Int)
      (jsMaxNat 1 W * CHARS_PER_TOKEN_ESTIMATE)
    rw [mkRat_lt_mkRat_iff 3 10 _ _ (by omega) hcw]
    omega
  have hnc : ¬ (mkRat ((estimateMessagesChars K : Nat) : Int)
      (jsMaxNat 1 W * CHARS_PER_TOKEN_ESTIMATE) >
        DEFAULT_CONTEXT_PRUNING_SETTINGS.hardClearRatio) := by
    show ¬ (mkRat 1 2 < mkRat ((estimateMessagesChars K : Nat) : Int)
      (jsMaxNat 1 W * CHARS_PER_TOKEN_ESTIMATE))
    rw [mkRat_lt_mkRat_iff 1 2 _ _ (by omega) hcw]
    omega
  have hfin : ((estimateMessagesChars K : Nat) : Int) ≤
      jsMaxInt 1 (Rat.floor (ratMulIntRat
        ((jsMaxNat 1 W * CHARS_PER_TOKEN_ESTIMATE : Nat) : Int)
        DEFAULT_CONTEXT_PRUNING_SETTINGS.maxHistoryShare)) := by
    have h2 : DEFAULT_CONTEXT_PRUNING_SETTINGS.maxHistoryShare = mkRat 1 2 := rfl
    rw [h2, default_budgetChars (jsMaxNat 1 W) (jsMaxNat_one_pos W)]
    omega
  simp only [pruneContextMessages]
  rw [if_neg hratio, if_neg hnc, if_pos hfin]

/-- When the default pruner's soft trim fires, every tool content of its
kept output fits the soft-trim bound (given that the replacement text
does). -/
theorem prune_toolContentsFit_default (msgs : List Message) (W : Nat)
    (hst : SoftTrimOutputFits DEFAULT_CONTEXT_PRUNING_SETTINGS msgs)
    (hratio : mkRat ((estimateMessagesChars msgs : Nat) : Int)
      (jsMaxNat 1 W * CHARS_PER_TOKEN_ESTIMATE) >
        DEFAULT_CONTEXT_PRUNING_SETTINGS.softTrimRatio) :
    ToolContentsFit 4000
      (pruneContextMessages msgs W DEFAULT_CONTEXT_PRUNING_SETTINGS).messages := by
  have hPsoft : ToolContentsFit 4000
      (applySoftTrim msgs DEFAULT_CONTEXT_PRUNING_SETTINGS
        (makeToolPrunablePredicate DEFAULT_CONTEXT_PRUNING_SETTINGS.tools)).1 :=
    applySoftTrim_toolContentsFit msgs DEFAULT_CONTEXT_PRUNING_SETTINGS _
      (by decide) default_isPrunable hst
  simp only [pruneContextMessages]
  rw [if_pos hratio]
  by_cases hc2 : mkRat ((estimateMessagesChars
      (applySoftTrim msgs DEFAULT_CONTEXT_PRUNING_SETTINGS
        (makeToolPrunablePredicate DEFAULT_CONTEXT_PRUNING_SETTINGS.tools)).1 : Nat) : Int)
      (jsMaxNat 1 W * CHARS_PER_TOKEN_ESTIMATE) >
        DEFAULT_CONTEXT_PRUNING_SETTINGS.hardClearRatio
  · rw [if_pos hc2]
    have hPclear : ToolContentsFit 4000
        (applyHardClear (applySoftTrim msgs DEFAULT_CONTEXT_PRUNING_SETTINGS
            (makeToolPrunablePredicate DEFAULT_CONTEXT_PRUNING_SETTINGS.tools)).1
          DEFAULT_CONTEXT_PRUNING_SETTINGS
          (makeToolPrunablePredicate DEFAULT_CONTEXT_PRUNING_SETTINGS.tools)
          (jsMaxNat 1 W * CHARS_PER_TOKEN_ESTIMATE)).1 :=
      applyHardClear_fit _ _ _ _ 4000 (by decide) hPsoft
    by_cases hfin : ((estimateMessagesChars
        (applyHardClear (applySoftTrim msgs DEFAULT_CONTEXT_PRUNING_SETTINGS
            (makeToolPrunablePredicate DEFAULT_CONTEXT_PRUNING_SETTINGS.tools)).1
          DEFAULT_CONTEXT_PRUNING_SETTINGS
          (makeToolPrunablePredicate DEFAULT_CONTEXT_PRUNING_SETTINGS.tools)
          (jsMaxNat 1 W * CHARS_PER_TOKEN_ESTIMATE)).1 : Nat) : Int) ≤
        jsMaxInt 1 (Rat.floor (ratMulIntRat
          ((jsMaxNat 1 W * CHARS_PER_TOKEN_ESTIMATE : Nat) : Int)
          DEFAULT_CONTEXT_PRUNING_SETTINGS.maxHistoryShare))
    · rw [if_pos hfin]
      exact hPclear
    · rw [if_neg hfin]
      exact toolContentsFit_mono 4000 _ _
        (fun m hm => applyMessageDrop_mem _ _ _ m hm) hPclear
  · rw [if_neg hc2]
    by_cases hfin : ((estimateMessagesChars
        (applySoftTrim msgs DEFAULT_CONTEXT_PRUNING_SETTINGS
          (makeToolPrunablePredicate DEFAULT_CONTEXT_PRUNING_SETTINGS.tools)).1 : Nat) : Int) ≤
        jsMaxInt 1 (Rat.floor (ratMulIntRat
          ((jsMaxNat 1 W * CHARS_PER_TOKEN_ESTIMATE : Nat) : Int)
          DEFAULT_CONTEXT_PRUNING_SETTINGS.maxHistoryShare))
    · rw [if_pos hfin]
      exact hPsoft
    · rw [if_neg hfin]
      exact toolContentsFit_mono 4000 _ _
        (fun m hm => applyMessageDrop_mem _ _ _ m hm) hPsoft

/-- The short tool result of `wIdemMsgs` is never oversized, so the
replacement-fits condition holds vacuously. -/
theorem wIdemMsgs_softTrimOutputFits :
    SoftTrimOutputFits DEFAULT_CONTEXT_PRUNING_SETTINGS wIdemMsgs := by
  intro m hm b hb id name c hbe hlen
  simp only [wIdemMsgs, List.mem_singleton] at hm
  subst hm
  simp only [blocksOf, List.mem_singleton] at hb
  subst hb
  injection hbe with e1 e2 e3
  injection e3 with e3
  rw [← e3] at hlen
  exact absurd hlen (by decide)


/-- Once the running ratio is below the hard-clear threshold, the block
scan changes nothing. -/
theorem hardClearGoBlocks_below (s : ContextPruningSettings) (p : String → Bool)
    (cw : Nat) : ∀ (bs : List ContentBlock) (total : Int),
    mkRat total cw < s.hardClearRatio →
    hardClearGoBlocks s p cw bs total = (bs, total, 0) := by
  intro bs
  induction bs with
  | nil => intro total _; rfl
  | cons b rest ih =>
    intro total h
    have hstep : (match b with
        | ContentBlock.tool_result tool_use_id name (some content) =>
          if (!isToolResultProtected (ContentBlock.tool_result tool_use_id name (some content)) &&
              decide (content.length > 0) && (tool_use_id == "" || p tool_use_id)) = true then
            if mkRat total cw < s.hardClearRatio then (b, total, 0)
            else (ContentBlock.tool_result tool_use_id name (some s.hardClear.placeholder),
              total - ((content.length : Int) - (s.hardClear.placeholder.length : Int)), 1)
          else (b, total, 0)
        | _ => (b, total, (0 : Nat))) = (b, total, 0) := by
      cases b with
      | text t => rfl
      | tool_use a2 b2 c2 => rfl
      | tool_result id1 name1 content1 =>
        cases content1 with
        | none => rfl
        | some c1 =>
          show (if (!isToolResultProtected (ContentBlock.tool_result id1 name1 (some c1)) &&
              decide (c1.length > 0) && (id1 == "" || p id1)) = true then
              if mkRat total cw < s.hardClearRatio then
                (ContentBlock.tool_result id1 name1 (some c1), total, (0 : Nat))
              else (ContentBlock.tool_result id1 name1 (some s.hardClear.placeholder),
                total - ((c1.length : Int) - (s.hardClear.placeholder.length : Int)), 1)
            else (ContentBlock.tool_result id1 name1 (some c1), total, 0)) =
            (ContentBlock.tool_result id1 name1 (some c1), total, 0)
          by_cases hc : (!isToolResultProtected
              (ContentBlock.tool_result id1 name1 (some c1)) &&
              decide (c1.length > 0) && (id1 == "" || p id1)) = true
          · rw [if_pos hc, if_pos h]
          · rw [if_neg hc]
    simp only [hardClearGoBlocks, hstep]
    rw [ih total h]
    rfl

/-- Once the running ratio is below the hard-clear threshold, the message
scan changes nothing. -/
theorem hardClearGoMessages_below (s : ContextPruningSettings) (p : String → Bool)
    (cw : Nat) : ∀ (ms : List Message) (total : Int),
    mkRat total cw < s.hardClearRatio →
    hardClearGoMessages s p cw ms total = (ms, total, 0) := by
  intro ms
  induction ms with
  | nil => intro total _; rfl
  | cons m rest ih =>
    intro total h
    obtain ⟨role0, content0, ts0⟩ := m
    cases content0 with
    | str t =>
      simp only [hardClearGoMessages]
      rw [ih total h]
    | blocks bs =>
      simp only [hardClearGoMessages, hardClearGoBlocks_below s p cw bs total h]
      rw [if_neg (by omega), ih total h]
      rfl

/-- One step of the hard-clear block scan: either the head is kept with the
ledger unchanged, or it is an eligible oversized-ratio tool result cleared
to the placeholder with the ledger adjusted. -/
theorem hardClearGoBlocks_cons_cases (s : ContextPruningSettings) (p : String → Bool)
    (cw : Nat) (b : ContentBlock) (rest : List ContentBlock) (total : Int) :
    (hardClearGoBlocks s p cw (b :: rest) total =
        (b :: (hardClearGoBlocks s p cw rest total).1,
         (hardClearGoBlocks s p cw rest total).2.1,
         (hardClearGoBlocks s p cw rest total).2.2))
    ∨ (∃ id name c, b = ContentBlock.tool_result id name (some c) ∧ c.length > 0 ∧
        ¬ (mkRat total cw < s.hardClearRatio) ∧ (id == "" || p id) = true ∧
        hardClearGoBlocks s p cw (b :: rest) total =
          (ContentBlock.tool_result id name (some s.hardClear.placeholder) ::
             (hardClearGoBlocks s p cw rest
               (total - ((c.length : Int) - (s.hardClear.placeholder.length : Int)))).1,
           (hardClearGoBlocks s p cw rest
             (total - ((c.length : Int) - (s.hardClear.placeholder.length : Int)))).2.1,
           1 + (hardClearGoBlocks s p cw rest
             (total - ((c.length : Int) - (s.hardClear.placeholder.length : Int)))).2.2)) := by
  cases b with
  | text t =>
    left
    simp only [hardClearGoBlocks]
    rw [Nat.zero_add]
  | tool_use a2 b2 c2 =>
    left
    simp only [hardClearGoBlocks]
    rw [Nat.zero_add]
  | tool_result id1 name1 content1 =>
    cases content1 with
    | none =>
      left
      simp only [hardClearGoBlocks]
      rw [Nat.zero_add]
    | some c1 =>
      simp only [hardClearGoBlocks]
      by_cases hc : (!isToolResultProtected
          (ContentBlock.tool_result id1 name1 (some c1)) &&
          decide (c1.length > 0) && (id1 == "" || p id1)) = true
      · rw [if_pos hc]
        by_cases hrat : mkRat total cw < s.hardClearRatio
        · left
          rw [if_pos hrat]
          rw [Nat.zero_add]
        · right
          refine ⟨id1, name1, c1, rfl, ?_, hrat, ?_, ?_⟩
          · simp only [Bool.and_eq_true, decide_eq_true_eq] at hc
            exact hc.1.2
          · simp only [Bool.and_eq_true] at hc
            exact hc.2
          · rw [if_neg hrat]
      · left
        rw [if_neg hc]
        rw [Nat.zero_add]

/-- A scan that cleared nothing left the blocks and the ledger unchanged. -/
theorem hardClearGoBlocks_count_zero (s : ContextPruningSettings) (p : String → Bool)
    (cw : Nat) : ∀ (bs : List ContentBlock) (total : Int),
    (hardClearGoBlocks s p cw bs total).2.2 = 0 →
    (hardClearGoBlocks s p cw bs total).1 = bs ∧
      (hardClearGoBlocks s p cw bs total).2.1 = total := by
  intro bs
  induction bs with
  | nil => intro total _; exact ⟨rfl, rfl⟩
  | cons b rest ih =>
    intro total hz
    rcases hardClearGoBlocks_cons_cases s p cw b rest total with heq |
      ⟨id, name, c, hb, hlen, hrat, hel, heq⟩
    · rw [heq] at hz ⊢
      have := ih total hz
      exact ⟨by rw [this.1], this.2⟩
    · rw [heq] at hz
      simp at hz

/-- The hard-clear ledger tracks the char estimate of the blocks. -/
theorem hardClearGoBlocks_ledger (s : ContextPruningSettings) (p : String → Bool)
    (cw : Nat) : ∀ (bs : List ContentBlock) (total : Int),
    (hardClearGoBlocks s p cw bs total).2.1 =
      total - ((bs.map estimateBlockChars).sum : Int) +
        (((hardClearGoBlocks s p cw bs total).1.map estimateBlockChars).sum : Int) := by
  intro bs
  induction bs with
  | nil => intro total; simp [hardClearGoBlocks]
  | cons b rest ih =>
    intro total
    rcases hardClearGoBlocks_cons_cases s p cw b rest total with heq |
      ⟨id, name, c, hb, hlen, hrat, hel, heq⟩
    · rw [heq]
      simp only [List.map_cons, List.sum_cons]
      have := ih total
      push_cast at this ⊢
      omega
    · rw [heq, hb]
      simp only [List.map_cons, List.sum_cons, estimateBlockChars, Option.getD_some]
      have := ih (total - ((c.length : Int) - (s.hardClear.placeholder.length : Int)))
      push_cast at this ⊢
      omega

/-- The message-level hard-clear ledger tracks the char estimate of the
kept messages. -/
theorem hardClearGoMessages_ledger (s : ContextPruningSettings) (p : String → Bool)
    (cw : Nat) : ∀ (ms : List Message) (total : Int),
    (hardClearGoMessages s p cw ms total).2.1 =
      total - (estimateMessagesChars ms : Int) +
        (estimateMessagesChars (hardClearGoMessages s p cw ms total).1 : Int) := by
  intro ms
  induction ms with
  | nil => intro total; simp [hardClearGoMessages, estimateMessagesChars]
  | cons m rest ih =>
    intro total
    obtain ⟨role0, content0, ts0⟩ := m
    cases content0 with
    | str t =>
      simp only [hardClearGoMessages]
      rw [estimateMessagesChars_cons, estimateMessagesChars_cons]
      have := ih total
      push_cast at this ⊢
      omega
    | blocks bs =>
      simp only [hardClearGoMessages]
      have hled := hardClearGoBlocks_ledger s p cw bs total
      have hm2chars : estimateMessageChars
          (if (hardClearGoBlocks s p cw bs total).2.2 > 0 then
            { role := role0,
              content := MsgContent.blocks (hardClearGoBlocks s p cw bs total).1,
              timestamp := ts0 }
          else { role := role0, content := MsgContent.blocks bs, timestamp := ts0 }) =
          (((hardClearGoBlocks s p cw bs total).1.map estimateBlockChars).sum) := by
        by_cases hcnt : (hardClearGoBlocks s p cw bs total).2.2 > 0
        · rw [if_pos hcnt]
          rfl
        · rw [if_neg hcnt]
          have hz := hardClearGoBlocks_count_zero s p cw bs total (by omega)
          rw [hz.1]
          rfl
      rw [estimateMessagesChars_cons, estimateMessagesChars_cons, hm2chars]
      have := ih (hardClearGoBlocks s p cw bs total).2.1
      have hmb : estimateMessageChars
          { role := role0, content := MsgContent.blocks bs, timestamp := ts0 } =
          (bs.map estimateBlockChars).sum := rfl
      rw [hmb]
      push_cast at hled this ⊢
      omega

/-- If the scan's final ratio is still at or above the threshold, every
eligible tool result in its output was cleared to the placeholder (for a
predicate admitting every id). -/
theorem hardClearGoBlocks_allCleared (s : ContextPruningSettings) (p : String → Bool)
    (cw : Nat) (hp : ∀ id, p id = true) : ∀ (bs : List ContentBlock) (total : Int),
    ¬ (mkRat (hardClearGoBlocks s p cw bs total).2.1 cw < s.hardClearRatio) →
    ∀ b ∈ (hardClearGoBlocks s p cw bs total).1, ∀ id name c,
      b = ContentBlock.tool_result id name (some c) → c.length > 0 →
      c = s.hardClear.placeholder := by
  intro bs
  induction bs with
  | nil => intro total _ b hb; cases hb
  | cons b0 rest ih =>
    intro total hfin b hb id name c hbe hclen
    rcases hardClearGoBlocks_cons_cases s p cw b0 rest total with heq |
      ⟨id0, name0, c0, hb0, hlen0, hrat0, hel0, heq⟩
    · rw [heq] at hfin hb
      rcases List.mem_cons.mp hb with hhd | htl
      · -- the kept head: it cannot be an eligible uncled tool result, or the
        -- scan below would be frozen below the threshold, contradicting hfin
        subst hhd
        cases hbe
        -- b0 is an eligible tool result (non-empty content, admitted id):
        -- it was kept only because the ratio was already below the threshold
        by_cases hrat : mkRat total cw < s.hardClearRatio
        · rw [(hardClearGoBlocks_below s p cw rest total hrat)] at hfin
          exact absurd hrat hfin
        · -- eligible and at or above the ratio: the computation must have
          -- cleared the head, so the kept head carries the placeholder
          have hel : (!isToolResultProtected
              (ContentBlock.tool_result id name (some c)) &&
              decide (c.length > 0) && (id == "" || p id)) = true := by
            simp [isToolResultProtected, hclen, hp id]
          have heq2 := heq
          simp only [hardClearGoBlocks, if_pos hel, if_neg hrat] at heq2
          have hhead := congrArg (fun x => x.1) heq2
          simp at hhead
          exact hhead.1.symm
      · exact ih total hfin b htl id name c hbe hclen
    · rw [heq] at hfin hb
      rcases List.mem_cons.mp hb with hhd | htl
      · rw [hhd] at hbe
        injection hbe with e1 e2 e3
        injection e3 with e3
        exact e3.symm
      · exact ih _ hfin b htl id name c hbe hclen

/-- If the message scan's final ratio is still at or above the threshold,
every eligible tool result in every kept message was cleared to the
placeholder. -/
theorem hardClearGoMessages_allCleared (s : ContextPruningSettings) (p : String → Bool)
    (cw : Nat) (hp : ∀ id, p id = true) : ∀ (ms : List Message) (total : Int),
    ¬ (mkRat (hardClearGoMessages s p cw ms total).2.1 cw < s.hardClearRatio) →
    ∀ m ∈ (hardClearGoMessages s p cw ms total).1, ∀ b ∈ blocksOf m, ∀ id name c,
      b = ContentBlock.tool_result id name (some c) → c.length > 0 →
      c = s.hardClear.placeholder := by
  intro ms
  induction ms with
  | nil => intro total _ m hm; cases hm
  | cons m0 rest ih =>
    intro total hfin m hm b hb id name c hbe hclen
    obtain ⟨role0, content0, ts0⟩ := m0
    cases content0 with
    | str t =>
      simp only [hardClearGoMessages] at hfin hm
      rcases List.mem_cons.mp hm with heq | htl
      · rw [heq] at hb
        cases hb
      · exact ih total hfin m htl b hb id name c hbe hclen
    | blocks bs =>
      simp only [hardClearGoMessages] at hfin hm
      have hstep : ¬ (mkRat (hardClearGoBlocks s p cw bs total).2.1 cw <
          s.hardClearRatio) := by
        intro hlow
        rw [hardClearGoMessages_below s p cw rest _ hlow] at hfin
        exact hfin hlow
      rcases List.mem_cons.mp hm with heq | htl
      · have hall := hardClearGoBlocks_allCleared s p cw hp bs total hstep
        by_cases hcnt : (hardClearGoBlocks s p cw bs total).2.2 > 0
        · rw [if_pos hcnt] at heq
          rw [heq] at hb
          exact hall b hb id name c hbe hclen
        · rw [if_neg hcnt] at heq
          rw [heq] at hb
          have hz := hardClearGoBlocks_count_zero s p cw bs total (by omega)
          rw [← hz.1] at hb
          exact hall b hb id name c hbe hclen
      · exact ih _ hfin m htl b hb id name c hbe hclen

/-- Re-clearing placeholders is the identity on the block list. -/
theorem hardClearGoBlocks_id_of_cleared (s : ContextPruningSettings) (p : String → Bool)
    (cw : Nat) : ∀ (bs : List ContentBlock) (total : Int),
    (∀ b ∈ bs, ∀ id name c, b = ContentBlock.tool_result id name (some c) →
      c.length > 0 → c = s.hardClear.placeholder) →
    (hardClearGoBlocks s p cw bs total).1 = bs := by
  intro bs
  induction bs with
  | nil => intro total _; rfl
  | cons b0 rest ih =>
    intro total h
    have hrest := fun t1 => ih t1 (fun b2 hb2 => h b2 (List.mem_cons.mpr (Or.inr hb2)))
    rcases hardClearGoBlocks_cons_cases s p cw b0 rest total with heq |
      ⟨id, name, c, hb0, hlen, hrat, hel, heq⟩
    · rw [heq]
      rw [hrest total]
    · rw [heq]
      have hc : c = s.hardClear.placeholder :=
        h b0 (List.mem_cons_self _ _) id name c hb0 hlen
      rw [hb0, ← hc]
      rw [hrest _]

/-- Re-clearing placeholders is the identity on the message list. -/
theorem hardClearGoMessages_id_of_cleared (s : ContextPruningSettings) (p : String → Bool)
    (cw : Nat) : ∀ (ms : List Message) (total : Int),
    (∀ m ∈ ms, ∀ b ∈ blocksOf m, ∀ id name c,
      b = ContentBlock.tool_result id name (some c) → c.length > 0 →
      c = s.hardClear.placeholder) →
    (hardClearGoMessages s p cw ms total).1 = ms := by
  intro ms
  induction ms with
  | nil => intro total _; rfl
  | cons m0 rest ih =>
    intro total h
    have hrest := fun t1 => ih t1 (fun m2 hm2 => h m2 (List.mem_cons.mpr (Or.inr hm2)))
    obtain ⟨role0, content0, ts0⟩ := m0
    cases content0 with
    | str t =>
      simp only [hardClearGoMessages]
      rw [hrest total]
    | blocks bs =>
      simp only [hardClearGoMessages]
      have hbs : (hardClearGoBlocks s p cw bs total).1 = bs :=
        hardClearGoBlocks_id_of_cleared s p cw bs total
          (fun b hb => h _ (List.mem_cons_self _ _) b hb)
      have hm2 : (if (hardClearGoBlocks s p cw bs total).2.2 > 0 then
          ({ role := role0,
             content := MsgContent.blocks (hardClearGoBlocks s p cw bs total).1,
             timestamp := ts0 } : Message)
        else { role := role0, content := MsgContent.blocks bs, timestamp := ts0 }) =
          ({ role := role0, content := MsgContent.blocks bs,
             timestamp := ts0 } : Message) := by
        by_cases hcnt : (hardClearGoBlocks s p cw bs total).2.2 > 0
        · rw [if_pos hcnt, hbs]
        · rw [if_neg hcnt]
      rw [hm2, hrest _]

/-- A singleton's mapped sum is at most the full list's (for a member). -/
theorem sum_map_singleton_le {α : Type} (f : α → Nat) (ms : List α) (m : α)
    (hm : m ∈ ms) : (List.map f [m]).sum ≤ (List.map f ms).sum := by
  induction ms with
  | nil => cases hm
  | cons m0 rest ih =>
    simp only [List.map_cons, List.sum_cons]
    rcases List.mem_cons.mp hm with heq | htl
    · subst heq
      simp only [List.map_nil, List.sum_nil, List.map_cons, List.sum_cons]
      omega
    · have := ih htl
      simp only [List.map_cons, List.sum_cons, List.map_nil, List.sum_nil] at this
      simp only [List.map_cons, List.sum_cons, List.map_nil, List.sum_nil]
      omega

/-- One message contributes at most the whole list's prunable char count. -/
theorem countPrunableToolChars_singleton_le (ms : List Message) (p : String → Bool)
    (m : Message) (hm : m ∈ ms) :
    countPrunableToolChars [m] p ≤ countPrunableToolChars ms p := by
  unfold countPrunableToolChars
  exact sum_map_singleton_le _ ms m hm

/-- With a non-zero keep count, a single message's cutoff index is 0. -/
theorem cutoff_singleton (m : Message) (k : Nat) (hk : k ≠ 0) :
    (findAssistantCutoffIndex [m] k).getD 0 = 0 := by
  unfold findAssistantCutoffIndex
  rw [if_neg hk]
  show (findAssistantCutoffAux k [(0, m)]).getD 0 = 0
  unfold findAssistantCutoffAux
  by_cases hr : m.role = Role.assistant
  · rw [if_pos hr]
    by_cases h1 : k ≤ 1
    · rw [if_pos h1]
      rfl
    · rw [if_neg h1]
      rfl
  · rw [if_neg hr]
    rfl

/-- Half the char window in integer terms. -/
theorem half_lt_mkRat_iff (W : Nat) (c : Int) :
    mkRat 1 2 < mkRat c (jsMaxNat 1 W * CHARS_PER_TOKEN_ESTIMATE) ↔
      2 * ((jsMaxNat 1 W : Nat) : Int) < c := by
  have hcw : (0 : Nat) < jsMaxNat 1 W * CHARS_PER_TOKEN_ESTIMATE := by
    have := jsMaxNat_one_pos W
    simp [CHARS_PER_TOKEN_ESTIMATE]
    omega
  rw [mkRat_lt_mkRat_iff 1 2 c _ (by omega) hcw]
  have hcast : ((jsMaxNat 1 W * CHARS_PER_TOKEN_ESTIMATE : Nat) : Int) =
      4 * ((jsMaxNat 1 W : Nat) : Int) := by
    simp [CHARS_PER_TOKEN_ESTIMATE]
    ring
  omega

/-- Layer 3 on an over-budget singleton keeps the singleton. -/
theorem applyMessageDrop_singleton_big (m : Message) (budget : Int) (k : Nat)
    (hk : k ≠ 0) (h0 : 0 ≤ budget)
    (hbig : budget < (estimateMessagesChars [m] : Int)) :
    (applyMessageDrop [m] budget k).1 = [m] := by
  simp only [applyMessageDrop, cutoff_singleton m k hk]
  rw [if_pos (by simpa using hbig)]
  rw [sliceWithinBudget_drop [m] budget h0]
  simp

/-- Layer 2 on an over-half-window singleton is the value identity when its
prunable chars are under the threshold or its eligible contents are already
placeholders. -/
theorem applyHardClear_singleton_id (m : Message) (W : Nat)
    (hbig : 2 * ((jsMaxNat 1 W : Nat) : Int) < (estimateMessagesChars [m] : Int))
    (hcase : countPrunableToolChars [m]
        (makeToolPrunablePredicate DEFAULT_CONTEXT_PRUNING_SETTINGS.tools) <
        DEFAULT_CONTEXT_PRUNING_SETTINGS.minPrunableToolChars
      ∨ (∀ b ∈ blocksOf m, ∀ id name c,
          b = ContentBlock.tool_result id name (some c) → c.length > 0 →
          c = DEFAULT_CONTEXT_PRUNING_SETTINGS.hardClear.placeholder)) :
    (applyHardClear [m] DEFAULT_CONTEXT_PRUNING_SETTINGS
      (makeToolPrunablePredicate DEFAULT_CONTEXT_PRUNING_SETTINGS.tools)
      (jsMaxNat 1 W * CHARS_PER_TOKEN_ESTIMATE)).1 = [m] := by
  have hrat : ¬ (mkRat ((estimateMessagesChars [m] : Nat) : Int)
      (jsMaxNat 1 W * CHARS_PER_TOKEN_ESTIMATE) <
        DEFAULT_CONTEXT_PRUNING_SETTINGS.hardClearRatio) :=
    lt_asymm ((half_lt_mkRat_iff W _).mpr hbig)
  unfold applyHardClear
  rw [if_neg (by decide), if_neg hrat]
  rcases hcase with hcnt | hall
  · rw [if_pos hcnt]
  · by_cases hcnt : countPrunableToolChars [m]
        (makeToolPrunablePredicate DEFAULT_CONTEXT_PRUNING_SETTINGS.tools) <
        DEFAULT_CONTEXT_PRUNING_SETTINGS.minPrunableToolChars
    · rw [if_pos hcnt]
    · rw [if_neg hcnt]
      show (hardClearGoMessages DEFAULT_CONTEXT_PRUNING_SETTINGS
          (makeToolPrunablePredicate DEFAULT_CONTEXT_PRUNING_SETTINGS.tools)
          (jsMaxNat 1 W * CHARS_PER_TOKEN_ESTIMATE) [m]
          ((estimateMessagesChars [m] : Nat) : Int)).1 = [m]
      refine hardClearGoMessages_id_of_cleared _ _ _ [m] _ ?_
      intro m2 hm2
      rw [List.mem_singleton.mp hm2]
      exact hall

/-- Fixed point in the layer-3 fallback: an over-budget singleton whose tool
contents fit the soft-trim bound and which layer 2 leaves unchanged is
returned unchanged by the default-settings pruner. -/
theorem prune_fixpoint_oversized (m : Message) (W : Nat)
    (hP : ToolContentsFit 4000 [m])
    (hbig : 2 * ((jsMaxNat 1 W : Nat) : Int) < (estimateMessagesChars [m] : Int))
    (hclear : (applyHardClear [m] DEFAULT_CONTEXT_PRUNING_SETTINGS
        (makeToolPrunablePredicate DEFAULT_CONTEXT_PRUNING_SETTINGS.tools)
        (jsMaxNat 1 W * CHARS_PER_TOKEN_ESTIMATE)).1 = [m]) :
    (pruneContextMessages [m] W DEFAULT_CONTEXT_PRUNING_SETTINGS).messages = [m] := by
  have hP' : ToolContentsFit DEFAULT_CONTEXT_PRUNING_SETTINGS.softTrim.maxChars [m] := hP
  have hsoftif : (if mkRat ((estimateMessagesChars [m] : Nat) : Int)
        (jsMaxNat 1 W * CHARS_PER_TOKEN_ESTIMATE) >
          DEFAULT_CONTEXT_PRUNING_SETTINGS.softTrimRatio then
      applySoftTrim [m] DEFAULT_CONTEXT_PRUNING_SETTINGS
        (makeToolPrunablePredicate DEFAULT_CONTEXT_PRUNING_SETTINGS.tools)
    else ([m], 0)) = ([m], 0) := by
    by_cases hc : mkRat ((estimateMessagesChars [m] : Nat) : Int)
        (jsMaxNat 1 W * CHARS_PER_TOKEN_ESTIMATE) >
          DEFAULT_CONTEXT_PRUNING_SETTINGS.softTrimRatio
    · rw [if_pos hc]
      exact applySoftTrim_id_of_fit [m] DEFAULT_CONTEXT_PRUNING_SETTINGS _ hP'
    · rw [if_neg hc]
  have hc2 : mkRat ((estimateMessagesChars [m] : Nat) : Int)
      (jsMaxNat 1 W * CHARS_PER_TOKEN_ESTIMATE) >
        DEFAULT_CONTEXT_PRUNING_SETTINGS.hardClearRatio := by
    show mkRat 1 2 < mkRat ((estimateMessagesChars [m] : Nat) : Int)
      (jsMaxNat 1 W * CHARS_PER_TOKEN_ESTIMATE)
    exact (half_lt_mkRat_iff W _).mpr hbig
  have hbudget : jsMaxInt 1 (Rat.floor (ratMulIntRat
      ((jsMaxNat 1 W * CHARS_PER_TOKEN_ESTIMATE : Nat) : Int)
      DEFAULT_CONTEXT_PRUNING_SETTINGS.maxHistoryShare)) =
      2 * ((jsMaxNat 1 W : Nat) : Int) := by
    have h2 : DEFAULT_CONTEXT_PRUNING_SETTINGS.maxHistoryShare = mkRat 1 2 := rfl
    rw [h2, default_budgetChars (jsMaxNat 1 W) (jsMaxNat_one_pos W)]
    have h3 : ((jsMaxNat 1 W * CHARS_PER_TOKEN_ESTIMATE : Nat) : Int) =
        4 * ((jsMaxNat 1 W : Nat) : Int) := by
      simp [CHARS_PER_TOKEN_ESTIMATE]
      ring
    omega
  simp only [pruneContextMessages, hsoftif]
  rw [if_pos hc2, hclear]
  rw [if_neg (by rw [hbudget]; omega)]
  exact applyMessageDrop_singleton_big m _ DEFAULT_CONTEXT_PRUNING_SETTINGS.keepLastAssistants
    (by decide) (by rw [hbudget]; omega) (by rw [hbudget]; exact hbig)

/-- C6 (amended): at the default settings, whenever the soft-trim
replacement text fits `maxChars` (true of any realistically sized content),
applying `pruneContextMessages` to its own kept output with the same window
and settings returns the kept output unchanged — including the layer-3
fallback that keeps a single over-budget message.  (The unconditional
claim over every settings is refuted separately: adversarial soft-trim
settings re-trim their own trim marker.) -/
theorem c6_prune_idempotent_amended (msgs : List Message) (W : Nat)
    (hst : SoftTrimOutputFits DEFAULT_CONTEXT_PRUNING_SETTINGS msgs) :
    (pruneContextMessages
        (pruneContextMessages msgs W DEFAULT_CONTEXT_PRUNING_SETTINGS).messages W
        DEFAULT_CONTEXT_PRUNING_SETTINGS).messages =
      (pruneContextMessages msgs W DEFAULT_CONTEXT_PRUNING_SETTINGS).messages := by
  by_cases hratio : mkRat ((estimateMessagesChars msgs : Nat) : Int)
      (jsMaxNat 1 W * CHARS_PER_TOKEN_ESTIMATE) >
        DEFAULT_CONTEXT_PRUNING_SETTINGS.softTrimRatio
  case neg =>
    have h1 := prune_noop_default msgs W hratio
    rw [h1]
    exact h1
  case pos =>
  have hP : ToolContentsFit 4000
      (pruneContextMessages msgs W DEFAULT_CONTEXT_PRUNING_SETTINGS).messages :=
    prune_toolContentsFit_default msgs W hst hratio
  have hbudget : jsMaxInt 1 (Rat.floor (ratMulIntRat
      ((jsMaxNat 1 W * CHARS_PER_TOKEN_ESTIMATE : Nat) : Int)
      DEFAULT_CONTEXT_PRUNING_SETTINGS.maxHistoryShare)) =
      2 * ((jsMaxNat 1 W : Nat) : Int) := by
    have h2 : DEFAULT_CONTEXT_PRUNING_SETTINGS.maxHistoryShare = mkRat 1 2 := rfl
    rw [h2, default_budgetChars (jsMaxNat 1 W) (jsMaxNat_one_pos W)]
    have h3 : ((jsMaxNat 1 W * CHARS_PER_TOKEN_ESTIMATE : Nat) : Int) =
        4 * ((jsMaxNat 1 W : Nat) : Int) := by
      simp [CHARS_PER_TOKEN_ESTIMATE]
      ring
    omega
  by_cases hfit : (estimateMessagesChars
      (pruneContextMessages msgs W DEFAULT_CONTEXT_PRUNING_SETTINGS).messages : Int) ≤
      2 * ((jsMaxNat 1 W : Nat) : Int)
  · exact prune_fixpoint_default _ W hP hfit
  · -- the kept output exceeds the budget: run 1 ended in the layer-3
    -- single-message fallback
    have hc2 : mkRat ((estimateMessagesChars (applySoftTrim msgs
        DEFAULT_CONTEXT_PRUNING_SETTINGS (makeToolPrunablePredicate
          DEFAULT_CONTEXT_PRUNING_SETTINGS.tools)).1 : Nat) : Int)
        (jsMaxNat 1 W * CHARS_PER_TOKEN_ESTIMATE) >
          DEFAULT_CONTEXT_PRUNING_SETTINGS.hardClearRatio := by
      by_contra hc2n
      have hle : ((estimateMessagesChars (applySoftTrim msgs
          DEFAULT_CONTEXT_PRUNING_SETTINGS (makeToolPrunablePredicate
            DEFAULT_CONTEXT_PRUNING_SETTINGS.tools)).1 : Nat) : Int) ≤
          2 * ((jsMaxNat 1 W : Nat) : Int) := by
        have hhalf : ¬ (mkRat 1 2 < mkRat ((estimateMessagesChars (applySoftTrim msgs
            DEFAULT_CONTEXT_PRUNING_SETTINGS (makeToolPrunablePredicate
              DEFAULT_CONTEXT_PRUNING_SETTINGS.tools)).1 : Nat) : Int)
            (jsMaxNat 1 W * CHARS_PER_TOKEN_ESTIMATE)) := hc2n
        rw [half_lt_mkRat_iff] at hhalf
        omega
      have hK1 : (pruneContextMessages msgs W DEFAULT_CONTEXT_PRUNING_SETTINGS).messages =
          (applySoftTrim msgs DEFAULT_CONTEXT_PRUNING_SETTINGS
            (makeToolPrunablePredicate DEFAULT_CONTEXT_PRUNING_SETTINGS.tools)).1 := by
        simp only [pruneContextMessages]
        rw [if_pos hratio, if_neg hc2n, if_pos (by rw [hbudget]; exact hle)]
      exact hfit (by rw [hK1]; exact hle)
    by_cases hfin : ((estimateMessagesChars (applyHardClear (applySoftTrim msgs
        DEFAULT_CONTEXT_PRUNING_SETTINGS (makeToolPrunablePredicate
          DEFAULT_CONTEXT_PRUNING_SETTINGS.tools)).1
        DEFAULT_CONTEXT_PRUNING_SETTINGS (makeToolPrunablePredicate
          DEFAULT_CONTEXT_PRUNING_SETTINGS.tools)
        (jsMaxNat 1 W * CHARS_PER_TOKEN_ESTIMATE)).1 : Nat) : Int) ≤
        jsMaxInt 1 (Rat.floor (ratMulIntRat
          ((jsMaxNat 1 W * CHARS_PER_TOKEN_ESTIMATE : Nat) : Int)
          DEFAULT_CONTEXT_PRUNING_SETTINGS.maxHistoryShare))
    · have hK1 : (pruneContextMessages msgs W DEFAULT_CONTEXT_PRUNING_SETTINGS).messages =
          (applyHardClear (applySoftTrim msgs DEFAULT_CONTEXT_PRUNING_SETTINGS
              (makeToolPrunablePredicate DEFAULT_CONTEXT_PRUNING_SETTINGS.tools)).1
            DEFAULT_CONTEXT_PRUNING_SETTINGS (makeToolPrunablePredicate
              DEFAULT_CONTEXT_PRUNING_SETTINGS.tools)
            (jsMaxNat 1 W * CHARS_PER_TOKEN_ESTIMATE)).1 := by
        simp only [pruneContextMessages]
        rw [if_pos hratio, if_pos hc2, if_pos hfin]
      refine absurd ?_ hfit
      rw [hK1]
      rw [hbudget] at hfin
      exact hfin
    · have hK1 : (pruneContextMessages msgs W DEFAULT_CONTEXT_PRUNING_SETTINGS).messages =
          (applyMessageDrop (applyHardClear (applySoftTrim msgs
              DEFAULT_CONTEXT_PRUNING_SETTINGS (makeToolPrunablePredicate
                DEFAULT_CONTEXT_PRUNING_SETTINGS.tools)).1
            DEFAULT_CONTEXT_PRUNING_SETTINGS (makeToolPrunablePredicate
              DEFAULT_CONTEXT_PRUNING_SETTINGS.tools)
            (jsMaxNat 1 W * CHARS_PER_TOKEN_ESTIMATE)).1
            (jsMaxInt 1 (Rat.floor (ratMulIntRat
              ((jsMaxNat 1 W * CHARS_PER_TOKEN_ESTIMATE : Nat) : Int)
              DEFAULT_CONTEXT_PRUNING_SETTINGS.maxHistoryShare)))
            DEFAULT_CONTEXT_PRUNING_SETTINGS.keepLastAssistants).1 := by
        simp only [pruneContextMessages]
        rw [if_pos hratio, if_pos hc2, if_neg hfin]
      set soft1 : List Message := (applySoftTrim msgs DEFAULT_CONTEXT_PRUNING_SETTINGS
        (makeToolPrunablePredicate DEFAULT_CONTEXT_PRUNING_SETTINGS.tools)).1 with hsoft1def
      set clear1 : List Message := (applyHardClear soft1
        DEFAULT_CONTEXT_PRUNING_SETTINGS (makeToolPrunablePredicate
          DEFAULT_CONTEXT_PRUNING_SETTINGS.tools)
        (jsMaxNat 1 W * CHARS_PER_TOKEN_ESTIMATE)).1 with hclear1def
      set budgetE : Int := jsMaxInt 1 (Rat.floor (ratMulIntRat
        ((jsMaxNat 1 W * CHARS_PER_TOKEN_ESTIMATE : Nat) : Int)
        DEFAULT_CONTEXT_PRUNING_SETTINGS.maxHistoryShare)) with hbudgetEdef
      have hoverall : budgetE < (estimateMessagesChars clear1 : Int) := by omega
      have hnpos := jsMaxNat_one_pos W
      have hne : clear1 ≠ [] := by
        intro h0
        rw [h0] at hoverall
        simp only [estimateMessagesChars, List.map_nil, List.sum_nil,
          Nat.cast_zero] at hoverall
        omega
      have hJle := cutoff_le_length clear1 DEFAULT_CONTEXT_PRUNING_SETTINGS.keepLastAssistants
      by_cases hJfit : (estimateMessagesChars (clear1.drop
          ((findAssistantCutoffIndex clear1
            DEFAULT_CONTEXT_PRUNING_SETTINGS.keepLastAssistants).getD 0)) : Int) ≤ budgetE
      · -- the protected suffix fits: layer 3 keeps the maximal fitting
        -- suffix, which is within budget, contradicting hfit
        have hkept : (applyMessageDrop clear1 budgetE
            DEFAULT_CONTEXT_PRUNING_SETTINGS.keepLastAssistants).1 =
            clear1.drop (leastDropIndexFit clear1 budgetE) := by
          simp only [applyMessageDrop]
          rw [if_neg (by omega)]
          exact (extendBackward_drop clear1 budgetE _ hJle hJfit).1
        refine absurd ?_ hfit
        rw [hK1, hkept]
        have hfits := leastDropIndexFit_fits clear1 budgetE (by omega)
        omega
      · have hslice : (applyMessageDrop clear1 budgetE
            DEFAULT_CONTEXT_PRUNING_SETTINGS.keepLastAssistants).1 =
            clear1.drop (min (leastDropIndexFit clear1 budgetE) (clear1.length - 1)) := by
          simp only [applyMessageDrop]
          rw [if_pos (by omega)]
          exact sliceWithinBudget_drop clear1 budgetE (by omega)
        by_cases hlf : leastDropIndexFit clear1 budgetE ≤ clear1.length - 1
        · refine absurd ?_ hfit
          rw [hK1, hslice, min_eq_left hlf]
          have hfits := leastDropIndexFit_fits clear1 budgetE (by omega)
          omega
        · have hlenpos : 1 ≤ clear1.length := List.length_pos.mpr hne
          have hlfit_eq : leastDropIndexFit clear1 budgetE = clear1.length := by
            have := leastDropIndexFit_le_length clear1 budgetE
            omega
          have hmin : min (leastDropIndexFit clear1 budgetE) (clear1.length - 1) =
              clear1.length - 1 := by
            rw [min_eq_right (by omega)]
          have hlen1 : (clear1.drop (clear1.length - 1)).length = 1 := by
            rw [List.length_drop]
            omega
          obtain ⟨m, hm⟩ := List.length_eq_one.mp hlen1
          have hK1m : (pruneContextMessages msgs W
              DEFAULT_CONTEXT_PRUNING_SETTINGS).messages = [m] := by
            rw [hK1, hslice, hmin, hm]
          have hmbig : budgetE < (estimateMessagesChars [m] : Int) := by
            rw [← hm]
            exact leastDropIndexFit_lt clear1 budgetE (clear1.length - 1) (by omega)
          have hmbig2n : 2 * ((jsMaxNat 1 W : Nat) : Int) <
              (estimateMessagesChars [m] : Int) := by omega
          have hmmem : m ∈ clear1 := by
            refine List.drop_subset (clear1.length - 1) clear1 ?_
            rw [hm]
            exact List.mem_singleton_self m
          -- layer 2 of run 2 is the value identity on [m]
          have hrat1 : ¬ (mkRat ((estimateMessagesChars soft1 : Nat) : Int)
              (jsMaxNat 1 W * CHARS_PER_TOKEN_ESTIMATE) <
                DEFAULT_CONTEXT_PRUNING_SETTINGS.hardClearRatio) := lt_asymm hc2
          have hclear2 : (applyHardClear [m] DEFAULT_CONTEXT_PRUNING_SETTINGS
              (makeToolPrunablePredicate DEFAULT_CONTEXT_PRUNING_SETTINGS.tools)
              (jsMaxNat 1 W * CHARS_PER_TOKEN_ESTIMATE)).1 = [m] := by
            by_cases hcnt : countPrunableToolChars soft1
                (makeToolPrunablePredicate DEFAULT_CONTEXT_PRUNING_SETTINGS.tools) <
                DEFAULT_CONTEXT_PRUNING_SETTINGS.minPrunableToolChars
            · -- run 1 cleared nothing: the singleton's prunable chars are
              -- also under the threshold
              have hcl : clear1 = soft1 := by
                rw [hclear1def]
                unfold applyHardClear
                rw [if_neg (by decide), if_neg hrat1, if_pos hcnt]
              refine applyHardClear_singleton_id m W hmbig2n (Or.inl ?_)
              refine lt_of_le_of_lt (countPrunableToolChars_singleton_le soft1 _ m ?_) hcnt
              rw [← hcl]
              exact hmmem
            · -- run 1's scan ran and ended at or above the ratio: every
              -- eligible content of the kept messages is the placeholder
              have hcl : clear1 = (hardClearGoMessages DEFAULT_CONTEXT_PRUNING_SETTINGS
                  (makeToolPrunablePredicate DEFAULT_CONTEXT_PRUNING_SETTINGS.tools)
                  (jsMaxNat 1 W * CHARS_PER_TOKEN_ESTIMATE) soft1
                  ((estimateMessagesChars soft1 : Nat) : Int)).1 := by
                rw [hclear1def]
                unfold applyHardClear
                rw [if_neg (by decide), if_neg hrat1, if_neg hcnt]
              have hled := hardClearGoMessages_ledger DEFAULT_CONTEXT_PRUNING_SETTINGS
                (makeToolPrunablePredicate DEFAULT_CONTEXT_PRUNING_SETTINGS.tools)
                (jsMaxNat 1 W * CHARS_PER_TOKEN_ESTIMATE) soft1
                ((estimateMessagesChars soft1 : Nat) : Int)
              have hfinal : (hardClearGoMessages DEFAULT_CONTEXT_PRUNING_SETTINGS
                  (makeToolPrunablePredicate DEFAULT_CONTEXT_PRUNING_SETTINGS.tools)
                  (jsMaxNat 1 W * CHARS_PER_TOKEN_ESTIMATE) soft1
                  ((estimateMessagesChars soft1 : Nat) : Int)).2.1 =
                  (estimateMessagesChars clear1 : Int) := by
                rw [hled, ← hcl]
                omega
              have hnotlow : ¬ (mkRat (hardClearGoMessages DEFAULT_CONTEXT_PRUNING_SETTINGS
                  (makeToolPrunablePredicate DEFAULT_CONTEXT_PRUNING_SETTINGS.tools)
                  (jsMaxNat 1 W * CHARS_PER_TOKEN_ESTIMATE) soft1
                  ((estimateMessagesChars soft1 : Nat) : Int)).2.1
                  (jsMaxNat 1 W * CHARS_PER_TOKEN_ESTIMATE) <
                    DEFAULT_CONTEXT_PRUNING_SETTINGS.hardClearRatio) := by
                rw [hfinal]
                exact lt_asymm ((half_lt_mkRat_iff W _).mpr (by omega))
              have hall := hardClearGoMessages_allCleared
                DEFAULT_CONTEXT_PRUNING_SETTINGS
                (makeToolPrunablePredicate DEFAULT_CONTEXT_PRUNING_SETTINGS.tools)
                (jsMaxNat 1 W * CHARS_PER_TOKEN_ESTIMATE) default_isPrunable soft1
                ((estimateMessagesChars soft1 : Nat) : Int) hnotlow
              refine applyHardClear_singleton_id m W hmbig2n (Or.inr ?_)
              refine hall m ?_
              rw [← hcl]
              exact hmmem
          rw [hK1m]
          rw [hK1m] at hP
          exact prune_fixpoint_oversized m W hP hmbig2n hclear2

set_option maxRecDepth 10000 in
/-- Witness for C6's amended statement: a one-message history in a
1000-token window (all layers skip), and the same history in a 1-token
window, where the kept output is a single message exceeding the budget
(the layer-3 fallback) and the pruner is still a fixed point. -/
theorem c6_prune_idempotent_amended_witness :
    SoftTrimOutputFits DEFAULT_CONTEXT_PRUNING_SETTINGS wIdemMsgs
    ∧ (pruneContextMessages (pruneContextMessages wIdemMsgs 1000
          DEFAULT_CONTEXT_PRUNING_SETTINGS).messages 1000
          DEFAULT_CONTEXT_PRUNING_SETTINGS).messages =
        (pruneContextMessages wIdemMsgs 1000
          DEFAULT_CONTEXT_PRUNING_SETTINGS).messages
    ∧ ¬ ((estimateMessagesChars (pruneContextMessages wIdemMsgs 1
          DEFAULT_CONTEXT_PRUNING_SETTINGS).messages : Int) ≤
        (pruneContextMessages wIdemMsgs 1
          DEFAULT_CONTEXT_PRUNING_SETTINGS).budgetChars)
    ∧ (pruneContextMessages (pruneContextMessages wIdemMsgs 1
          DEFAULT_CONTEXT_PRUNING_SETTINGS).messages 1
          DEFAULT_CONTEXT_PRUNING_SETTINGS).messages =
        (pruneContextMessages wIdemMsgs 1
          DEFAULT_CONTEXT_PRUNING_SETTINGS).messages :=
  ⟨wIdemMsgs_softTrimOutputFits,
   c6_prune_idempotent_amended wIdemMsgs 1000 wIdemMsgs_softTrimOutputFits,
   by decide,
   c6_prune_idempotent_amended wIdemMsgs 1 wIdemMsgs_softTrimOutputFits⟩
